import Mathlib

/-!
# jargon: tokenizer, synonym filter, lemmatizer and command line

A shallow embedding of the token-stream engine of `clipperhouse/jargon`
(`tokenizer.go`, `synonyms/filter.go`, `lemmatizer.go`), of the contractions
filter (`filters/contractions/filter.go`) and of the command line
(`cmd/jargon/main.go`), together with the properties proved about them.

Conventions of the embedding.

* A Go `string` holding valid code points is a Lean `String`; a `rune` is a `Char`.
* A Go call returns normally, returns a non-nil `error`, or panics.  The type
  `Run` records which; its fourth case `timeout` is the only artefact of the
  embedding: it is returned when a loop that Go runs without a bound has used up
  the iteration budget (`fuel`) it was given.
* A reader (`io.Reader`) is the list of code points it will deliver followed by
  what it reports once they are used up: `none` for `io.EOF`, `some e` for an
  error `e`.
* The punctuation tables of the package (`isPunct`, `leadingPunct`, `midPunct`)
  and `unicode.IsSpace` are taken as a parameter, `Policy`.
-/

namespace Jargon

/-- A Go `error`, identified by its message. -/
abbrev Err := String

/-- The outcome of running a Go call. -/
inductive Run (α : Type) where
  | value (a : α) : Run α
  | failed (e : Err) : Run α
  | panicked : Run α
  | timeout : Run α
  deriving DecidableEq

/-- Applies `f` to the value a call returned. -/
def Run.map {α β : Type} (f : α → β) : Run α → Run β
  | .value a => .value (f a)
  | .failed e => .failed e
  | .panicked => .panicked
  | .timeout => .timeout

/-- The `Token` struct: its text and its classification flags. -/
structure Token where
  value : String
  punct : Bool := false
  space : Bool := false
  isLemma : Bool := false
  deriving DecidableEq

namespace Token

def IsPunct (t : Token) : Bool := t.punct

def IsSpace (t : Token) : Bool := t.space

/-- Modelled from the spec: the declaration of `Token` and its method
`IsLemma` are not among the sources.  The flag read is the one
`NewToken(value, lemma)` sets; a token literal that does not name it leaves it
false. -/
def IsLemma (t : Token) : Bool := t.isLemma

/-- A word is a token that is neither space nor punctuation
(`!token.IsSpace() && !token.IsPunct()`). -/
def isWord (t : Token) : Bool := !t.IsSpace && !t.IsPunct

end Token

def Token.String (t : Token) : String := t.value

/-- The code-point classes the tokenizer consults. -/
structure Policy where
  isSpace : Char → Bool
  isPunct : Char → Bool
  leadingPunct : Char → Bool
  midPunct : Char → Bool

/-- `Join` / `Tokens.String`: the concatenation of the token values, in order. -/
def Join (tokens : List Token) : String :=
  tokens.foldl (fun acc t => acc ++ t.String) ""

/-! ## tokenizer.go -/

/-- The `tokenizer` struct: the reader and the buffer of accepted code points. -/
structure tokenizer where
  incoming : List Char
  fail : Option Err := none
  outgoing : List Char := []
  deriving DecidableEq

def newTokenizer (r : List Char) (fail : Option Err) : tokenizer :=
  { incoming := r, fail := fail, outgoing := [] }

def newTokenFromRune (P : Policy) (r : Char) : Token :=
  { value := String.singleton r, punct := P.isPunct r, space := P.isSpace r }

/-- The `common` map, filled by `init` for six code points. -/
def common (P : Policy) (r : Char) : Option Token :=
  if r ∈ [' ', '\r', '\n', '\t', '.', ','] then some (newTokenFromRune P r) else none

/-- The token made of the accepted code points `b` (`tokenizer.token`, which
also resets the buffer; the callers below do the reset). -/
def token (P : Policy) (b : List Char) : Token :=
  match b with
  | [r] =>
    match common P r with
    | some known => known
    | none => newTokenFromRune P r
  | _ => { value := String.mk b }

/-- Looks at the next code point without consuming it (`peekTerminator`). -/
def peekTerminator (P : Policy) (fail : Option Err) (incoming : List Char) : Run Bool :=
  match incoming with
  | [] =>
    match fail with
    | none => .value true
    | some _ => .panicked
  | r :: _ => .value (P.isPunct r || P.isSpace r)

/-- The loop of `readWord`, by recursion on the code points still to read;
`out` is the buffer of accepted code points. -/
def readWord (P : Policy) (fail : Option Err) :
    List Char → List Char → Run (Option Token × tokenizer)
  | [], out =>
    match fail with
    | none => .value (some (token P out), { incoming := [], fail := fail, outgoing := [] })
    | some e => .failed e
  | r :: rest, out =>
    if P.midPunct r then
      match peekTerminator P fail rest with
      | .value followedByTerminator =>
        if followedByTerminator then
          .value (some (token P out), { incoming := rest, fail := fail, outgoing := [r] })
        else
          readWord P fail rest (out ++ [r])
      | .failed e => .failed e
      | .panicked => .panicked
      | .timeout => .timeout
    else if P.isPunct r || P.isSpace r then
      .value (some (token P out), { incoming := rest, fail := fail, outgoing := [r] })
    else
      readWord P fail rest (out ++ [r])

/-- One pull of the tokenizer (`tokenizer.next`); `none` is the nil token. -/
def tokenizer.next (P : Policy) (t : tokenizer) : Run (Option Token × tokenizer) :=
  if t.outgoing.length > 0 then
    .value (some (token P t.outgoing), { t with outgoing := [] })
  else
    match t.incoming with
    | [] =>
      match t.fail with
      | none => .value (none, t)
      | some e => .failed e
    | r :: rest =>
      if P.isSpace r then
        .value (some (token P (t.outgoing ++ [r])), { t with incoming := rest, outgoing := [] })
      else if P.isPunct r then
        if P.leadingPunct r then
          match peekTerminator P t.fail rest with
          | .value terminator =>
            if !terminator then
              readWord P t.fail rest (t.outgoing ++ [r])
            else
              .value (some (token P (t.outgoing ++ [r])),
                { t with incoming := rest, outgoing := [] })
          | .failed e => .failed e
          | .panicked => .panicked
          | .timeout => .timeout
        else
          .value (some (token P (t.outgoing ++ [r])), { t with incoming := rest, outgoing := [] })
      else
        readWord P t.fail rest (t.outgoing ++ [r])

/-- Pulls until the nil token (`Tokens.ToSlice`), at most `fuel` times. -/
def tokenizer.ToSlice (P : Policy) : Nat → tokenizer → Run (List Token)
  | 0, _ => .timeout
  | fuel + 1, t =>
    match t.next P with
    | .value (none, _) => .value []
    | .value (some tok, t') =>
      match tokenizer.ToSlice P fuel t' with
      | .value toks => .value (tok :: toks)
      | .failed e => .failed e
      | .panicked => .panicked
      | .timeout => .timeout
    | .failed e => .failed e
    | .panicked => .panicked
    | .timeout => .timeout

/-- The tokens of an in-memory string (`TokenizeString(s).ToSlice()`): the
reader of a string ends with `io.EOF`, and one pull per code point plus the
final one is enough. -/
def TokenizeString (P : Policy) (s : String) : Run (List Token) :=
  tokenizer.ToSlice P (s.data.length + 1) (newTokenizer s.data none)

/-! ## Collaborators of the synonym filter that are not among the sources -/

/-- An incoming token stream (`*jargon.Tokens`), given by the tokens its `Next`
will deliver, in order, and by what it reports after the last of them: `none`
for the nil token (end of stream), `some e` for the error `e`. -/
structure Tokens where
  pending : List Token
  fail : Option Err := none
  deriving DecidableEq

/-- One pull of an incoming stream. -/
def Tokens.Next (s : Tokens) : Run (Option Token × Tokens) :=
  match s.pending with
  | token :: rest => .value (some token, { s with pending := rest })
  | [] =>
    match s.fail with
    | none => .value (none, s)
    | some e => .failed e

/-- Modelled from the spec: the `TokenQueue` type is not among the sources.  It
is the "ordered buffer with push/pop/drop/flush operations" of the spec: `Push`
appends at the back, `Pop` takes from the front, `Drop n` discards the first
`n` tokens, `PopTo` and `FlushTo` move the first token, respectively all
tokens, to the back of another queue in their original order.  Taking from an
empty queue and dropping more tokens than are held are the defects the spec
mentions; they give `none` (a Go panic). -/
structure TokenQueue where
  Tokens : List Token := []
  deriving DecidableEq

namespace TokenQueue

def Any (q : TokenQueue) : Bool := q.Tokens.length > 0

def Push (q : TokenQueue) (token : Token) : TokenQueue := { Tokens := q.Tokens ++ [token] }

def Pop (q : TokenQueue) : Option (Token × TokenQueue) :=
  match q.Tokens with
  | [] => none
  | token :: rest => some (token, { Tokens := rest })

def Drop (q : TokenQueue) (n : Nat) : Option TokenQueue :=
  if n ≤ q.Tokens.length then some { Tokens := q.Tokens.drop n } else none

/-- `q.PopTo(dst)`: the new `q` and the new `dst`. -/
def PopTo (q dst : TokenQueue) : Option (TokenQueue × TokenQueue) :=
  match q.Pop with
  | none => none
  | some (token, q') => some (q', dst.Push token)

/-- `q.FlushTo(dst)`: the new `q` and the new `dst`. -/
def FlushTo (q dst : TokenQueue) : TokenQueue × TokenQueue :=
  ({ Tokens := [] }, { Tokens := dst.Tokens ++ q.Tokens })

end TokenQueue

/-- Modelled from the spec: `jargon.NewToken` is not among the sources.  It
builds a token from a string and a lemma flag; a string of one code point is
classified like a token of the tokenizer. -/
def NewToken (P : Policy) (s : String) (isLemma : Bool) : Token :=
  match s.data with
  | [r] => { value := s, punct := P.isPunct r, space := P.isSpace r, isLemma := isLemma }
  | _ => { value := s, isLemma := isLemma }

/-- The operations of package `trie` that the filter calls, over a trie type
`τ`: `trie.New(ignoreCase, ignoreRunes)`, `Add(tokens, canonical)` (called as a
statement, so only the trie it leaves behind is seen) and
`SearchCanonical(run...)`, which gives `(found, canonical, consumed)`. -/
structure TrieOps (τ : Type) where
  New : Bool → List Char → τ
  Add : τ → List Token → String → τ
  SearchCanonical : τ → List Token → Bool × String × Nat

/-! ## synonyms/filter.go -/

/-- The `Filter` struct.  `maxWords` starts at 1 in `NewFilter` and only grows,
so a natural number holds it. -/
structure Filter (τ : Type) where
  trie : τ
  maxWords : Nat
  deriving DecidableEq

/-- The word count of `updateMaxWords` and of the first loop of `fill`. -/
def countWords (tokens : List Token) : Nat :=
  tokens.countP (fun token => !token.IsSpace && !token.IsPunct)

def updateMaxWords (tokens : List Token) (maxWords : Nat) : Nat :=
  let words := countWords tokens
  if words > maxWords then words else maxWords

/-- The state that the loop over the tokens of one key of `NewFilter` carries. -/
structure phraseState (τ : Type) where
  trie : τ
  maxWords : Nat
  start : Nat
  skipSpaces : Bool

/-- The loop `for i, token := range tokens` of `NewFilter`, by recursion on the
tokens from index `i` on. -/
def phraseLoop {τ : Type} (ops : TrieOps τ) (tokens : List Token) (canonical : String) :
    List Token → Nat → phraseState τ → phraseState τ
  | [], _, st => st
  | token :: rest, i, st =>
    if st.skipSpaces && token.IsSpace then
      phraseLoop ops tokens canonical rest (i + 1) { st with start := st.start + 1 }
    else if token.String = "," then
      let slice := (tokens.take i).drop st.start
      phraseLoop ops tokens canonical rest (i + 1)
        { trie := ops.Add st.trie slice canonical,
          maxWords := updateMaxWords slice st.maxWords,
          start := i + 1,
          skipSpaces := true }
    else
      phraseLoop ops tokens canonical rest (i + 1) { st with skipSpaces := false }

/-- The loop `for synonyms, canonical := range mappings` of `NewFilter`; the
list gives the order in which the map is ranged over. -/
def mappingsLoop {τ : Type} (P : Policy) (ops : TrieOps τ) :
    List (String × String) → τ → Nat → Run (τ × Nat)
  | [], trie, maxWords => .value (trie, maxWords)
  | (synonyms, canonical) :: rest, trie, maxWords =>
    match TokenizeString P synonyms with
    | .value tokens =>
      let st := phraseLoop ops tokens canonical tokens 0
        { trie := trie, maxWords := maxWords, start := 0, skipSpaces := true }
      let slice := tokens.drop st.start
      mappingsLoop P ops rest (ops.Add st.trie slice canonical) (updateMaxWords slice st.maxWords)
    | .failed e => .failed e
    | .panicked => .panicked
    | .timeout => .timeout

/-- `NewFilter(mappings, ignoreCase, ignoreRunes)`: the filter, or the error. -/
def NewFilter {τ : Type} (P : Policy) (ops : TrieOps τ) (mappings : List (String × String))
    (ignoreCase : Bool) (ignoreRunes : List Char) : Run (Filter τ) :=
  match mappingsLoop P ops mappings (ops.New ignoreCase ignoreRunes) 1 with
  | .value (trie, maxWords) => .value { trie := trie, maxWords := maxWords }
  | .failed e => .failed e
  | .panicked => .panicked
  | .timeout => .timeout

/-- The `tokens` struct: the state of one filtered stream. -/
structure tokens (τ : Type) where
  incoming : Tokens
  buffer : TokenQueue
  outgoing : TokenQueue
  filter : Filter τ
  deriving DecidableEq

set_option linter.dupNamespace false in
/-- `Filter.Filter(incoming)`: the initial state of the filtered stream. -/
def Filter.Filter {τ : Type} (f : Filter τ) (incoming : Tokens) : tokens τ :=
  { incoming := incoming, buffer := {}, outgoing := {}, filter := f }

/-- The loop `for words < t.filter.maxWords` of `fill`, by recursion on the
tokens the incoming stream still holds, each iteration being one
`t.incoming.Next()`; it gives the stream and the buffer it leaves. -/
def fillLoop (maxWords : Nat) (fail : Option Err) :
    List Token → Nat → TokenQueue → Run (Tokens × TokenQueue)
  | [], words, buffer =>
    if words < maxWords then
      match fail with
      | none => .value ({ pending := [], fail := fail }, buffer)
      | some e => .failed e
    else
      .value ({ pending := [], fail := fail }, buffer)
  | token :: rest, words, buffer =>
    if words < maxWords then
      let buffer := buffer.Push token
      if token.IsPunct then
        .value ({ pending := rest, fail := fail }, buffer)
      else if token.IsSpace then
        fillLoop maxWords fail rest words buffer
      else
        fillLoop maxWords fail rest (words + 1) buffer
    else
      .value ({ pending := token :: rest, fail := fail }, buffer)

/-- Fills the buffer until EOF, punctuation, or enough word tokens (`tokens.fill`). -/
def tokens.fill {τ : Type} (t : tokens τ) : Run (tokens τ) :=
  let words := t.buffer.Tokens.countP (fun token => !token.IsPunct && !token.IsSpace)
  match fillLoop t.filter.maxWords t.incoming.fail t.incoming.pending words t.buffer with
  | .value (incoming, buffer) => .value { t with incoming := incoming, buffer := buffer }
  | .failed e => .failed e
  | .panicked => .panicked
  | .timeout => .timeout

/-- The first loop of `wordrun`: the number of leading space tokens. -/
def leadingSpaces : List Token → Nat
  | [] => 0
  | token :: rest => if !token.IsSpace then 0 else leadingSpaces rest + 1

/-- The second loop of `wordrun`: the value of `end` when the loop over the
tokens from index `i` on is left; `words` and `e` are the values of `words` and
`end` so far. -/
def runEnd (maxWords : Nat) : List Token → Nat → Nat → Nat → Nat
  | [], _, _, e => e
  | token :: rest, i, words, e =>
    if token.IsPunct then e
    else
      let e := i + 1
      let words := if !token.IsSpace then words + 1 else words
      if words ≥ maxWords then e else runEnd maxWords rest (i + 1) words e

/-- The run of word tokens at the front of the buffer, and the state left
(`tokens.wordrun`). -/
def tokens.wordrun {τ : Type} (t : tokens τ) : Run (List Token × tokens τ) :=
  let spaces := leadingSpaces t.buffer.Tokens
  let outgoing : TokenQueue := { Tokens := t.outgoing.Tokens ++ t.buffer.Tokens.take spaces }
  match t.buffer.Drop spaces with
  | none => .panicked
  | some buffer =>
    let e := runEnd t.filter.maxWords buffer.Tokens 0 0 0
    .value (buffer.Tokens.take e, { t with buffer := buffer, outgoing := outgoing })

/-- The loop `for` of `tokens.next`: the state at its `break`, after at most
`fuel` iterations. -/
def tokens.loop {τ : Type} (P : Policy) (ops : TrieOps τ) : Nat → tokens τ → Run (tokens τ)
  | 0, _ => .timeout
  | fuel + 1, t =>
    match t.fill with
    | .value t =>
      match t.wordrun with
      | .value (run, t) =>
        if run.length = 0 then .value t
        else
          match ops.SearchCanonical t.filter.trie run with
          | (found, canonical, consumed) =>
            if found then
              let outgoing :=
                if canonical ≠ "" then t.outgoing.Push (NewToken P canonical true) else t.outgoing
              match t.buffer.Drop consumed with
              | none => .panicked
              | some buffer => tokens.loop P ops fuel { t with buffer := buffer, outgoing := outgoing }
            else
              match t.buffer.PopTo t.outgoing with
              | none => .panicked
              | some (buffer, outgoing) =>
                tokens.loop P ops fuel { t with buffer := buffer, outgoing := outgoing }
      | .failed e => .failed e
      | .panicked => .panicked
      | .timeout => .timeout
    | .failed e => .failed e
    | .panicked => .panicked
    | .timeout => .timeout

/-- One pull of the filtered stream (`tokens.next`); its loop may run `fuel`
times. -/
def tokens.next {τ : Type} (P : Policy) (ops : TrieOps τ) (fuel : Nat) (t : tokens τ) :
    Run (Option Token × tokens τ) :=
  if t.outgoing.Any then
    match t.outgoing.Pop with
    | some (token, outgoing) => .value (some token, { t with outgoing := outgoing })
    | none => .panicked
  else
    match tokens.loop P ops fuel t with
    | .value t =>
      match t.buffer.FlushTo t.outgoing with
      | (buffer, outgoing) =>
        let t := { t with buffer := buffer, outgoing := outgoing }
        if t.outgoing.Any then
          match t.outgoing.Pop with
          | some (token, outgoing) => .value (some token, { t with outgoing := outgoing })
          | none => .panicked
        else
          .value (none, t)
    | .failed e => .failed e
    | .panicked => .panicked
    | .timeout => .timeout

/-- Pulls the filtered stream until the nil token (`Tokens.ToSlice`), at most
`fuel` times, each pull with `fuel` iterations for its loop. -/
def tokens.ToSlice {τ : Type} (P : Policy) (ops : TrieOps τ) (fuel : Nat) :
    Nat → tokens τ → Run (List Token)
  | 0, _ => .timeout
  | n + 1, t =>
    match t.next P ops fuel with
    | .value (none, _) => .value []
    | .value (some token, t') =>
      match tokens.ToSlice P ops fuel n t' with
      | .value toks => .value (token :: toks)
      | .failed e => .failed e
      | .panicked => .panicked
      | .timeout => .timeout
    | .failed e => .failed e
    | .panicked => .panicked
    | .timeout => .timeout

/-! ## lemmatizer.go -/

/-- The `Lemmatizer` struct; `values` is the lookup in the map of that name. -/
structure Lemmatizer where
  values : String → Option String
  maxGramLength : Int
  normalize : String → String

/-- The loop `for len(taken) < take` of `wordrun`.  Reading `tokens[end]` at
an index that is not in the slice is a Go panic.  Every iteration that goes on
moves `end` one further, so `len(tokens) + 1` iterations are all it can make;
`fuel` counts them. -/
def wordrunLoop (tokens : List Token) (skip : Nat) (take : Int) :
    Nat → List Token → Nat → Run (List Token × Nat × Bool)
  | 0, _, _ => .timeout
  | fuel + 1, taken, consumed =>
    if (taken.length : Int) < take then
      let e := skip + consumed
      match tokens.get? e with
      | none => .panicked
      | some candidate =>
        if candidate.IsPunct then
          .value ([], 0, false)
        else if candidate.IsSpace then
          wordrunLoop tokens skip take fuel taken (consumed + 1)
        else
          wordrunLoop tokens skip take fuel (taken ++ [candidate]) (consumed + 1)
    else
      .value (taken, consumed, true)

/-- `wordrun(tokens, skip, take)`: the words taken, the tokens consumed, `ok`. -/
def wordrun (tokens : List Token) (skip : Nat) (take : Int) : Run (List Token × Nat × Bool) :=
  wordrunLoop tokens skip take (tokens.length + 1) [] 0

/-- The loop `Grams` of `LemmatizeTokens`, `for take := lem.maxGramLength; take
> 0; take--`, by recursion on `take`; it gives `lemmatized` and `pos` as the
loop leaves them. -/
def gramsLoop (lem : Lemmatizer) (tokens : List Token) :
    Nat → List Token → Nat → Run (List Token × Nat)
  | 0, lemmatized, pos => .value (lemmatized, pos)
  | take + 1, lemmatized, pos =>
    match wordrun tokens pos (take + 1 : Nat) with
    | .value (run, consumed, ok) =>
      if ok then
        let gram := Join run
        let key := lem.normalize gram
        match lem.values key with
        | some canonical =>
          let token : Token := { value := canonical, space := false, punct := false }
          .value (lemmatized ++ [token], pos + consumed)
        | none =>
          if take + 1 = 1 then
            match tokens.get? pos with
            | some token => gramsLoop lem tokens take (lemmatized ++ [token]) (pos + 1)
            | none => .panicked
          else
            gramsLoop lem tokens take lemmatized pos
      else
        gramsLoop lem tokens take lemmatized pos
    | .failed e => .failed e
    | .panicked => .panicked
    | .timeout => .timeout

/-- The loop `for pos < len(tokens)` of `LemmatizeTokens`, at most `fuel`
iterations of it. -/
def lemmatizeLoop (lem : Lemmatizer) (tokens : List Token) :
    Nat → List Token → Nat → Run (List Token)
  | 0, _, _ => .timeout
  | fuel + 1, lemmatized, pos =>
    if pos < tokens.length then
      match tokens.get? pos with
      | none => .panicked
      | some current =>
        if current.IsPunct || current.IsSpace then
          lemmatizeLoop lem tokens fuel (lemmatized ++ [current]) (pos + 1)
        else
          match gramsLoop lem tokens lem.maxGramLength.toNat lemmatized pos with
          | .value (lemmatized, pos) => lemmatizeLoop lem tokens fuel lemmatized pos
          | .failed e => .failed e
          | .panicked => .panicked
          | .timeout => .timeout
    else
      .value lemmatized

/-- `lem.LemmatizeTokens(tokens)`, its main loop running at most `fuel` times. -/
def Lemmatizer.LemmatizeTokens (lem : Lemmatizer) (fuel : Nat) (tokens : List Token) :
    Run (List Token) :=
  lemmatizeLoop lem tokens fuel [] 0

/-! ## The trie and the code-point tables, modelled -/

/-- Modelled from the spec: package `trie` is not among the sources.  The spec
describes a tree keyed by normalized code points in which each inserted path
ends in a canonical string; it is held here as the list of inserted paths with
their canonical strings, the latest insertion first. -/
structure RuneTrie where
  ignoreCase : Bool
  ignoreRunes : List Char
  entries : List (List Char × String)
  deriving DecidableEq

namespace RuneTrie

/-- Modelled from the spec: the normalized code points of a string, "folds case
if configured and skips code points in a configured ignored set".  Case is
folded here with `Char.toLower`, which folds the ASCII letters: it is the
folding the texts evaluated in this file need; `normalizeBy` below has the case
folding as a parameter. -/
def normalize (t : RuneTrie) (s : List Char) : List Char :=
  (s.map (fun r => if t.ignoreCase then r.toLower else r)).filter
    (fun r => !t.ignoreRunes.contains r)

/-- Modelled from the spec: the key of a token sequence, the normalized code
points of its tokens in order. -/
def key (t : RuneTrie) (tokens : List Token) : List Char :=
  tokens.flatMap (fun token => t.normalize token.String.data)

def New (ignoreCase : Bool) (ignoreRunes : List Char) : RuneTrie :=
  { ignoreCase := ignoreCase, ignoreRunes := ignoreRunes, entries := [] }

/-- Modelled from the spec: "insert the resulting token sequence into the trie
keyed by normalized code points". -/
def Add (t : RuneTrie) (tokens : List Token) (canonical : String) : RuneTrie :=
  { t with entries := (t.key tokens, canonical) :: t.entries }

/-- The canonical string at the end of the path `k`, if a phrase ends there. -/
def terminal (t : RuneTrie) (k : List Char) : Option String :=
  (t.entries.find? (fun e => e.1 = k)).map (fun e => e.2)

/-- Modelled from the spec: the walk of `SearchCanonical` over the tokens from
index `i` on, `k` being the path walked so far and `best` the last terminal
met.  A terminal is recorded after a token that advanced the walk, so a match
never ends in a token made of ignored code points only (the test of the Stack
Overflow filter expects "more about Ruby stuff" to keep its spaces).  The walk
goes on after a terminal, so the longest match is the one returned; a path that
has left the tree can meet no terminal, so walking on past it changes nothing. -/
def walk (t : RuneTrie) : List Token → Nat → List Char → Bool × String × Nat → Bool × String × Nat
  | [], _, _, best => best
  | token :: rest, i, k, best =>
    let step := t.normalize token.String.data
    let k := k ++ step
    let best :=
      if step.length > 0 then
        match t.terminal k with
        | some canonical => (true, canonical, i + 1)
        | none => best
      else best
    walk t rest (i + 1) k best

/-- Modelled from the spec: `search(tokens) → (matched, canonical, consumed)`,
with `matched = false, consumed = 0` when no terminal is met. -/
def SearchCanonical (t : RuneTrie) (tokens : List Token) : Bool × String × Nat :=
  walk t tokens 0 [] (false, "", 0)

end RuneTrie

/-- The modelled trie as the trie of the filter. -/
def runeTrieOps : TrieOps RuneTrie :=
  { New := RuneTrie.New, Add := RuneTrie.Add, SearchCanonical := RuneTrie.SearchCanonical }

namespace RuneTrie

/-- Modelled from the spec: the normalized code points of a string, "folds case
if configured and skips code points in a configured ignored set", the case
folding `fold` of the absent package being a parameter. -/
def normalizeBy (fold : Char → Char) (t : RuneTrie) (s : List Char) : List Char :=
  (s.map (fun r => if t.ignoreCase then fold r else r)).filter
    (fun r => !t.ignoreRunes.contains r)

/-- Modelled from the spec: the key of a token sequence under the case folding
`fold`. -/
def keyBy (fold : Char → Char) (t : RuneTrie) (tokens : List Token) : List Char :=
  tokens.flatMap (fun token => t.normalizeBy fold token.String.data)

/-- Modelled from the spec: insertion under the case folding `fold`. -/
def AddBy (fold : Char → Char) (t : RuneTrie) (tokens : List Token) (canonical : String) :
    RuneTrie :=
  { t with entries := (t.keyBy fold tokens, canonical) :: t.entries }

/-- Modelled from the spec: the walk of `SearchCanonical` under the case folding
`fold`; see `walk`. -/
def walkBy (fold : Char → Char) (t : RuneTrie) :
    List Token → Nat → List Char → Bool × String × Nat → Bool × String × Nat
  | [], _, _, best => best
  | token :: rest, i, k, best =>
    let step := t.normalizeBy fold token.String.data
    let k := k ++ step
    let best :=
      if step.length > 0 then
        match t.terminal k with
        | some canonical => (true, canonical, i + 1)
        | none => best
      else best
    walkBy fold t rest (i + 1) k best

/-- Modelled from the spec: the search under the case folding `fold`. -/
def SearchCanonicalBy (fold : Char → Char) (t : RuneTrie) (tokens : List Token) :
    Bool × String × Nat :=
  walkBy fold t tokens 0 [] (false, "", 0)

end RuneTrie

/-- The modelled trie with the case folding `fold`; `runeTrieOps` is the one with
the folding of the ASCII letters. -/
def runeTrieOpsBy (fold : Char → Char) : TrieOps RuneTrie :=
  { New := RuneTrie.New, Add := RuneTrie.AddBy fold,
    SearchCanonical := RuneTrie.SearchCanonicalBy fold }

/-- A case folding that also folds the capital letters of Latin-1, U+00C0 to
U+00DE without the multiplication sign. -/
def latin1Lower (r : Char) : Char :=
  if 0xC0 ≤ r.toNat ∧ r.toNat ≤ 0xDE ∧ r.toNat ≠ 0xD7 then Char.ofNat (r.toNat + 32) else r.toLower

/-- `unicode.IsSpace` of the Go standard library. -/
def unicodeIsSpace (r : Char) : Bool :=
  r.toNat ∈ [0x09, 0x0A, 0x0B, 0x0C, 0x0D, 0x20, 0x85, 0xA0, 0x1680, 0x2028, 0x2029, 0x202F,
    0x205F, 0x3000] || (0x2000 ≤ r.toNat && r.toNat ≤ 0x200A)

/-- Modelled from the spec: `isPunct`, `leadingPunct` and `midPunct` are not
among the sources.  `isPunct` "relies on Unicode definitions of punctuation and
symbol"; the model covers the ASCII ones and the General Punctuation block.
The leading set is the one the spec lists: `#`, `@`, `.`, `$`, `+` and the
quote marks.  The mid-word set is apostrophe, period, plus, slash and the comma
of `1,000`; the hyphen is left out, as the spec says it is by design. -/
def techPolicy : Policy :=
  { isSpace := unicodeIsSpace,
    isPunct := fun r =>
      (0x21 ≤ r.toNat && r.toNat ≤ 0x2F) || (0x3A ≤ r.toNat && r.toNat ≤ 0x40) ||
      (0x5B ≤ r.toNat && r.toNat ≤ 0x60) || (0x7B ≤ r.toNat && r.toNat ≤ 0x7E) ||
      (0x2010 ≤ r.toNat && r.toNat ≤ 0x2027) || (0x2030 ≤ r.toNat && r.toNat ≤ 0x205E),
    leadingPunct := fun r => r.toNat ∈ [0x23, 0x40, 0x2E, 0x24, 0x2B, 0x27, 0x22, 0x2018, 0x201C],
    midPunct := fun r => r.toNat ∈ [0x27, 0x2019, 0x2E, 0x2B, 0x2F, 0x2C] }

/-- Tables in which the tab, the line feed and the carriage return are
punctuation as well as whitespace: the comment in `wordrun` of `lemmatizer.go`
says that "newlines and tabs can be considered both punct and space (depending
on the tokenizer!)". -/
def tabPunctPolicy : Policy :=
  { techPolicy with
    isPunct := fun r => techPolicy.isPunct r || r = '\t' || r = '\n' || r = '\r' }

/-- The tokens of `text` after the filter built from `mappings`:
`NewFilter(mappings, ignoreCase, ignoreRunes)` applied to `TokenizeString(text)`
and pulled to the end.  The budget is one loop iteration and one pull per
token, and one more of each. -/
def filterString {τ : Type} (P : Policy) (ops : TrieOps τ) (mappings : List (String × String))
    (ignoreCase : Bool) (ignoreRunes : List Char) (text : String) : Run (List Token) :=
  match NewFilter P ops mappings ignoreCase ignoreRunes with
  | .value f =>
    match TokenizeString P text with
    | .value toks =>
      tokens.ToSlice P ops (toks.length + 1) (toks.length + 1)
        (f.Filter { pending := toks, fail := none })
    | .failed e => .failed e
    | .panicked => .panicked
    | .timeout => .timeout
  | .failed e => .failed e
  | .panicked => .panicked
  | .timeout => .timeout

/-! ## Predicates used in the statements -/

/-- The search reports a match only with `1 ≤ consumed ≤ len(run)`. -/
def WellBehaved (search : List Token → Bool × String × Nat) : Prop :=
  ∀ run, (search run).1 = true → 1 ≤ (search run).2.2 ∧ (search run).2.2 ≤ run.length

/-- The outputs the synonym filter may give for an upstream sequence: the
sequence is cut, front to back, into tokens passed on verbatim and matched runs.
At a matched run the search saw `run`, which holds no punctuation, and reported
`consumed` of its tokens; those are replaced by the token `mk canonical`, or by
nothing when `canonical` is empty, and the tokens of `run` after them stay in
the sequence. -/
inductive Segmented (search : List Token → Bool × String × Nat) (mk : String → Token) :
    List Token → List Token → Prop
  | done : Segmented search mk [] []
  | verbatim (token : Token) {T O : List Token} :
      Segmented search mk T O → Segmented search mk (token :: T) (token :: O)
  | replaced (run rest : List Token) (canonical : String) (consumed : Nat) {O : List Token} :
      search run = (true, canonical, consumed) → 1 ≤ consumed → consumed ≤ run.length →
      (∀ token ∈ run, token.IsPunct = false) →
      canonical ≠ "" → Segmented search mk (run.drop consumed ++ rest) O →
      Segmented search mk (run ++ rest) (mk canonical :: O)
  | suppressed (run rest : List Token) (consumed : Nat) {O : List Token} :
      search run = (true, "", consumed) → 1 ≤ consumed → consumed ≤ run.length →
      (∀ token ∈ run, token.IsPunct = false) →
      Segmented search mk (run.drop consumed ++ rest) O →
      Segmented search mk (run ++ rest) O

/-- The tokens of a buffer that are not space tokens. -/
def nonSpace (B : List Token) : Nat := B.countP (fun token => !token.IsSpace)

/-- The punctuation tokens of a buffer that `wordrun` does not pass on as
leading spaces: punctuation that is not also space. -/
def hardPuncts (B : List Token) : Nat := B.countP (fun token => token.IsPunct && !token.IsSpace)

/-- The words in front of the first such punctuation token. -/
def wordsBefore (B : List Token) : Nat :=
  countWords (B.takeWhile (fun token => !(token.IsPunct && !token.IsSpace)))

/-- What holds of the buffer each time the loop of `next` starts an iteration:
at most `k` words, and the punctuation tokens together with the words in front
of the first of them are at most `k`. -/
def AtHead (k : Nat) (B : List Token) : Prop :=
  countWords B ≤ k ∧ (hardPuncts B = 0 ∨ hardPuncts B + wordsBefore B ≤ k)

/-- What holds of the buffer after `fill`: one more punctuation token may have
been appended. -/
def AfterFill (k : Nat) (B : List Token) : Prop :=
  countWords B ≤ k ∧ (hardPuncts B = 0 ∨ hardPuncts B + wordsBefore B ≤ k + 1)

/-! ## The inputs of the tests -/

/-- The dictionary of `TestFilter`, in the order the test lists it. -/
def testMappings : List (String × String) :=
  [("developer, engineer, programmer,", "boffin"),
   ("rock star, 10x developer", "cliché"),
   ("Ruby on Rails, rails", "ruby-on-rails"),
   ("nodeJS, iojs", "node.js")]

/-- The ignored code points of `TestFilter` and of `stackoverflow.Tags`. -/
def testIgnore : List Char := ['-', ' ', '.', '/']

/-- The text of `TestFilter`. -/
def testOriginal : String :=
  "we are looking for a rockstar, 10x developer, or engineer, for ruby on rails and Nodejs"

/-- The output `TestFilter` expects. -/
def testExpected : String :=
  "we are looking for a cliché, cliché, or boffin, for ruby-on-rails and node.js"

/-- A word token, as the tokenizer makes it. -/
def word (s : String) : Token := { value := s }

/-- The space token. -/
def spaceToken : Token := { value := " ", space := true }

/-- A punctuation token of one code point. -/
def punctToken (s : String) : Token := { value := s, punct := true }

/-- The tokens of the text of `TestWordrun`, `Things and "java script"`, as
the test indexes them: index 5 is `java`. -/
def testWordrunTokens : List Token :=
  [word "Things", spaceToken, word "and", spaceToken, punctToken "\"", word "java", spaceToken,
   word "script", punctToken "\""]

/-- The last line of the text of `TestTSV`, `bar	42	java script`, from `java`
on: the text ends in a word. -/
def testTSVTail : List Token := [word "java", spaceToken, word "script"]

/-- A lemmatizer with the entries the tests rely on, trigrams included. -/
def testLemmatizer : Lemmatizer :=
  { values := fun key =>
      if key = "rubyonrails" then some "ruby-on-rails"
      else if key = "javascript" then some "javascript"
      else none,
    maxGramLength := 3,
    normalize := fun s => String.mk ((s.data.filter (fun r => r ≠ ' ')).map Char.toLower) }

/-- The filter `NewFilter` builds in `TestFilter`. -/
def testFilter : Filter RuneTrie :=
  match NewFilter techPolicy runeTrieOps testMappings true testIgnore with
  | .value f => f
  | _ => { trie := RuneTrie.New true testIgnore, maxWords := 1 }

/-- The dictionary with the single entry of the ignore-set example. -/
def nodeMappings : List (String × String) := [("nodeJS, iojs", "node.js")]

/-- The filter `NewFilter` builds from `nodeMappings`, case ignored and with the
ignore set of the tests. -/
def nodeFilter : Filter RuneTrie :=
  match NewFilter techPolicy runeTrieOps nodeMappings true testIgnore with
  | .value f => f
  | _ => { trie := RuneTrie.New true testIgnore, maxWords := 1 }

/-- The tokens of "ruby on rails". -/
def rubyTokens : List Token :=
  [word "ruby", spaceToken, word "on", spaceToken, word "rails"]

/-- A filtered stream of `testFilter` at its start, upstream holding "a, b". -/
def commaStream : tokens RuneTrie :=
  testFilter.Filter { pending := [word "a", punctToken ",", spaceToken, word "b"], fail := none }


/-- The value of a token of the tokenizer is `w`: not empty, and when it has two
code points or more, a whitespace code point is in it only through the mid-word
table. -/
def TokenShape (P : Policy) (tok : Token) (w : List Char) : Prop :=
  w ≠ [] ∧ tok = token P w ∧
    (2 ≤ w.length → ∀ c ∈ w, P.isSpace c = true → P.midPunct c = true)


/-- The three reasons for which `fill` stops pulling, as the comment of `fill`
lists them, for a buffer `B`, the tokens `P` pulled and the tokens `R` left
upstream: the buffer holds `k` words, or the last token pulled is punctuation,
or nothing is left upstream. -/
def FillStops (k : Nat) (B P R : List Token) : Prop :=
  k ≤ countWords (B ++ P) ∨ P.getLast?.map Token.IsPunct = some true ∨ R = []

instance (k : Nat) (B P R : List Token) : Decidable (FillStops k B P R) := by
  unfold FillStops
  exact inferInstance

/-- A lemmatizer with a trigram entry and with an entry whose canonical form is
the word itself, as the dictionary of `TestLemmatizeTokens` has for "html5". -/
def html5Lemmatizer : Lemmatizer :=
  { values := fun key =>
      if key = "rubyonrails" then some "ruby-on-rails"
      else if key = "html5" then some "html5"
      else none,
    maxGramLength := 3,
    normalize := fun s => String.mk ((s.data.filter (fun r => r ≠ ' ')).map Char.toLower) }

/-- The tokens of the text "Ruby on Rails html5 and.". -/
def html5Tokens : List Token :=
  [word "Ruby", spaceToken, word "on", spaceToken, word "Rails", spaceToken, word "html5",
   spaceToken, word "and", punctToken "."]

/-- Every token of `l` is a token of `tokens` or the token literal of a
replacement. -/
def FromInputOrLiteral (tokens l : List Token) : Prop :=
  ∀ tok ∈ l, tok ∈ tokens ∨ ∃ canonical, tok = { value := canonical, space := false, punct := false }

/-! ## cmd/jargon/main.go -/

/-- What `main.go` takes from the packages it imports, for a reader type `ρ`, a
token stream type `σ` and a writer type `ω`: the two tokenizers, the filters
its tables name, the consumers `Count`, and `Scan` with `Token` and `Err` (the
tokens delivered and the error met after them), the writes of `bufio.Writer`,
each with the error it returns, and the message `fmt.Errorf` formats for a
language that is not known. -/
structure Packages (ρ σ ω : Type) where
  Tokenize : ρ → σ
  TokenizeHTML : ρ → σ
  asciiFold : σ → σ
  contractionsExpand : σ → σ
  Lemmas : σ → σ
  Distinct : σ → σ
  stackoverflowTags : σ → σ
  stemmerEnglish : σ → σ
  stemmerFrench : σ → σ
  stemmerNorwegian : σ → σ
  stemmerRussian : σ → σ
  stemmerSpanish : σ → σ
  stemmerSwedish : σ → σ
  Count : σ → Nat × Option Err
  scan : σ → List Token × Option Err
  WriteString : ω → String → ω × Option Err
  WriteRune : ω → Char → ω × Option Err
  Flush : ω → ω × Option Err
  unknownLang : String → Err

/-- The map `filterMap`, as a lookup. -/
def filterMap {ρ σ ω : Type} (E : Packages ρ σ ω) (arg : String) : Option (σ → σ) :=
  if arg = "-ascii" then some E.asciiFold
  else if arg = "-contractions" then some E.contractionsExpand
  else if arg = "-lemmas" then some E.Lemmas
  else if arg = "-distinct" then some E.Distinct
  else if arg = "-stack" then some E.stackoverflowTags
  else if arg = "-stem" then some E.stemmerEnglish
  else none

def langs : List String := ["english", "french", "norwegian", "russian", "spanish", "swedish"]

/-- The map `stemmerMap`, as a lookup. -/
def stemmerMap {ρ σ ω : Type} (E : Packages ρ σ ω) (lang : String) : Option (σ → σ) :=
  if lang = "english" then some E.stemmerEnglish
  else if lang = "french" then some E.stemmerFrench
  else if lang = "norwegian" then some E.stemmerNorwegian
  else if lang = "russian" then some E.stemmerRussian
  else if lang = "spanish" then some E.stemmerSpanish
  else if lang = "swedish" then some E.stemmerSwedish
  else none

/-- The fields of the `config` struct that `setFilters` and `execute` use; a
nil `Reader` or `Writer` is `none`. -/
structure config (ρ σ ω : Type) where
  HTML : Bool
  Count : Bool
  Lines : Bool
  Filters : List (σ → σ)
  Reader : Option ρ
  Writer : Option ω

/-- `setFilters(c, args, lang)`: the error returned and `c` as the call leaves
it, by recursion on the arguments the loop still has to see. -/
def setFilters {ρ σ ω : Type} (E : Packages ρ σ ω) :
    config ρ σ ω → List String → String → Option Err × config ρ σ ω
  | c, [], _ => (none, c)
  | c, arg :: args, lang =>
    match filterMap E arg with
    | some filter =>
      if arg = "-stem" ∧ lang ≠ "" then
        match stemmerMap E lang with
        | some stem => setFilters E { c with Filters := c.Filters ++ [stem] } args lang
        | none => (some (E.unknownLang lang), c)
      else
        setFilters E { c with Filters := c.Filters ++ [filter] } args lang
    | none => setFilters E c args lang

/-- The loop `for _, f := range c.Filters { tokens = f(tokens) }` of `execute`. -/
def applyFilters {σ : Type} : List (σ → σ) → σ → σ
  | [], tokens => tokens
  | f :: rest, tokens => applyFilters rest (f tokens)

/-- The loop `for tokens.Scan()` of `execute` over the tokens the stream
delivers: the writer after it and the write error that ended it. -/
def writeAll {ρ σ ω : Type} (E : Packages ρ σ ω) (lines : Bool) :
    List Token → ω → ω × Option Err
  | [], writer => (writer, none)
  | token :: rest, writer =>
    match E.WriteString writer token.String with
    | (writer, some err) => (writer, some err)
    | (writer, none) =>
      if lines then
        match E.WriteRune writer '\n' with
        | (writer, some err) => (writer, some err)
        | (writer, none) => writeAll E lines rest writer
      else
        writeAll E lines rest writer

/-- The part of `execute` that consumes the stream `tokens`: the error returned
and the writer as it is left. -/
def consume {ρ σ ω : Type} (E : Packages ρ σ ω) (c : config ρ σ ω) (writer : ω) (tokens : σ) :
    Option Err × ω :=
  if c.Count then
    match E.Count tokens with
    | (_, some err) => (some err, writer)
    | (count, none) =>
      let writer := (E.WriteString writer (toString count ++ "\n")).1
      match E.Flush writer with
      | (writer, some err) => (some err, writer)
      | (writer, none) => (none, writer)
  else
    match E.scan tokens with
    | (delivered, streamErr) =>
      match writeAll E c.Lines delivered writer with
      | (writer, some err) => (some err, writer)
      | (writer, none) =>
        match streamErr with
        | some err => (some err, writer)
        | none =>
          match E.Flush writer with
          | (writer, some err) => (some err, writer)
          | (writer, none) => (none, writer)

/-- `execute(c)`: the error returned and the writer as it is left. -/
def execute {ρ σ ω : Type} (E : Packages ρ σ ω) (c : config ρ σ ω) : Option Err × Option ω :=
  match c.Reader with
  | none => (some "reader is required", c.Writer)
  | some reader =>
    match c.Writer with
    | none => (some "writer is required", none)
    | some writer =>
      let tokens := if c.HTML then E.TokenizeHTML reader else E.Tokenize reader
      let tokens := applyFilters c.Filters tokens
      match consume E c writer tokens with
      | (err, writer) => (err, some writer)

/-- The filter that a command-line argument stands for: none for an argument
that is not a filter flag; for "-stem" with a language, the stemmer of that
language. -/
def flagFilter {ρ σ ω : Type} (E : Packages ρ σ ω) (lang arg : String) : Option (σ → σ) :=
  match filterMap E arg with
  | none => none
  | some filter => if arg = "-stem" ∧ lang ≠ "" then stemmerMap E lang else some filter

/-- Packages whose streams are the list of the names of what was applied, in
order, and whose writer is the text written. -/
def tracePackages : Packages String (List String) String :=
  { Tokenize := fun r => [r],
    TokenizeHTML := fun r => ["html " ++ r],
    asciiFold := fun s => s ++ ["ascii"],
    contractionsExpand := fun s => s ++ ["contractions"],
    Lemmas := fun s => s ++ ["lemmas"],
    Distinct := fun s => s ++ ["distinct"],
    stackoverflowTags := fun s => s ++ ["stack"],
    stemmerEnglish := fun s => s ++ ["english"],
    stemmerFrench := fun s => s ++ ["french"],
    stemmerNorwegian := fun s => s ++ ["norwegian"],
    stemmerRussian := fun s => s ++ ["russian"],
    stemmerSpanish := fun s => s ++ ["spanish"],
    stemmerSwedish := fun s => s ++ ["swedish"],
    Count := fun s => (s.length, none),
    scan := fun s => (s.map word, none),
    WriteString := fun w s => (w ++ s, none),
    WriteRune := fun w r => (w.push r, none),
    Flush := fun w => (w, none),
    unknownLang := fun lang => "lang " ++ lang ++ " is not known" }

/-- A configuration with no filter yet, a reader and a writer. -/
def traceConfig : config String (List String) String :=
  { HTML := false, Count := false, Lines := true, Filters := [], Reader := some "input",
    Writer := some "" }

/-- A command line: a flag that is not a filter, a repeated filter flag, and an
argument that is no flag at all. -/
def traceArgs : List String := ["-lines", "-stack", "foo", "-ascii", "-stack", "-stem", "-lemmas"]


/-- The states a filtered stream goes through, from the state `Filter` returns
on: each constructor is one of the operations `next`, `fill` and `wordrun`
perform on the state. -/
inductive Visited {τ : Type} (f : Filter τ) : tokens τ → Prop
  | start (incoming : Tokens) : Visited f (f.Filter incoming)
  | fill {t t1 : tokens τ} : Visited f t → t.fill = .value t1 → Visited f t1
  | wordrun {t t2 : tokens τ} {run : List Token} :
      Visited f t → t.wordrun = .value (run, t2) → Visited f t2
  | drop {t : tokens τ} (n : Nat) (buffer outgoing : TokenQueue) :
      Visited f t → t.buffer.Drop n = some buffer →
      Visited f { t with buffer := buffer, outgoing := outgoing }
  | popTo {t : tokens τ} (buffer outgoing : TokenQueue) :
      Visited f t → t.buffer.PopTo t.outgoing = some (buffer, outgoing) →
      Visited f { t with buffer := buffer, outgoing := outgoing }
  | flushTo {t : tokens τ} :
      Visited f t →
      Visited f { t with buffer := (t.buffer.FlushTo t.outgoing).1,
                         outgoing := (t.buffer.FlushTo t.outgoing).2 }
  | pop {t : tokens τ} (token : Token) (outgoing : TokenQueue) :
      Visited f t → t.outgoing.Pop = some (token, outgoing) →
      Visited f { t with outgoing := outgoing }

/-- A trie whose search reports a match that consumes nothing. -/
def stuckOps : TrieOps Unit :=
  { New := fun _ _ => (),
    Add := fun _ _ _ => (),
    SearchCanonical := fun _ _ => (true, "", 0) }

/-- Whether a token is the comma that separates the phrases of a key
(`token.String() == ","`). -/
def isComma (token : Token) : Bool := decide (token.String = ",")

/-- The phrases of a tokenized key as the comment of `NewFilter` describes
them: the key is cut at its comma tokens, and the space tokens at the front of
each piece, those that lead the key or follow a comma, are left out. -/
def keyPhrases (tokens : List Token) : List (List Token) :=
  (tokens.splitOnP isComma).map (List.dropWhile Token.IsSpace)

/-- The tokens of a string: what `TokenizeString(s).ToSlice()` returns. -/
def keyTokens (P : Policy) (s : String) : List Token :=
  match TokenizeString P s with
  | .value toks => toks
  | _ => []

/-- The phrases of a dictionary, each with the canonical string of its entry,
in the order of the entries and of the phrases in each key. -/
def dictPhrases (P : Policy) (mappings : List (String × String)) : List (List Token × String) :=
  mappings.flatMap (fun entry => (keyPhrases (keyTokens P entry.1)).map (fun phrase => (phrase, entry.2)))

/-- What `NewFilter` does with one phrase: `trie.Add` and `updateMaxWords`. -/
def addPhrase {τ : Type} (ops : TrieOps τ) (state : τ × Nat) (entry : List Token × String) :
    τ × Nat :=
  (ops.Add state.1 entry.1 entry.2, updateMaxWords entry.1 state.2)

/-- A trie that records the calls of `Add`, in order. -/
def recordOps : TrieOps (List (List Token × String)) :=
  { New := fun _ _ => [],
    Add := fun trie tokens canonical => trie ++ [(tokens, canonical)],
    SearchCanonical := fun _ _ => (false, "", 0) }

/-- The n-gram of `n` words at index `pos` and its dictionary entry, following
the words of `LemmatizeTokens`: the canonical string and the number of tokens
consumed, when `wordrun` finds `n` words and their normalized join is a key of
the dictionary. -/
def gramAt (lem : Lemmatizer) (tokens : List Token) (pos n : Nat) : Run (Option (String × Nat)) :=
  match wordrun tokens pos n with
  | .value (run, consumed, ok) =>
    .value (if ok then (lem.values (lem.normalize (Join run))).map (fun c => (c, consumed))
            else none)
  | .failed e => .failed e
  | .panicked => .panicked
  | .timeout => .timeout

/-- The outputs `LemmatizeTokens` may give for an input: the input is cut, front
to back, into tokens passed on verbatim and runs of tokens, none of them
punctuation, that are replaced by one token. -/
inductive Lemmatized : List Token → List Token → Prop
  | done : Lemmatized [] []
  | verbatim (token : Token) {T O : List Token} :
      Lemmatized T O → Lemmatized (token :: T) (token :: O)
  | replaced (seg rest : List Token) (canonical : String) {O : List Token} :
      seg ≠ [] → (∀ token ∈ seg, token.IsPunct = false) → Lemmatized rest O →
      Lemmatized (seg ++ rest) ({ value := canonical, space := false, punct := false } :: O)

/-- A lemmatizer with the entries `TestLemmatizeTokens` relies on; its keys are
lower-cased and written without spaces and slashes. -/
def storyLemmatizer : Lemmatizer :=
  { values := fun key =>
      if key = "rubyonrails" then some "ruby-on-rails"
      else if key = "nodejs" then some "node.js"
      else if key = "javascript" then some "javascript"
      else if key = "html5" then some "html5"
      else if key = "aspnetmvc" then some "asp.net-mvc"
      else if key = "tcpip" then some "tcp"
      else none,
    maxGramLength := 3,
    normalize := fun s =>
      String.mk ((s.data.filter (fun r => r ≠ ' ' ∧ r ≠ '/')).map Char.toLower) }

/-- The text of `TestLemmatizeTokens`, without its quoted part. -/
def storyOriginal : String :=
  "Here is the story of Ruby on Rails nodeJS, html5 and ASPNET mvc plus TCP/IP."

/-- The text `TestLemmatizeTokens` expects, without its quoted part. -/
def storyExpected : String :=
  "Here is the story of ruby-on-rails node.js, html5 and asp.net-mvc plus tcp."

/-! ## filters/contractions/filter.go -/

namespace contractions

/-- The `tokens` struct of package `contractions`: the incoming stream and the
queue of expansion tokens still to go out. -/
structure tokens where
  incoming : Tokens
  outgoing : TokenQueue
  deriving DecidableEq

/-- `Expand(incoming)`: the initial state of the expanding stream. -/
def Expand (incoming : Tokens) : tokens :=
  { incoming := incoming, outgoing := {} }

/-- `t.tryExpansion(token, ignoreCase)`: `found` and the state left.  The table
`mappings`, which is generated and not among the sources, and
`strings.ToLower` are parameters. -/
def tokens.tryExpansion (P : Policy) (mappings : String → Option String)
    (toLower : String → String) (t : tokens) (token : Token) (ignoreCase : Bool) :
    Run (Bool × tokens) :=
  let key := if ignoreCase then toLower token.String else token.String
  match mappings key with
  | some expansion =>
    match TokenizeString P expansion with
    | .value toks => .value (true, { t with outgoing := toks.foldl TokenQueue.Push t.outgoing })
    | .failed e => .failed e
    | .panicked => .panicked
    | .timeout => .timeout
  | none => .value (false, t)

/-- The end of `next`: a token of the expansion when there is one, else the
token pulled. -/
def tokens.emit (t : tokens) (token : Token) : Run (Option Token × tokens) :=
  if t.outgoing.Any then
    match t.outgoing.Pop with
    | some (first, outgoing) => .value (some first, { t with outgoing := outgoing })
    | none => .panicked
  else
    .value (some token, t)

/-- One pull of the expanding stream (`tokens.next`). -/
def tokens.next (P : Policy) (mappings : String → Option String) (toLower : String → String)
    (t : tokens) : Run (Option Token × tokens) :=
  if t.outgoing.Any then
    match t.outgoing.Pop with
    | some (first, outgoing) => .value (some first, { t with outgoing := outgoing })
    | none => .panicked
  else
    match t.incoming.Next with
    | .value (none, incoming) => .value (none, { t with incoming := incoming })
    | .value (some token, incoming) =>
      let t := { t with incoming := incoming }
      match t.tryExpansion P mappings toLower token false with
      | .value (found, t) =>
        if !found then
          match t.tryExpansion P mappings toLower token true with
          | .value (_, t) => t.emit token
          | .failed e => .failed e
          | .panicked => .panicked
          | .timeout => .timeout
        else
          t.emit token
      | .failed e => .failed e
      | .panicked => .panicked
      | .timeout => .timeout
    | .failed e => .failed e
    | .panicked => .panicked
    | .timeout => .timeout

/-- Pulls the expanding stream until the nil token, at most `fuel` times. -/
def tokens.ToSlice (P : Policy) (mappings : String → Option String) (toLower : String → String) :
    Nat → tokens → Run (List Token)
  | 0, _ => .timeout
  | fuel + 1, t =>
    match t.next P mappings toLower with
    | .value (none, _) => .value []
    | .value (some token, t') =>
      match tokens.ToSlice P mappings toLower fuel t' with
      | .value toks => .value (token :: toks)
      | .failed e => .failed e
      | .panicked => .panicked
      | .timeout => .timeout
    | .failed e => .failed e
    | .panicked => .panicked
    | .timeout => .timeout

/-- What one token expands to: the tokens of the expansion of its exact value
when that is a key, else those of the expansion of its lower-cased value when
that is a key, else the token itself. -/
def expansionOf (P : Policy) (mappings : String → Option String) (toLower : String → String)
    (token : Token) : List Token :=
  match mappings token.String with
  | some expansion => keyTokens P expansion
  | none =>
    match mappings (toLower token.String) with
    | some expansion => keyTokens P expansion
    | none => [token]

/-- A table with the entries of the examples of `Expand`, one of them in two
cases. -/
def testContractions (key : String) : Option String :=
  if key = "don't" then some "do not"
  else if key = "we've" then some "we have"
  else if key = "We've" then some "We have"
  else none

/-- The lower case of the ASCII letters, code point by code point: it stands
for `strings.ToLower` on the ASCII texts of the examples only. -/
def lower (s : String) : String := String.mk (s.data.map Char.toLower)

end contractions


/-- The tokens of the example in the comment of `LemmatizeTokens`: "I think
Ruby on Rails is great". -/
def docTokens : List Token :=
  [word "I", spaceToken, word "think", spaceToken, word "Ruby", spaceToken, word "on",
   spaceToken, word "Rails", spaceToken, word "is", spaceToken, word "great"]

/-- The tokens the comment of `LemmatizeTokens` says the example returns. -/
def docExpected : List Token :=
  [word "I", spaceToken, word "think", spaceToken, word "ruby-on-rails", spaceToken,
   word "is", spaceToken, word "great"]


/-! # Properties -/

/-! ## Tokenizer -/

theorem Join_foldl (tokens : List Token) (acc : String) :
    tokens.foldl (fun acc t => acc ++ t.String) acc = acc ++ Join tokens := by
  induction tokens generalizing acc with
  | nil => simp [Join]
  | cons t ts ih =>
    simp only [Join, List.foldl_cons]
    rw [ih, ih ("" ++ t.String)]
    simp [String.append_assoc]

theorem Join_nil : Join [] = "" := rfl

theorem Join_cons (t : Token) (ts : List Token) : Join (t :: ts) = t.value ++ Join ts := by
  simp only [Join, List.foldl_cons]
  rw [Join_foldl]
  simp [Token.String, Join]

theorem Join_append (xs ys : List Token) : Join (xs ++ ys) = Join xs ++ Join ys := by
  induction xs with
  | nil => simp [Join_nil]
  | cons x xs ih => simp [Join_cons, ih, String.append_assoc]

theorem token_value (P : Policy) (b : List Char) : (token P b).value = String.mk b := by
  unfold token
  split
  · rename_i r
    unfold common
    split <;> rename_i h
    · split at h <;> simp_all [newTokenFromRune, String.singleton]
      subst h; rfl
    · simp [newTokenFromRune, String.singleton]; rfl
  · rfl

/-- What `readWord` returns on an error-free reader: a token holding a
prefix of the text in front of it, at most one code point kept for later. -/
theorem readWord_spec (P : Policy) (inc out : List Char) :
    ∃ w o inc', readWord P none inc out
        = .value (some (token P w), { incoming := inc', fail := none, outgoing := o }) ∧
      w ++ o ++ inc' = out ++ inc ∧ o.length + inc'.length ≤ inc.length ∧
      out.length ≤ w.length := by
  induction inc generalizing out with
  | nil => exact ⟨out, [], [], by simp [readWord], by simp, by simp, le_refl _⟩
  | cons r rest ih =>
    unfold readWord
    by_cases hm : P.midPunct r = true
    · simp only [hm, if_true]
      cases rest with
      | nil =>
        simp only [peekTerminator, if_true]
        exact ⟨out, [r], [], rfl, by simp, by simp, le_refl _⟩
      | cons r2 rest2 =>
        simp only [peekTerminator]
        by_cases ht : (P.isPunct r2 || P.isSpace r2) = true
        · simp only [ht, if_true]
          exact ⟨out, [r], r2 :: rest2, rfl, by simp, by simp; omega, le_refl _⟩
        · simp only [ht]
          obtain ⟨w, o, inc', h1, h2, h3, h4⟩ := ih (out ++ [r])
          refine ⟨w, o, inc', h1, by simp [h2], by simp at h3 ⊢; omega, by simp at h4; omega⟩
    · simp only [hm]
      by_cases ht : (P.isPunct r || P.isSpace r) = true
      · simp only [ht, if_true]
        exact ⟨out, [r], rest, rfl, by simp, by simp; omega, le_refl _⟩
      · simp only [ht]
        obtain ⟨w, o, inc', h1, h2, h3, h4⟩ := ih (out ++ [r])
        refine ⟨w, o, inc', h1, by simp [h2], by simp at h3 ⊢; omega, by simp at h4; omega⟩


/-- One pull on an error-free reader: either the text is used up, or a token
comes out whose value is the front of the text still to emit. -/
theorem tokenizer_next_spec (P : Policy) (t : tokenizer) (hf : t.fail = none) :
    (t.next P = .value (none, t) ∧ t.outgoing = [] ∧ t.incoming = []) ∨
    ∃ tok t', t.next P = .value (some tok, t') ∧ t'.fail = none ∧
      tok.value.data ++ (t'.outgoing ++ t'.incoming) = t.outgoing ++ t.incoming ∧
      t'.outgoing.length + t'.incoming.length < t.outgoing.length + t.incoming.length := by
  obtain ⟨inc, fl, out⟩ := t
  simp only at hf
  subst hf
  unfold tokenizer.next
  by_cases ho : out.length > 0
  · right
    simp only [ho, if_true]
    exact ⟨_, _, rfl, rfl, by simp [token_value], by simp; omega⟩
  · have ho' : out = [] := by
      cases out with
      | nil => rfl
      | cons a b => simp at ho
    subst ho'
    simp only [List.length_nil, gt_iff_lt, lt_self_iff_false, if_false, List.nil_append]
    cases inc with
    | nil => left; simp
    | cons r rest =>
      right
      simp only
      by_cases hs : P.isSpace r = true
      · simp only [hs, if_true]
        exact ⟨_, _, rfl, rfl, by simp [token_value], by simp⟩
      · simp only [hs]
        have hrw : ∃ tok t', readWord P none rest [r] = .value (some tok, t') ∧ t'.fail = none ∧
            tok.value.data ++ (t'.outgoing ++ t'.incoming) = r :: rest ∧
            t'.outgoing.length + t'.incoming.length < (r :: rest).length := by
          obtain ⟨w, o, inc', h1, h2, h3, _⟩ := readWord_spec P rest [r]
          refine ⟨_, _, h1, rfl, ?_, ?_⟩
          · simpa [token_value] using h2
          · simp; omega
        by_cases hp : P.isPunct r = true
        · simp only [hp, if_true]
          by_cases hl : P.leadingPunct r = true
          · simp only [hl, if_true]
            cases hpk : peekTerminator P none rest with
            | value term =>
              simp only
              cases term with
              | true => exact ⟨_, _, rfl, rfl, by simp [token_value], by simp⟩
              | false => simpa using hrw
            | failed e => cases rest <;> simp [peekTerminator] at hpk
            | panicked => cases rest <;> simp [peekTerminator] at hpk
            | timeout => cases rest <;> simp [peekTerminator] at hpk
          · simp only [hl]
            exact ⟨_, _, rfl, rfl, by simp [token_value], by simp⟩
        · simp only [hp]
          simpa using hrw

theorem tokenizer_ToSlice_spec (P : Policy) (fuel : Nat) (t : tokenizer) (hf : t.fail = none)
    (hfuel : t.outgoing.length + t.incoming.length < fuel) :
    ∃ toks, tokenizer.ToSlice P fuel t = .value toks ∧
      (Join toks).data = t.outgoing ++ t.incoming := by
  induction fuel generalizing t with
  | zero => omega
  | succ n ih =>
    unfold tokenizer.ToSlice
    rcases tokenizer_next_spec P t hf with ⟨h1, h2, h3⟩ | ⟨tok, t', h1, h2, h3, h4⟩
    · exact ⟨[], by simp [h1], by simp [h2, h3, Join_nil]⟩
    · obtain ⟨toks, e1, e2⟩ := ih t' h2 (by omega)
      refine ⟨tok :: toks, by simp [h1, e1], ?_⟩
      rw [Join_cons, String.data_append, e2, h3]

theorem tokenize_round_trip_aux (P : Policy) (s : String) :
    ∃ toks, TokenizeString P s = .value toks ∧ Join toks = s := by
  obtain ⟨toks, h1, h2⟩ := tokenizer_ToSlice_spec P (s.data.length + 1)
    (newTokenizer s.data none) rfl (by simp [newTokenizer])
  refine ⟨toks, h1, ?_⟩
  apply String.ext
  simpa [newTokenizer] using h2

/-! ## Synonym filter -/

theorem Segmented.verbatim_append {search : List Token → Bool × String × Nat}
    {mk : String → Token} (pre : List Token) {T O : List Token}
    (h : Segmented search mk T O) : Segmented search mk (pre ++ T) (pre ++ O) := by
  induction pre with
  | nil => simpa using h
  | cons a pre ih => exact Segmented.verbatim a ih

theorem fillLoop_spec (k : Nat) (I : List Token) (words : Nat) (B : TokenQueue) :
    ∃ pulled rest, fillLoop k none I words B
        = .value ({ pending := rest, fail := none }, { Tokens := B.Tokens ++ pulled }) ∧
      I = pulled ++ rest ∧ (words < k → I ≠ [] → pulled ≠ []) := by
  induction I generalizing words B with
  | nil =>
    refine ⟨[], [], ?_, by simp, by simp⟩
    unfold fillLoop
    split <;> simp
  | cons token rest ih =>
    unfold fillLoop
    by_cases hw : words < k
    · rw [if_pos hw]
      by_cases hp : token.IsPunct = true
      · simp only [hp, if_true]
        exact ⟨[token], rest, by simp [TokenQueue.Push], by simp, by simp⟩
      · simp only [hp]
        by_cases hsp : token.IsSpace = true
        · simp only [hsp, if_true]
          obtain ⟨pulled, rest', h1, h2, _⟩ := ih words (B.Push token)
          exact ⟨token :: pulled, rest', by simpa [TokenQueue.Push] using h1, by simp [h2],
            by simp⟩
        · simp only [hsp]
          obtain ⟨pulled, rest', h1, h2, _⟩ := ih (words + 1) (B.Push token)
          exact ⟨token :: pulled, rest', by simpa [TokenQueue.Push] using h1, by simp [h2],
            by simp⟩
    · rw [if_neg hw]
      exact ⟨[], token :: rest, by simp, by simp, fun h => absurd h hw⟩

theorem fill_spec {τ : Type} (t : tokens τ) (hf : t.incoming.fail = none) :
    ∃ pulled rest, t.fill = .value { t with
        incoming := { pending := rest, fail := none },
        buffer := { Tokens := t.buffer.Tokens ++ pulled } } ∧
      t.incoming.pending = pulled ++ rest ∧
      (t.buffer.Tokens = [] → 1 ≤ t.filter.maxWords → t.incoming.pending ≠ [] → pulled ≠ []) := by
  unfold tokens.fill
  obtain ⟨pulled, rest, h1, h2, h3⟩ := fillLoop_spec t.filter.maxWords t.incoming.pending
    (t.buffer.Tokens.countP (fun token => !token.IsPunct && !token.IsSpace)) t.buffer
  simp only [hf, h1]
  refine ⟨pulled, rest, rfl, h2, ?_⟩
  intro hB hk
  apply h3
  rw [hB]
  simpa using hk

theorem leadingSpaces_le (B : List Token) : leadingSpaces B ≤ B.length := by
  induction B with
  | nil => simp [leadingSpaces]
  | cons a B ih =>
    unfold leadingSpaces
    split <;> simp
    omega


theorem countWords_cons (a : Token) (l : List Token) :
    countWords (a :: l) = countWords l + (if a.isWord = true then 1 else 0) := by
  simp [countWords, List.countP_cons, Token.isWord]

/-- What the second loop of `wordrun` computes: `end` is moved past a run that
holds no punctuation and, counted with the `words` met before, at most
`maxWords` words. -/
theorem runEnd_spec (k : Nat) (B : List Token) :
    ∀ (i words e : Nat), ∃ run rest, B = run ++ rest ∧
      runEnd k B i words e = (if run = [] then e else i + run.length) ∧
      (∀ token ∈ run, token.IsPunct = false) ∧
      (words < k → words + countWords run ≤ k) ∧
      (run = [] → B = [] ∨ ∃ a B1, B = a :: B1 ∧ a.IsPunct = true) := by
  induction B with
  | nil =>
    intro i words e
    exact ⟨[], [], rfl, by simp [runEnd], by simp, by simp [countWords]; omega, by simp⟩
  | cons a B ih =>
    intro i words e
    unfold runEnd
    by_cases hp : a.IsPunct = true
    · exact ⟨[], a :: B, rfl, by simp [hp], by simp, by simp [countWords]; omega,
        fun _ => Or.inr ⟨a, B, rfl, hp⟩⟩
    · have hp0 : a.IsPunct = false := by simpa using hp
      simp only [hp0, Bool.false_eq_true, if_false]
      generalize hw1 : (if (!a.IsSpace) = true then words + 1 else words) = w1
      have hcw : countWords [a] + words = w1 := by
        rw [← hw1, countWords_cons]
        simp only [countWords, List.countP_nil, Token.isWord, hp0]
        cases a.IsSpace
        · simp; omega
        · simp
      have hle1 : countWords [a] ≤ 1 := by
        rw [countWords_cons]
        simp only [countWords, List.countP_nil]
        split <;> omega
      by_cases hk : w1 ≥ k
      · refine ⟨[a], B, rfl, by simp [hk], by simp [hp0], ?_, by simp⟩
        intro hw
        omega
      · obtain ⟨run, rest, h1, h2, h3, h4, _⟩ := ih (i + 1) w1 (i + 1)
        refine ⟨a :: run, rest, by simp [h1], ?_, ?_, ?_, by simp⟩
        · rw [if_neg hk, h2, if_neg (List.cons_ne_nil a run)]
          by_cases hr : run = []
          · simp [hr]
          · simp [hr]; omega
        · intro token ht
          rcases List.mem_cons.mp ht with h | h
          · rw [h]; exact hp0
          · exact h3 token h
        · intro hw
          have := h4 (by omega)
          rw [countWords_cons] at hcw ⊢
          simp only [countWords, List.countP_nil] at hcw
          omega

theorem leadingSpaces_spec (B : List Token) :
    (∀ token ∈ B.take (leadingSpaces B), token.IsSpace = true) ∧
    (∀ a B1, B.drop (leadingSpaces B) = a :: B1 → a.IsSpace = false) := by
  induction B with
  | nil => simp [leadingSpaces]
  | cons a B ih =>
    unfold leadingSpaces
    by_cases hs : a.IsSpace = true
    · simp only [hs, Bool.not_true, Bool.false_eq_true, if_false, List.take_succ_cons,
        List.drop_succ_cons]
      refine ⟨?_, ih.2⟩
      intro token ht
      rcases List.mem_cons.mp ht with h | h
      · rw [h]; exact hs
      · exact ih.1 token h
    · have hs0 : a.IsSpace = false := by simpa using hs
      simp only [hs0, Bool.not_false, if_true, List.take_zero, List.drop_zero]
      refine ⟨by simp, ?_⟩
      intro a1 B1 h
      simp at h
      rw [← h.1]; exact hs0

/-- What `wordrun` returns: the leading spaces go to `outgoing`, and the run is
the front of the buffer left: no punctuation in it, its first token a word, at
most `maxWords` words; it is empty only when the buffer left is empty or starts
with punctuation. -/
theorem wordrun_run {τ : Type} (t : tokens τ) :
    ∃ sp run rest, t.wordrun = .value (run, { t with
        buffer := { Tokens := run ++ rest },
        outgoing := { Tokens := t.outgoing.Tokens ++ sp } }) ∧
      t.buffer.Tokens = sp ++ (run ++ rest) ∧
      (∀ token ∈ sp, token.IsSpace = true) ∧
      (∀ token ∈ run, token.IsPunct = false) ∧
      (1 ≤ t.filter.maxWords → countWords run ≤ t.filter.maxWords) ∧
      (run ≠ [] → ∃ w run1, run = w :: run1 ∧ w.isWord = true) ∧
      (run = [] → rest = [] ∨ ∃ a B1, rest = a :: B1 ∧ a.IsPunct = true ∧ a.IsSpace = false) := by
  unfold tokens.wordrun
  have hle := leadingSpaces_le t.buffer.Tokens
  obtain ⟨hsp, hhead⟩ := leadingSpaces_spec t.buffer.Tokens
  simp only [TokenQueue.Drop, hle, if_true]
  obtain ⟨run, rest, h1, h2, h3, h4, h5⟩ := runEnd_spec t.filter.maxWords
    (t.buffer.Tokens.drop (leadingSpaces t.buffer.Tokens)) 0 0 0
  have htake : (t.buffer.Tokens.drop (leadingSpaces t.buffer.Tokens)).take
      (runEnd t.filter.maxWords (t.buffer.Tokens.drop (leadingSpaces t.buffer.Tokens)) 0 0 0)
      = run := by
    rw [h2, h1]
    split
    · rename_i hr; simp [hr]
    · simp
  refine ⟨t.buffer.Tokens.take (leadingSpaces t.buffer.Tokens), run, rest, ?_, ?_, hsp, h3, ?_,
    ?_, ?_⟩
  · rw [htake, ← h1]
  · rw [← h1, List.take_append_drop]
  · intro hk
    have := h4 (by omega)
    omega
  · intro hne
    cases run with
    | nil => exact absurd rfl hne
    | cons w run1 =>
      refine ⟨w, run1, rfl, ?_⟩
      have hw1 := hhead w (run1 ++ rest) (by rw [h1]; rfl)
      have hw2 := h3 w (by simp)
      simp [Token.isWord, hw1, hw2]
  · intro hr
    subst hr
    simp only [List.nil_append] at h1
    rcases h5 rfl with h | ⟨a, B1, hB, ha⟩
    · left; rw [← h1]; exact h
    · right
      refine ⟨a, B1, by rw [← h1]; exact hB, ha, hhead a B1 hB⟩

/-- The loop of `next` on an error-free upstream: with a budget above the
number of tokens in the buffer and upstream it reaches its `break`, having
appended `E` to `outgoing`; `E` followed by any segmentation of what is left is
a segmentation of what was there. -/
theorem loop_spec {τ : Type} (P : Policy) (ops : TrieOps τ) (f : Filter τ)
    (hs : WellBehaved (ops.SearchCanonical f.trie)) (fuel : Nat) :
    ∀ (I B O : List Token), B.length + I.length < fuel →
    ∃ E B1 I1, tokens.loop P ops fuel
        { incoming := { pending := I, fail := none }, buffer := { Tokens := B },
          outgoing := { Tokens := O }, filter := f }
        = .value
          { incoming := { pending := I1, fail := none }, buffer := { Tokens := B1 },
            outgoing := { Tokens := O ++ E }, filter := f } ∧
      (∀ R, Segmented (ops.SearchCanonical f.trie) (fun c => NewToken P c true) (B1 ++ I1) R →
        Segmented (ops.SearchCanonical f.trie) (fun c => NewToken P c true) (B ++ I) (E ++ R)) ∧
      E.length + B1.length + I1.length ≤ B.length + I.length ∧
      (1 ≤ f.maxWords → E = [] → B1 = [] → I1 = []) := by
  induction fuel with
  | zero => intro I B O h; omega
  | succ n ih =>
    intro I B O hfuel
    unfold tokens.loop
    obtain ⟨pulled, rest, hfill, hI, hne⟩ := fill_spec
      ({ incoming := { pending := I, fail := none }, buffer := { Tokens := B },
         outgoing := { Tokens := O }, filter := f } : tokens τ) rfl
    simp only at hfill hI hne
    simp only [hfill]
    obtain ⟨sp, run, rest2, hrun, hB, _, hnp, _, _, _⟩ := wordrun_run
      ({ incoming := { pending := rest, fail := none }, buffer := { Tokens := B ++ pulled },
         outgoing := { Tokens := O }, filter := f } : tokens τ)
    simp only at hrun hB
    simp only [hrun]
    have hlen : B.length + I.length = sp.length + run.length + rest2.length + rest.length := by
      have h1 := congrArg List.length hB
      have h2 := congrArg List.length hI
      simp at h1 h2
      omega
    have hall : B ++ I = sp ++ (run ++ (rest2 ++ rest)) := by
      rw [hI, ← List.append_assoc, hB]; simp
    by_cases hr : run.length = 0
    · have hr0 : run = [] := List.length_eq_zero.mp hr
      subst hr0
      simp only [List.length_nil, if_true, List.nil_append]
      refine ⟨sp, rest2, rest, rfl, ?_, ?_, ?_⟩
      · intro R hR
        rw [hall]
        exact Segmented.verbatim_append sp (by simpa using hR)
      · simp at hlen; omega
      · intro hk hE hB1
        subst hE; subst hB1
        simp at hB
        by_contra hc
        have hI0 : I ≠ [] := by rw [hI]; simpa [hB.2] using hc
        exact hne hB.1 hk hI0 hB.2
    · rcases hsr : ops.SearchCanonical f.trie run with ⟨found, canonical, consumed⟩
      have hsr1 : (ops.SearchCanonical f.trie run).1 = found := by rw [hsr]
      have hsr2 : (ops.SearchCanonical f.trie run).2.1 = canonical := by rw [hsr]
      have hsr3 : (ops.SearchCanonical f.trie run).2.2 = consumed := by rw [hsr]
      simp only [hr, if_false]
      simp only [TrieOps.SearchCanonical] at hsr1 hsr2 hsr3
      rw [hsr1, hsr2, hsr3]
      cases found with
      | true =>
        simp only [if_true]
        have hwb := hs run (by rw [hsr])
        rw [hsr] at hwb
        simp only at hwb
        have hdrop : consumed ≤ (run ++ rest2).length := by simp; omega
        simp only [TokenQueue.Drop, hdrop, if_true]
        have hd : (run ++ rest2).drop consumed = run.drop consumed ++ rest2 := by
          rw [List.drop_append_of_le_length hwb.2]
        rw [hd]
        by_cases hc : canonical = ""
        · subst hc
          simp only [ne_eq, not_true_eq_false, if_false]
          obtain ⟨E, B1, I1, h1, h2, h3, h4⟩ := ih rest (run.drop consumed ++ rest2) (O ++ sp)
            (by simp; omega)
          refine ⟨sp ++ E, B1, I1, by simpa using h1, ?_, ?_, ?_⟩
          · intro R hR
            rw [hall, List.append_assoc]
            apply Segmented.verbatim_append sp
            apply Segmented.suppressed run (rest2 ++ rest) consumed hsr hwb.1 hwb.2 hnp
            simpa using h2 R hR
          · simp at h3 ⊢; omega
          · intro hk hE hB1
            simp at hE
            exact h4 hk hE.2 hB1
        · simp only [ne_eq, hc, not_false_eq_true, if_true]
          obtain ⟨E, B1, I1, h1, h2, h3, h4⟩ := ih rest (run.drop consumed ++ rest2)
            (O ++ sp ++ [NewToken P canonical true]) (by simp; omega)
          refine ⟨sp ++ NewToken P canonical true :: E, B1, I1,
            by simpa [TokenQueue.Push] using h1, ?_, ?_, ?_⟩
          · intro R hR
            rw [hall, List.append_assoc]
            apply Segmented.verbatim_append sp
            apply Segmented.replaced run (rest2 ++ rest) canonical consumed hsr hwb.1 hwb.2 hnp hc
            simpa using h2 R hR
          · simp at h3 ⊢; omega
          · intro _ hE; simp at hE
      | false =>
        simp only [Bool.false_eq_true, if_false]
        cases run with
        | nil => simp at hr
        | cons a run1 =>
          simp only [TokenQueue.PopTo, TokenQueue.Pop, TokenQueue.Push, List.cons_append]
          obtain ⟨E, B1, I1, h1, h2, h3, h4⟩ := ih rest (run1 ++ rest2) (O ++ sp ++ [a])
            (by simp at hlen ⊢; omega)
          refine ⟨sp ++ a :: E, B1, I1, by simpa using h1, ?_, ?_, ?_⟩
          · intro R hR
            rw [hall, List.append_assoc]
            apply Segmented.verbatim_append sp
            apply Segmented.verbatim a
            simpa using h2 R hR
          · simp at h3 hlen ⊢; omega
          · intro _ hE; simp at hE

/-- When the loop of `next` is left with nothing in `outgoing` and nothing in
the buffer, upstream has ended. -/
theorem loop_end {τ : Type} (P : Policy) (ops : TrieOps τ) (f : Filter τ) (hk : 1 ≤ f.maxWords)
    (fuel : Nat) :
    ∀ (I B O : List Token) (t1 : tokens τ), tokens.loop P ops fuel
        { incoming := { pending := I, fail := none }, buffer := { Tokens := B },
          outgoing := { Tokens := O }, filter := f } = .value t1 →
      t1.outgoing.Tokens = [] → t1.buffer.Tokens = [] →
      t1.incoming.pending = [] ∧ t1.incoming.fail = none ∧ t1.filter = f := by
  induction fuel with
  | zero => intro I B O t1 h; simp [tokens.loop] at h
  | succ n ih =>
    intro I B O t1
    unfold tokens.loop
    obtain ⟨pulled, rest, hfill, hI, hne⟩ := fill_spec
      ({ incoming := { pending := I, fail := none }, buffer := { Tokens := B },
         outgoing := { Tokens := O }, filter := f } : tokens τ) rfl
    simp only at hfill hI hne
    simp only [hfill]
    obtain ⟨sp, run, rest2, hrun, hB, _, hnp, _, _, _⟩ := wordrun_run
      ({ incoming := { pending := rest, fail := none }, buffer := { Tokens := B ++ pulled },
         outgoing := { Tokens := O }, filter := f } : tokens τ)
    simp only at hrun hB
    simp only [hrun]
    by_cases hr : run.length = 0
    · have hr0 : run = [] := List.length_eq_zero.mp hr
      subst hr0
      simp only [List.length_nil, if_true, List.nil_append]
      intro h hO hB1
      simp only [Run.value.injEq] at h
      subst h
      simp only at hO hB1 ⊢
      simp at hO
      subst hB1
      rw [hO.2] at hB
      simp at hB
      have key : rest = [] := by
        by_contra hc
        have hI0 : I ≠ [] := by rw [hI]; simpa [hB.2] using hc
        exact hne hB.1 hk hI0 hB.2
      simp [key]
    · simp only [hr, if_false]
      by_cases hfound : (ops.SearchCanonical f.trie run).1 = true
      · simp only [TrieOps.SearchCanonical] at hfound
        rw [if_pos hfound]
        simp only [TokenQueue.Drop]
        split
        · intro h; simp at h
        · rename_i buffer hbuf
          exact ih _ _ _ t1
      · simp only [TrieOps.SearchCanonical] at hfound
        rw [if_neg hfound]
        cases run with
        | nil => simp at hr
        | cons a run1 =>
          simp only [TokenQueue.PopTo, TokenQueue.Pop, TokenQueue.Push, List.cons_append]
          exact ih _ _ _ t1

theorem Segmented.of_not_found {search : List Token → Bool × String × Nat} {mk : String → Token}
    (hnf : ∀ run, (search run).1 = false) {T O : List Token} (h : Segmented search mk T O) :
    O = T := by
  induction h with
  | done => rfl
  | verbatim token _ ih => rw [ih]
  | replaced run rest canonical consumed hs _ _ _ _ _ _ =>
    have := hnf run
    rw [hs] at this
    simp at this
  | suppressed run rest consumed hs _ _ _ _ _ =>
    have := hnf run
    rw [hs] at this
    simp at this

/-- Pulling the filtered stream to its end on an error-free upstream: what comes
out is what `outgoing` held followed by a segmentation of the buffer and the
upstream tokens. -/
theorem ToSlice_spec {τ : Type} (P : Policy) (ops : TrieOps τ) (f : Filter τ)
    (hk : 1 ≤ f.maxWords) (hs : WellBehaved (ops.SearchCanonical f.trie)) (fuel n : Nat) :
    ∀ (I B O : List Token), B.length + I.length < fuel → O.length + B.length + I.length < n →
    ∃ R, tokens.ToSlice P ops fuel n
        { incoming := { pending := I, fail := none }, buffer := { Tokens := B },
          outgoing := { Tokens := O }, filter := f } = .value (O ++ R) ∧
      Segmented (ops.SearchCanonical f.trie) (fun c => NewToken P c true) (B ++ I) R := by
  induction n with
  | zero => intro I B O _ h; omega
  | succ n ih =>
    intro I B O hfuel hn
    unfold tokens.ToSlice tokens.next
    cases O with
    | cons a O1 =>
      simp only [TokenQueue.Any, List.length_cons, gt_iff_lt, Nat.zero_lt_succ, decide_True,
        if_true, TokenQueue.Pop]
      obtain ⟨R, h1, h2⟩ := ih I B O1 hfuel (by simp at hn; omega)
      exact ⟨R, by simp [h1], h2⟩
    | nil =>
      simp only [TokenQueue.Any, List.length_nil, gt_iff_lt, lt_self_iff_false, decide_False,
        Bool.false_eq_true, if_false]
      obtain ⟨E, B1, I1, h1, h2, h3, h4⟩ := loop_spec P ops f hs fuel I B [] hfuel
      simp only [h1, TokenQueue.FlushTo, List.nil_append]
      have hcase : E ++ B1 = [] ∨ ∃ a rest1, E ++ B1 = a :: rest1 := by
        cases E ++ B1 <;> simp
      rcases hcase with hEB | ⟨a, rest1, hEB⟩
      · simp only [hEB, List.length_nil, gt_iff_lt, lt_self_iff_false, decide_False,
          Bool.false_eq_true, if_false]
        simp at hEB
        have hI1 := h4 hk hEB.1 hEB.2
        refine ⟨[], rfl, ?_⟩
        have := h2 [] (by rw [hEB.2, hI1]; exact Segmented.done)
        simpa [hEB.1] using this
      · simp only [hEB, List.length_cons, gt_iff_lt, Nat.zero_lt_succ, decide_True, if_true,
          TokenQueue.Pop]
        have hlen := congrArg List.length hEB
        simp at hlen hn
        obtain ⟨R, e1, e2⟩ := ih I1 [] rest1 (by simp; omega) (by simp; omega)
        refine ⟨E ++ (B1 ++ R), ?_, ?_⟩
        · simp only [e1]
          rw [← List.append_assoc, hEB]
          simp
        · exact h2 (B1 ++ R) (Segmented.verbatim_append B1 (by simpa using e2))

/-! ## Lemmatizer -/

theorem get?_middle (pre mid : List Token) (a : Token) (rest : List Token) :
    (pre ++ mid ++ a :: rest).get? (pre.length + mid.length) = some a := by
  have h : pre.length + mid.length = (pre ++ mid).length := by simp
  rw [h, List.get?_eq_getElem?, List.getElem?_append_right (le_refl _)]
  simp

theorem countWords_append (xs ys : List Token) :
    countWords (xs ++ ys) = countWords xs + countWords ys := by
  simp [countWords, List.countP_append]

/-- The loop of the lemmatizer's `wordrun` when the words wanted are all there:
`todo` is scanned to its end, which is the last word taken. -/
theorem wordrunLoop_taken (pre post : List Token) (take : Nat) :
    ∀ (todo scanned taken : List Token) (fuel : Nat),
      (∀ token ∈ todo, token.IsPunct = false) →
      taken.length + countWords todo = take →
      (todo = [] ∨ ∃ init w, todo = init ++ [w] ∧ w.isWord = true) →
      todo.length < fuel →
      wordrunLoop (pre ++ scanned ++ todo ++ post) pre.length take fuel taken scanned.length
        = .value (taken ++ todo.filter Token.isWord, scanned.length + todo.length, true) := by
  intro todo
  induction todo with
  | nil =>
    intro scanned taken fuel _ htake _ hfuel
    cases fuel with
    | zero => simp at hfuel
    | succ n =>
      unfold wordrunLoop
      simp [countWords] at htake
      simp [htake]
  | cons a todo ih =>
    intro scanned taken fuel hnp htake hlast hfuel
    cases fuel with
    | zero => simp at hfuel
    | succ n =>
      unfold wordrunLoop
      have hap : a.IsPunct = false := hnp a (by simp)
      have hlast1 : ∃ init w, a :: todo = init ++ [w] ∧ w.isWord = true := by
        rcases hlast with h | h
        · simp at h
        · exact h
      have hcw : 1 ≤ countWords (a :: todo) := by
        obtain ⟨init, w, h1, h2⟩ := hlast1
        rw [h1, countWords_append, countWords_cons]
        simp only [h2, if_true]
        omega
      have hlt : (taken.length : Int) < (take : Int) := by omega
      have hget : (pre ++ scanned ++ (a :: todo) ++ post).get? (pre.length + scanned.length)
          = some a := by
        simpa using get?_middle pre scanned a (todo ++ post)
      simp only [hlt, if_true, hget, hap, Bool.false_eq_true, if_false]
      have hshape : pre ++ scanned ++ (a :: todo) ++ post
          = pre ++ (scanned ++ [a]) ++ todo ++ post := by simp
      have hnp1 : ∀ token ∈ todo, token.IsPunct = false :=
        fun token h => hnp token (List.mem_cons_of_mem _ h)
      rw [countWords_cons] at htake
      by_cases hs : a.IsSpace = true
      · have hw : a.isWord = false := by simp [Token.isWord, hs]
        simp only [hs, if_true]
        have hlast2 : todo = [] ∨ ∃ init w, todo = init ++ [w] ∧ w.isWord = true := by
          obtain ⟨init, w, h1, h2⟩ := hlast1
          cases init with
          | nil =>
            simp at h1
            rw [h1.1] at hw
            rw [hw] at h2
            simp at h2
          | cons b init1 =>
            simp at h1
            exact Or.inr ⟨init1, w, h1.2, h2⟩
        have := ih (scanned ++ [a]) taken n hnp1 (by simpa [hw] using htake) hlast2
          (by simp at hfuel; omega)
        rw [hshape]
        simp only [List.length_append, List.length_singleton] at this
        rw [this]
        simp [hw]
        omega
      · have hs0 : a.IsSpace = false := by simpa using hs
        have hw : a.isWord = true := by simp [Token.isWord, hs0, hap]
        simp only [hs0, Bool.false_eq_true, if_false]
        have hlast2 : todo = [] ∨ ∃ init w, todo = init ++ [w] ∧ w.isWord = true := by
          obtain ⟨init, w, h1, h2⟩ := hlast1
          cases init with
          | nil => simp at h1; exact Or.inl h1.2
          | cons b init1 =>
            simp at h1
            exact Or.inr ⟨init1, w, h1.2, h2⟩
        have := ih (scanned ++ [a]) (taken ++ [a]) n hnp1
          (by simp [hw] at htake; simp; omega) hlast2 (by simp at hfuel; omega)
        rw [hshape]
        simp only [List.length_append, List.length_singleton] at this
        rw [this]
        simp [hw]
        omega

/-- The loop of the lemmatizer's `wordrun` when punctuation comes before the
words wanted are all there. -/
theorem wordrunLoop_punct (pre post : List Token) (take : Nat) (p : Token)
    (hp : p.IsPunct = true) :
    ∀ (todo scanned taken : List Token) (fuel : Nat),
      (∀ token ∈ todo, token.IsPunct = false) →
      taken.length + countWords todo < take →
      todo.length < fuel →
      wordrunLoop (pre ++ scanned ++ todo ++ p :: post) pre.length take fuel taken scanned.length
        = .value ([], 0, false) := by
  intro todo
  induction todo with
  | nil =>
    intro scanned taken fuel _ htake hfuel
    cases fuel with
    | zero => simp at hfuel
    | succ n =>
      unfold wordrunLoop
      simp [countWords] at htake
      have hlt : (taken.length : Int) < (take : Int) := by omega
      have hget : (pre ++ scanned ++ [] ++ p :: post).get? (pre.length + scanned.length)
          = some p := by
        simpa using get?_middle pre scanned p post
      simp only [hlt, if_true, hget, hp]
  | cons a todo ih =>
    intro scanned taken fuel hnp htake hfuel
    cases fuel with
    | zero => simp at hfuel
    | succ n =>
      unfold wordrunLoop
      have hap : a.IsPunct = false := hnp a (by simp)
      have hlt : (taken.length : Int) < (take : Int) := by omega
      have hget : (pre ++ scanned ++ (a :: todo) ++ p :: post).get?
          (pre.length + scanned.length) = some a := by
        simpa using get?_middle pre scanned a (todo ++ p :: post)
      simp only [hlt, if_true, hget, hap, Bool.false_eq_true, if_false]
      have hshape : pre ++ scanned ++ (a :: todo) ++ p :: post
          = pre ++ (scanned ++ [a]) ++ todo ++ p :: post := by simp
      have hnp1 : ∀ token ∈ todo, token.IsPunct = false :=
        fun token h => hnp token (List.mem_cons_of_mem _ h)
      rw [countWords_cons] at htake
      by_cases hs : a.IsSpace = true
      · simp only [hs, if_true]
        have := ih (scanned ++ [a]) taken n hnp1 (by omega) (by simp at hfuel; omega)
        rw [hshape]
        simpa using this
      · have hs0 : a.IsSpace = false := by simpa using hs
        have hw : a.isWord = true := by simp [Token.isWord, hs0, hap]
        simp only [hs0, Bool.false_eq_true, if_false]
        have := ih (scanned ++ [a]) (taken ++ [a]) n hnp1
          (by simp [hw] at htake; simp; omega) (by simp at hfuel; omega)
        rw [hshape]
        simpa using this

/-! ## The modelled trie -/

theorem RuneTrie.walk_bounds (t : RuneTrie) (toks : List Token) :
    ∀ (i : Nat) (k : List Char) (best : Bool × String × Nat),
      (best.1 = true → 1 ≤ best.2.2 ∧ best.2.2 ≤ i) →
      (RuneTrie.walk t toks i k best).1 = true →
      1 ≤ (RuneTrie.walk t toks i k best).2.2 ∧
        (RuneTrie.walk t toks i k best).2.2 ≤ i + toks.length := by
  induction toks with
  | nil => intro i k best hb h; simpa [RuneTrie.walk] using hb h
  | cons a toks ih =>
    intro i k best hb h
    unfold RuneTrie.walk at h ⊢
    simp only at h ⊢
    have := ih (i + 1) _ _ ?_ h
    · simp only [List.length_cons]
      omega
    · split
      · split
        · intro _; simp
        · intro hbest; have := hb hbest; omega
      · intro hbest; have := hb hbest; omega

theorem RuneTrie.wellBehaved (t : RuneTrie) : WellBehaved (runeTrieOps.SearchCanonical t) := by
  intro run h
  have := RuneTrie.walk_bounds t run 0 [] (false, "", 0) (by simp) h
  simpa using this

theorem RuneTrie.walk_no_entries (t : RuneTrie) (he : t.entries = []) (toks : List Token) :
    ∀ (i : Nat) (k : List Char) (best : Bool × String × Nat),
      RuneTrie.walk t toks i k best = best := by
  induction toks with
  | nil => intro i k best; rfl
  | cons a toks ih =>
    intro i k best
    unfold RuneTrie.walk
    simp only [RuneTrie.terminal, he, List.find?_nil, Option.map_none', ite_self]
    exact ih _ _ _

theorem RuneTrie.New_not_found (ignoreCase : Bool) (ignoreRunes : List Char) (run : List Token) :
    (runeTrieOps.SearchCanonical (runeTrieOps.New ignoreCase ignoreRunes) run).1 = false := by
  simp only [runeTrieOps, RuneTrie.SearchCanonical]
  rw [RuneTrie.walk_no_entries _ rfl]

/-! ## Main statements -/

/-- C1 (round trip).  For every input string, read without error, `Tokenize`
pulled to the end returns tokens whose values, concatenated in order, are the
input. -/
theorem tokenize_round_trip (P : Policy) (s : String) :
    ∃ toks, TokenizeString P s = .value toks ∧ Join toks = s := by
  obtain ⟨toks, h1, h2⟩ := tokenizer_ToSlice_spec P (s.data.length + 1)
    (newTokenizer s.data none) rfl (by simp [newTokenizer])
  refine ⟨toks, h1, ?_⟩
  apply String.ext
  simpa [newTokenizer] using h2

/-- C2 (token conservation).  For an error-free upstream sequence `T` and a trie
whose matches report `1 ≤ consumed ≤ len(run)`, the filter pulled to the end
returns an output that is `T` cut into consecutive segments in the original
order, each a token passed on verbatim or the first `consumed` tokens of a
matched run replaced by one canonical token (by nothing when the canonical
string is empty); and a pull signals the end only when upstream has ended and
the buffer and `outgoing` are empty. -/
theorem synonyms_token_conservation {τ : Type} (P : Policy) (ops : TrieOps τ) (f : Filter τ)
    (hk : 1 ≤ f.maxWords) (hs : WellBehaved (ops.SearchCanonical f.trie)) (T : List Token) :
    (∃ out, tokens.ToSlice P ops (T.length + 1) (T.length + 1)
        (f.Filter { pending := T, fail := none }) = .value out ∧
      Segmented (ops.SearchCanonical f.trie) (fun c => NewToken P c true) T out) ∧
    (∀ (fuel : Nat) (I B O : List Token) (t1 : tokens τ),
      tokens.next P ops fuel
        { incoming := { pending := I, fail := none }, buffer := { Tokens := B },
          outgoing := { Tokens := O }, filter := f } = .value (none, t1) →
      t1.incoming.pending = [] ∧ t1.incoming.fail = none ∧ t1.buffer.Tokens = [] ∧
        t1.outgoing.Tokens = []) := by
  constructor
  · obtain ⟨R, h1, h2⟩ := ToSlice_spec P ops f hk hs (T.length + 1) (T.length + 1) T [] []
      (by simp) (by simp)
    exact ⟨R, by simpa [Filter.Filter] using h1, by simpa using h2⟩
  · intro fuel I B O t1
    unfold tokens.next
    cases O with
    | cons a O1 => simp [TokenQueue.Any, TokenQueue.Pop]
    | nil =>
      simp only [TokenQueue.Any, List.length_nil, gt_iff_lt, lt_self_iff_false, decide_False,
        Bool.false_eq_true, if_false]
      cases hl : tokens.loop P ops fuel
          { incoming := { pending := I, fail := none }, buffer := { Tokens := B },
            outgoing := { Tokens := [] }, filter := f } with
      | value t2 =>
        simp only [TokenQueue.FlushTo]
        have hsplit : t2.outgoing.Tokens ++ t2.buffer.Tokens = [] ∨
            ∃ a r, t2.outgoing.Tokens ++ t2.buffer.Tokens = a :: r := by
          cases t2.outgoing.Tokens ++ t2.buffer.Tokens <;> simp
        rcases hsplit with hcase | ⟨a, r, hcase⟩
        · simp only [hcase, List.length_nil, lt_self_iff_false, decide_False,
            Bool.false_eq_true, if_false, Run.value.injEq, Prod.mk.injEq, true_and]
          intro h
          subst h
          simp at hcase
          have := loop_end P ops f hk fuel I B [] t2 hl hcase.1 hcase.2
          simp [this.1, this.2.1]
        · simp [hcase, TokenQueue.Pop]
      | failed e => simp
      | panicked => simp
      | timeout => simp

/-- C3 (passthrough).  For every input text, the filter built from an empty
dictionary, over a trie that finds nothing while it is empty, returns exactly
the tokens of the unfiltered tokenizer. -/
theorem synonyms_passthrough {τ : Type} (P : Policy) (ops : TrieOps τ) (ignoreCase : Bool)
    (ignoreRunes : List Char)
    (hempty : ∀ run, (ops.SearchCanonical (ops.New ignoreCase ignoreRunes) run).1 = false)
    (text : String) :
    filterString P ops [] ignoreCase ignoreRunes text = TokenizeString P text := by
  obtain ⟨toks, h1, _⟩ := tokenize_round_trip_aux P text
  have hwb : WellBehaved (ops.SearchCanonical (ops.New ignoreCase ignoreRunes)) := by
    intro run h
    rw [hempty run] at h
    simp at h
  obtain ⟨R, h2, h3⟩ := ToSlice_spec P ops
    { trie := ops.New ignoreCase ignoreRunes, maxWords := 1 } (le_refl 1) hwb
    (toks.length + 1) (toks.length + 1) toks [] [] (by simp) (by simp)
  have hR : R = toks := Segmented.of_not_found hempty (by simpa using h3)
  simp only [filterString, NewFilter, mappingsLoop, h1, Filter.Filter]
  simpa [hR] using h2

theorem updateMaxWords_ge (slice : List Token) (m : Nat) : m ≤ updateMaxWords slice m := by
  unfold updateMaxWords
  simp only
  split <;> omega

theorem phraseLoop_maxWords {τ : Type} (ops : TrieOps τ) (toks : List Token) (canonical : String) :
    ∀ (rest : List Token) (i : Nat) (st : phraseState τ),
      st.maxWords ≤ (phraseLoop ops toks canonical rest i st).maxWords := by
  intro rest
  induction rest with
  | nil => intro i st; simp [phraseLoop]
  | cons a rest ih =>
    intro i st
    unfold phraseLoop
    split
    · exact ih (i + 1) { st with start := st.start + 1 }
    · split
      · exact le_trans (updateMaxWords_ge ((toks.take i).drop st.start) st.maxWords)
          (ih (i + 1)
            { trie := ops.Add st.trie ((toks.take i).drop st.start) canonical,
              maxWords := updateMaxWords ((toks.take i).drop st.start) st.maxWords,
              start := i + 1, skipSpaces := true })
      · exact ih (i + 1) { st with skipSpaces := false }

theorem mappingsLoop_spec {τ : Type} (P : Policy) (ops : TrieOps τ) :
    ∀ (mappings : List (String × String)) (trie : τ) (k : Nat),
      ∃ trie1 k1, mappingsLoop P ops mappings trie k = .value (trie1, k1) ∧ k ≤ k1 := by
  intro mappings
  induction mappings with
  | nil => intro trie k; exact ⟨trie, k, rfl, le_refl _⟩
  | cons m rest ih =>
    intro trie k
    obtain ⟨synonyms, canonical⟩ := m
    unfold mappingsLoop
    obtain ⟨toks, h1, _⟩ := tokenize_round_trip_aux P synonyms
    simp only [h1]
    obtain ⟨trie1, k1, e1, e2⟩ := ih
      (ops.Add (phraseLoop ops toks canonical toks 0
        { trie := trie, maxWords := k, start := 0, skipSpaces := true }).trie
        (toks.drop (phraseLoop ops toks canonical toks 0
          { trie := trie, maxWords := k, start := 0, skipSpaces := true }).start) canonical)
      (updateMaxWords (toks.drop (phraseLoop ops toks canonical toks 0
          { trie := trie, maxWords := k, start := 0, skipSpaces := true }).start)
        (phraseLoop ops toks canonical toks 0
          { trie := trie, maxWords := k, start := 0, skipSpaces := true }).maxWords)
    refine ⟨trie1, k1, e1, ?_⟩
    have := phraseLoop_maxWords ops toks canonical toks 0
      { trie := trie, maxWords := k, start := 0, skipSpaces := true }
    have := updateMaxWords_ge (toks.drop (phraseLoop ops toks canonical toks 0
          { trie := trie, maxWords := k, start := 0, skipSpaces := true }).start)
        (phraseLoop ops toks canonical toks 0
          { trie := trie, maxWords := k, start := 0, skipSpaces := true }).maxWords
    simp only at *
    omega

/-- `NewFilter` returns a filter for every dictionary, and its `maxWords` is at
least 1. -/
theorem NewFilter_spec {τ : Type} (P : Policy) (ops : TrieOps τ)
    (mappings : List (String × String)) (ignoreCase : Bool) (ignoreRunes : List Char) :
    ∃ f, NewFilter P ops mappings ignoreCase ignoreRunes = .value f ∧ 1 ≤ f.maxWords := by
  obtain ⟨trie1, k1, e1, e2⟩ := mappingsLoop_spec P ops mappings (ops.New ignoreCase ignoreRunes) 1
  exact ⟨{ trie := trie1, maxWords := k1 }, by simp [NewFilter, e1], e2⟩

/-- C4 (longest match), the text of `TestFilter`.  The code returns
"... a cliché, 10x developer, or boffin, for ruby on ruby-on-rails and
node.js", which is not the output the test expects: the words that `fill` pulls
past a punctuation token still in the buffer are flushed without being looked
up.  The smallest case: with a two-word phrase in the dictionary, the "b" of
"a, b" is not replaced, while without the two-word phrase it is. -/
theorem synonyms_test_filter_output :
    (filterString techPolicy runeTrieOps testMappings true testIgnore testOriginal).map Join
      = .value
        "we are looking for a cliché, 10x developer, or boffin, for ruby on ruby-on-rails and node.js" ∧
    (filterString techPolicy runeTrieOps testMappings true testIgnore testOriginal).map Join
      ≠ .value testExpected ∧
    (filterString techPolicy runeTrieOps [("b", "B"), ("x y", "Z")] true testIgnore "a, b").map Join
      = .value "a, b" ∧
    (filterString techPolicy runeTrieOps [("b", "B")] true testIgnore "a, b").map Join
      = .value "a, B" := by
  decide

/-- C5 (punctuation boundary).  For the filter `NewFilter` builds from any
dictionary and any state of a filtered stream, `wordrun` returns a run that is
the front of the buffer left, holds no punctuation token and at most `maxWords`
words, and, when it is not empty, starts with a word; and with the single entry
"Ruby on Rails" the text "Ruby. on Rails" comes out token for token as it went
in, with the ignore set of the tests and without one. -/
theorem synonyms_punctuation_boundary {τ : Type} (P : Policy) (ops : TrieOps τ)
    (mappings : List (String × String)) (ignoreCase : Bool) (ignoreRunes : List Char)
    (f : Filter τ) (hf : NewFilter P ops mappings ignoreCase ignoreRunes = .value f)
    (incoming : Tokens) (buffer outgoing : TokenQueue) :
    (∃ sp run rest,
      tokens.wordrun { incoming := incoming, buffer := buffer, outgoing := outgoing, filter := f }
        = .value (run,
            { incoming := incoming, buffer := { Tokens := run ++ rest },
              outgoing := { Tokens := outgoing.Tokens ++ sp }, filter := f }) ∧
      buffer.Tokens = sp ++ (run ++ rest) ∧
      (∀ token ∈ run, token.IsPunct = false) ∧
      countWords run ≤ f.maxWords ∧
      (run ≠ [] → 1 ≤ countWords run ∧ ∃ w run1, run = w :: run1 ∧ w.isWord = true)) ∧
    filterString techPolicy runeTrieOps [("Ruby on Rails", "ruby-on-rails")] true testIgnore
      "Ruby. on Rails" = TokenizeString techPolicy "Ruby. on Rails" ∧
    filterString techPolicy runeTrieOps [("Ruby on Rails", "ruby-on-rails")] false []
      "Ruby. on Rails" = TokenizeString techPolicy "Ruby. on Rails" := by
  have hk : 1 ≤ f.maxWords := by
    obtain ⟨f1, h1, h2⟩ := NewFilter_spec P ops mappings ignoreCase ignoreRunes
    rw [hf] at h1
    simp only [Run.value.injEq] at h1
    rw [h1]; exact h2
  refine ⟨?_, by decide, by decide⟩
  obtain ⟨sp, run, rest, h1, h2, _, h4, h5, h6, _⟩ := wordrun_run
    ({ incoming := incoming, buffer := buffer, outgoing := outgoing, filter := f } : tokens τ)
  refine ⟨sp, run, rest, h1, h2, h4, h5 hk, ?_⟩
  intro hne
  obtain ⟨w, run1, e1, e2⟩ := h6 hne
  refine ⟨?_, w, run1, e1, e2⟩
  rw [e1, countWords_cons]
  simp [e2]

/-- A witness of C5: the filter of `TestFilter` looking at a buffer that holds
" on Rails. And". -/
theorem synonyms_punctuation_boundary_witness :
    NewFilter techPolicy runeTrieOps testMappings true testIgnore = .value testFilter ∧
    ∃ sp run rest,
      tokens.wordrun
          { incoming := { pending := [] },
            buffer := { Tokens := [spaceToken, word "on", spaceToken, word "Rails",
              punctToken ".", spaceToken, word "And"] },
            outgoing := {}, filter := testFilter }
        = .value (run,
            { incoming := { pending := [] }, buffer := { Tokens := run ++ rest },
              outgoing := { Tokens := ({} : TokenQueue).Tokens ++ sp }, filter := testFilter }) ∧
      [spaceToken, word "on", spaceToken, word "Rails", punctToken ".", spaceToken, word "And"]
        = sp ++ (run ++ rest) ∧
      (∀ token ∈ run, token.IsPunct = false) ∧
      countWords run ≤ testFilter.maxWords ∧
      (run ≠ [] → 1 ≤ countWords run ∧ ∃ w run1, run = w :: run1 ∧ w.isWord = true) :=
  ⟨by decide,
   (synonyms_punctuation_boundary techPolicy runeTrieOps testMappings true testIgnore testFilter
      (by decide) { pending := [] }
      { Tokens := [spaceToken, word "on", spaceToken, word "Rails", punctToken ".", spaceToken,
          word "And"] } {}).1⟩

/-- The filter on an upstream of one word token: the word is looked up alone,
and replaced when the search finds it. -/
theorem filter_single_word {τ : Type} (P : Policy) (ops : TrieOps τ) (f : Filter τ)
    (hk : 1 ≤ f.maxWords) (tok : Token) (hw : tok.isWord = true)
    (h1 : (ops.SearchCanonical f.trie [tok]).1 = true → (ops.SearchCanonical f.trie [tok]).2.2 = 1) :
    tokens.ToSlice P ops 2 2 (f.Filter { pending := [tok], fail := none })
      = .value
        (if (ops.SearchCanonical f.trie [tok]).1 = true then
          (if (ops.SearchCanonical f.trie [tok]).2.1 ≠ "" then
            [NewToken P (ops.SearchCanonical f.trie [tok]).2.1 true] else [])
         else [tok]) := by
  have hs : tok.IsSpace = false := by
    simp [Token.isWord] at hw; exact hw.1
  have hp : tok.IsPunct = false := by
    simp [Token.isWord] at hw; exact hw.2
  have hk0 : 0 < f.maxWords := hk
  have hfill : fillLoop f.maxWords none [tok] 0 { Tokens := [] }
      = .value ({ pending := [], fail := none }, { Tokens := [tok] }) := by
    simp [fillLoop, hk0, hp, hs, TokenQueue.Push]
  have hfill2 : ∀ B : TokenQueue, ∀ w, fillLoop f.maxWords none [] w B
      = .value ({ pending := [], fail := none }, B) := by
    intro B w; simp [fillLoop]
  have hrun : runEnd f.maxWords [tok] 0 0 0 = 1 := by
    simp [runEnd, hp, hs]
  rcases hsr : ops.SearchCanonical f.trie [tok] with ⟨found, canonical, consumed⟩
  rw [hsr] at h1
  simp only at h1
  have e1 : (ops.SearchCanonical f.trie [tok]).1 = found := by rw [hsr]
  have e2 : (ops.SearchCanonical f.trie [tok]).2.1 = canonical := by rw [hsr]
  have e3 : (ops.SearchCanonical f.trie [tok]).2.2 = consumed := by rw [hsr]
  simp only [TrieOps.SearchCanonical] at e1 e2 e3
  cases found with
  | false =>
    simp [tokens.ToSlice, tokens.next, Filter.Filter, TokenQueue.Any, tokens.loop, tokens.fill,
      hfill, hfill2, tokens.wordrun, leadingSpaces, hs, hp, TokenQueue.Drop, hrun, e1,
      TokenQueue.PopTo, TokenQueue.Pop, TokenQueue.Push, TokenQueue.FlushTo, runEnd]
  | true =>
    have hc : consumed = 1 := h1 rfl
    subst hc
    by_cases hcan : canonical = ""
    · simp [tokens.ToSlice, tokens.next, Filter.Filter, TokenQueue.Any, tokens.loop, tokens.fill,
        hfill, hfill2, tokens.wordrun, leadingSpaces, hs, hp, TokenQueue.Drop, hrun, e1, e2, e3,
        TokenQueue.PopTo, TokenQueue.Pop, TokenQueue.Push, TokenQueue.FlushTo, runEnd, hcan]
    · simp [tokens.ToSlice, tokens.next, Filter.Filter, TokenQueue.Any, tokens.loop, tokens.fill,
        hfill, hfill2, tokens.wordrun, leadingSpaces, hs, hp, TokenQueue.Drop, hrun, e1, e2, e3,
        TokenQueue.PopTo, TokenQueue.Pop, TokenQueue.Push, TokenQueue.FlushTo, runEnd, hcan]

theorem RuneTrie.search_single (t : RuneTrie) (tok : Token) :
    runeTrieOps.SearchCanonical t [tok] =
      (if (t.normalize tok.String.data).length > 0 then
        match t.terminal (t.normalize tok.String.data) with
        | some canonical => (true, canonical, 1)
        | none => (false, "", 0)
       else (false, "", 0)) := by
  simp [runeTrieOps, RuneTrie.SearchCanonical, RuneTrie.walk]

/-- C6 (ignore-set equivalence), an input on which it fails.  With the entry
"nodeJS, iojs" -> "node.js", case ignored and the ignore set of the tests,
"node js" differs from "nodejs" only by an ignored code point, yet "nodejs"
becomes "node.js" and "node js" comes out unchanged: the entry has one word, so
the filter looks at one word at a time. -/
theorem synonyms_ignore_set_counterexample :
    (RuneTrie.New true testIgnore).normalize "node js".data
      = (RuneTrie.New true testIgnore).normalize "nodejs".data ∧
    (filterString techPolicy runeTrieOps nodeMappings true testIgnore "nodejs").map Join
      = .value "node.js" ∧
    (filterString techPolicy runeTrieOps nodeMappings true testIgnore "node js").map Join
      = .value "node js" := by
  decide

theorem RuneTrie.walkBy_bounds (fold : Char → Char) (t : RuneTrie) (toks : List Token) :
    ∀ (i : Nat) (k : List Char) (best : Bool × String × Nat),
      (best.1 = true → 1 ≤ best.2.2 ∧ best.2.2 ≤ i) →
      (RuneTrie.walkBy fold t toks i k best).1 = true →
      1 ≤ (RuneTrie.walkBy fold t toks i k best).2.2 ∧
        (RuneTrie.walkBy fold t toks i k best).2.2 ≤ i + toks.length := by
  induction toks with
  | nil => intro i k best hb h; simpa [RuneTrie.walkBy] using hb h
  | cons a toks ih =>
    intro i k best hb h
    unfold RuneTrie.walkBy at h ⊢
    simp only at h ⊢
    have := ih (i + 1) _ _ ?_ h
    · simp only [List.length_cons]
      omega
    · split
      · split
        · intro _; simp
        · intro hbest; have := hb hbest; omega
      · intro hbest; have := hb hbest; omega

theorem RuneTrie.wellBehavedBy (fold : Char → Char) (t : RuneTrie) :
    WellBehaved ((runeTrieOpsBy fold).SearchCanonical t) := by
  intro run h
  have := RuneTrie.walkBy_bounds fold t run 0 [] (false, "", 0) (by simp) h
  simpa using this

theorem RuneTrie.search_singleBy (fold : Char → Char) (t : RuneTrie) (tok : Token) :
    (runeTrieOpsBy fold).SearchCanonical t [tok] =
      (if (t.normalizeBy fold tok.String.data).length > 0 then
        match t.terminal (t.normalizeBy fold tok.String.data) with
        | some canonical => (true, canonical, 1)
        | none => (false, "", 0)
       else (false, "", 0)) := by
  simp [runeTrieOpsBy, RuneTrie.SearchCanonicalBy, RuneTrie.walkBy]

/-- The modelled trie with the folding of the ASCII letters is `runeTrieOps`. -/
theorem runeTrieOpsBy_toLower : runeTrieOpsBy Char.toLower = runeTrieOps := by
  have hn : ∀ (t : RuneTrie) (s : List Char),
      t.normalizeBy Char.toLower s = t.normalize s := fun _ _ => rfl
  have hw : ∀ (t : RuneTrie) (toks : List Token) (i : Nat) (k : List Char)
      (best : Bool × String × Nat),
      RuneTrie.walkBy Char.toLower t toks i k best = RuneTrie.walk t toks i k best := by
    intro t toks
    induction toks with
    | nil => intro i k best; rfl
    | cons a toks ih =>
      intro i k best
      unfold RuneTrie.walkBy RuneTrie.walk
      simp only [hn]
      exact ih _ _ _
  unfold runeTrieOpsBy runeTrieOps
  congr 1
  funext t toks
  exact hw t toks 0 [] (false, "", 0)

/-- C6 (ignore-set equivalence), amended.  Whatever the case folding of the
trie: two upstreams of one word token each, whose values have the same code
points once case is folded (when the trie ignores case) and the ignored code
points are left out, canonicalize alike: either both come out unchanged or both
give the same output.  The search only ever sees a run `wordrun` returns, which
holds no punctuation token and at most `maxWords` words.  With the entry
"nodeJS, iojs" -> "node.js", case ignored and the ignore set of the tests, the
texts "nodeJS", "node.js", "NODE.JS" and "iojs" all become "node.js". -/
theorem synonyms_single_token_equivalence (P : Policy) (fold : Char → Char) (trie : RuneTrie)
    (maxWords : Nat) (hk : 1 ≤ maxWords) (tok1 tok2 : Token) (hw1 : tok1.isWord = true)
    (hw2 : tok2.isWord = true)
    (hn : trie.normalizeBy fold tok1.String.data = trie.normalizeBy fold tok2.String.data) :
    ((tokens.ToSlice P (runeTrieOpsBy fold) 2 2
          (Filter.Filter { trie := trie, maxWords := maxWords } { pending := [tok1], fail := none })
        = .value [tok1] ∧
      tokens.ToSlice P (runeTrieOpsBy fold) 2 2
          (Filter.Filter { trie := trie, maxWords := maxWords } { pending := [tok2], fail := none })
        = .value [tok2]) ∨
     ∃ out,
      tokens.ToSlice P (runeTrieOpsBy fold) 2 2
          (Filter.Filter { trie := trie, maxWords := maxWords } { pending := [tok1], fail := none })
        = .value out ∧
      tokens.ToSlice P (runeTrieOpsBy fold) 2 2
          (Filter.Filter { trie := trie, maxWords := maxWords } { pending := [tok2], fail := none })
        = .value out) ∧
    (∀ (t t2 : tokens RuneTrie) (run : List Token), 1 ≤ t.filter.maxWords →
      t.wordrun = .value (run, t2) →
      (∀ token ∈ run, token.IsPunct = false) ∧ countWords run ≤ t.filter.maxWords) ∧
    (filterString techPolicy runeTrieOps nodeMappings true testIgnore "nodeJS").map Join
      = .value "node.js" ∧
    (filterString techPolicy runeTrieOps nodeMappings true testIgnore "node.js").map Join
      = .value "node.js" ∧
    (filterString techPolicy runeTrieOps nodeMappings true testIgnore "NODE.JS").map Join
      = .value "node.js" ∧
    (filterString techPolicy runeTrieOps nodeMappings true testIgnore "iojs").map Join
      = .value "node.js" := by
  refine ⟨?_, ?_, by decide, by decide, by decide, by decide⟩
  · have hone : ∀ tok : Token,
        ((runeTrieOpsBy fold).SearchCanonical trie [tok]).1 = true →
        ((runeTrieOpsBy fold).SearchCanonical trie [tok]).2.2 = 1 := by
      intro tok h
      have := RuneTrie.wellBehavedBy fold trie [tok] h
      simp at this
      omega
    have hsame : (runeTrieOpsBy fold).SearchCanonical trie [tok1]
        = (runeTrieOpsBy fold).SearchCanonical trie [tok2] := by
      rw [RuneTrie.search_singleBy, RuneTrie.search_singleBy, hn]
    have e1 := filter_single_word P (runeTrieOpsBy fold) { trie := trie, maxWords := maxWords }
      hk tok1 hw1 (hone tok1)
    have e2 := filter_single_word P (runeTrieOpsBy fold) { trie := trie, maxWords := maxWords }
      hk tok2 hw2 (hone tok2)
    simp only at e1 e2
    rw [hsame] at e1
    by_cases hf : ((runeTrieOpsBy fold).SearchCanonical trie [tok2]).1 = true
    · right
      rw [if_pos hf] at e1 e2
      exact ⟨_, e1, e2⟩
    · left
      rw [if_neg hf] at e1 e2
      exact ⟨e1, e2⟩
  · intro t t2 run hk1 hrun
    obtain ⟨sp, run', rest, h1, _, _, h4, h5, _⟩ := wordrun_run t
    rw [hrun] at h1
    simp only [Run.value.injEq, Prod.mk.injEq] at h1
    rw [h1.1]
    exact ⟨h4, h5 hk1⟩

/-- A witness of C6 as amended: with a case folding that folds "É", the tokens
"ÉTÉ" and "été" before the filter of the entry "été" -> "summer" both give
"summer". -/
theorem synonyms_single_token_equivalence_witness :
    (word "ÉTÉ").isWord = true ∧ (word "été").isWord = true ∧
    RuneTrie.normalizeBy latin1Lower
        (RuneTrie.AddBy latin1Lower (RuneTrie.New true testIgnore) [word "été"] "summer")
        (word "ÉTÉ").String.data
      = RuneTrie.normalizeBy latin1Lower
        (RuneTrie.AddBy latin1Lower (RuneTrie.New true testIgnore) [word "été"] "summer")
        (word "été").String.data ∧
    tokens.ToSlice techPolicy (runeTrieOpsBy latin1Lower) 2 2
        (Filter.Filter
          { trie := RuneTrie.AddBy latin1Lower (RuneTrie.New true testIgnore) [word "été"]
              "summer",
            maxWords := 1 }
          { pending := [word "ÉTÉ"], fail := none })
      = .value [NewToken techPolicy "summer" true] ∧
    ∃ out,
      tokens.ToSlice techPolicy (runeTrieOpsBy latin1Lower) 2 2
          (Filter.Filter
            { trie := RuneTrie.AddBy latin1Lower (RuneTrie.New true testIgnore) [word "été"]
                "summer",
              maxWords := 1 }
            { pending := [word "ÉTÉ"], fail := none })
        = .value out ∧
      tokens.ToSlice techPolicy (runeTrieOpsBy latin1Lower) 2 2
          (Filter.Filter
            { trie := RuneTrie.AddBy latin1Lower (RuneTrie.New true testIgnore) [word "été"]
                "summer",
              maxWords := 1 }
            { pending := [word "été"], fail := none })
        = .value out :=
  ⟨by decide, by decide, by decide, by decide,
   ((synonyms_single_token_equivalence techPolicy latin1Lower
      (RuneTrie.AddBy latin1Lower (RuneTrie.New true testIgnore) [word "été"] "summer") 1
      (by decide) (word "ÉTÉ") (word "été") (by decide) (by decide) (by decide)).1).resolve_left
      (by decide)⟩

/-- C7 (construction failure), an input on which it fails.  `NewFilter` returns
a filter, and no error, for the dictionary whose key "developer, engineer,
programmer," ends in a comma: the empty phrase after the comma is added to the
trie like the others. -/
theorem newFilter_trailing_comma :
    (NewFilter techPolicy runeTrieOps [("developer, engineer, programmer,", "boffin")] true
        testIgnore).map (fun f => (f.maxWords, f.trie.entries.map (fun e => (String.mk e.1, e.2))))
      = .value (1, [("", "boffin"), ("programmer", "boffin"), ("engineer", "boffin"),
          ("developer", "boffin")]) := by
  decide

/-- C7 (construction failure), amended.  `NewFilter` returns a filter and no
error for every dictionary, over any trie and any tables, whatever the phrases
tokenize to; the `maxWords` of the filter is at least 1. -/
theorem newFilter_total {τ : Type} (P : Policy) (ops : TrieOps τ)
    (mappings : List (String × String)) (ignoreCase : Bool) (ignoreRunes : List Char) :
    ∃ f, NewFilter P ops mappings ignoreCase ignoreRunes = .value f ∧ 1 ≤ f.maxWords :=
  NewFilter_spec P ops mappings ignoreCase ignoreRunes

/-- C9 (totality of `LemmatizeTokens`), the end of the text of `TestTSV`.  On
the tokens "java", " ", "script", with trigrams in the dictionary, `wordrun`
asked for three words reads past the end of the slice, and `LemmatizeTokens`
panics instead of returning. -/
theorem lemmatize_tokens_panics :
    wordrun testTSVTail 0 3 = .panicked ∧
    ∀ fuel, testLemmatizer.LemmatizeTokens (fuel + 1) testTSVTail = .panicked := by
  refine ⟨by decide, ?_⟩
  intro fuel
  unfold Lemmatizer.LemmatizeTokens lemmatizeLoop
  have h0 : 0 < testTSVTail.length := by decide
  have hg : testTSVTail.get? 0 = some (word "java") := by decide
  have hc : ((word "java").IsPunct || (word "java").IsSpace) = false := by decide
  have h : gramsLoop testLemmatizer testTSVTail testLemmatizer.maxGramLength.toNat [] 0
      = .panicked := by decide
  simp only [h0, if_true, hg, hc, h, Bool.false_eq_true, if_false]

/-- C10 (`wordrun` of the lemmatizer).  Scanning from index `skip`, over a
stretch `seg` without punctuation: when `seg` holds `take` words and ends in
one, `wordrun` returns those words in order, `ok = true` and `consumed =
len(seg)`, the words and the spaces before and between them; when `seg` holds
fewer than `take` words and a punctuation token follows it, `wordrun` returns
no tokens, `consumed = 0` and `ok = false`. -/
theorem lemmatizer_wordrun_spec (pre seg post : List Token) (take : Nat)
    (hnp : ∀ token ∈ seg, token.IsPunct = false) :
    ((countWords seg = take ∧ ∃ init w, seg = init ++ [w] ∧ w.isWord = true) →
      wordrun (pre ++ seg ++ post) pre.length take
        = .value (seg.filter Token.isWord, seg.length, true)) ∧
    (∀ p : Token, p.IsPunct = true → countWords seg < take →
      wordrun (pre ++ seg ++ p :: post) pre.length take = .value ([], 0, false)) := by
  constructor
  · rintro ⟨h1, h2⟩
    have := wordrunLoop_taken pre post take seg [] [] ((pre ++ seg ++ post).length + 1) hnp
      (by simpa using h1) (Or.inr h2) (by simp; omega)
    simpa [wordrun] using this
  · intro p hp hlt
    have := wordrunLoop_punct pre post take p hp seg [] []
      ((pre ++ seg ++ p :: post).length + 1) hnp (by simpa using hlt) (by simp; omega)
    simpa [wordrun] using this

/-- A witness of C10: `TestWordrun`, from index 5 of `Things and "java
script"`, taking two words and taking three. -/
theorem lemmatizer_wordrun_spec_witness :
    (∀ token ∈ [word "java", spaceToken, word "script"], token.IsPunct = false) ∧
    wordrun testWordrunTokens 5 2 = .value ([word "java", word "script"], 3, true) ∧
    wordrun testWordrunTokens 5 3 = .value ([], 0, false) :=
  ⟨by decide,
   (lemmatizer_wordrun_spec [word "Things", spaceToken, word "and", spaceToken, punctToken "\""]
      [word "java", spaceToken, word "script"] [punctToken "\""] 2 (by decide)).1
      ⟨by decide, [word "java", spaceToken], word "script", rfl, by decide⟩,
   (lemmatizer_wordrun_spec [word "Things", spaceToken, word "and", spaceToken, punctToken "\""]
      [word "java", spaceToken, word "script"] [] 3 (by decide)).2
      (punctToken "\"") (by decide) (by decide)⟩

/-! ## The lookahead buffer -/

theorem hardPuncts_nil : hardPuncts [] = 0 := rfl

theorem hardPuncts_cons (a : Token) (xs : List Token) :
    hardPuncts (a :: xs)
      = hardPuncts xs + (if (a.IsPunct && !a.IsSpace) = true then 1 else 0) := by
  simp [hardPuncts, List.countP_cons]

theorem hardPuncts_append (xs ys : List Token) :
    hardPuncts (xs ++ ys) = hardPuncts xs + hardPuncts ys := by
  simp [hardPuncts, List.countP_append]

theorem wordsBefore_nil : wordsBefore [] = 0 := rfl

theorem wordsBefore_cons (a : Token) (xs : List Token) :
    wordsBefore (a :: xs)
      = if (a.IsPunct && !a.IsSpace) = true then 0
        else wordsBefore xs + (if a.isWord = true then 1 else 0) := by
  unfold wordsBefore
  rw [List.takeWhile_cons]
  by_cases h : (a.IsPunct && !a.IsSpace) = true
  · simp [h, countWords]
  · simp only [h, Bool.not_false, if_true, Bool.false_eq_true, if_false]
    rw [countWords_cons]

theorem nonSpace_eq (B : List Token) : nonSpace B = countWords B + hardPuncts B := by
  induction B with
  | nil => simp [nonSpace, countWords, hardPuncts]
  | cons a B ih =>
    rw [countWords_cons, hardPuncts_cons, ← Nat.add_assoc]
    simp only [nonSpace, List.countP_cons] at ih ⊢
    rw [ih]
    cases hs : a.IsSpace <;> cases hp : a.IsPunct <;> simp [Token.isWord, hs, hp]
    omega

theorem wordsBefore_append (xs ys : List Token) :
    wordsBefore (xs ++ ys)
      = if hardPuncts xs = 0 then countWords xs + wordsBefore ys else wordsBefore xs := by
  induction xs with
  | nil => simp [wordsBefore_nil, hardPuncts_nil, countWords]
  | cons a xs ih =>
    rw [List.cons_append, wordsBefore_cons, wordsBefore_cons, hardPuncts_cons, countWords_cons, ih]
    by_cases h : (a.IsPunct && !a.IsSpace) = true
    · simp [h]
    · simp only [h, Bool.false_eq_true, if_false, Nat.add_zero]
      split <;> omega

theorem countWords_le_of_fillLoop (k : Nat) (fail : Option Err) :
    ∀ (I : List Token) (words : Nat) (B : TokenQueue) (inc : Tokens) (B1 : TokenQueue),
      fillLoop k fail I words B = .value (inc, B1) →
      words = countWords B.Tokens → countWords B.Tokens ≤ k →
      countWords B1.Tokens ≤ k ∧
      ∃ init tail, B1.Tokens = B.Tokens ++ (init ++ tail) ∧ hardPuncts init = 0 ∧
        (tail = [] ∨ ∃ p, tail = [p] ∧ hardPuncts [p] = 1 ∧ countWords (B.Tokens ++ init) < k) := by
  intro I
  induction I with
  | nil =>
    intro words B inc B1 h hw hk
    have hB : B1 = B := by
      unfold fillLoop at h
      split at h
      · split at h
        · simp at h; exact h.2.symm
        · simp at h
      · simp at h; exact h.2.symm
    subst hB
    exact ⟨hk, [], [], by simp, hardPuncts_nil, Or.inl rfl⟩
  | cons a rest ih =>
    intro words B inc B1 h hw hk
    unfold fillLoop at h
    by_cases hlt : words < k
    · rw [if_pos hlt] at h
      simp only at h
      by_cases hp : a.IsPunct = true
      · rw [if_pos hp] at h
        simp only [Run.value.injEq, Prod.mk.injEq] at h
        have hB : B1.Tokens = B.Tokens ++ [a] := by rw [← h.2]; rfl
        have hcw : countWords (B.Tokens ++ [a]) = countWords B.Tokens := by
          rw [countWords_append, countWords_cons]
          simp [countWords, Token.isWord, hp]
        refine ⟨by rw [hB, hcw]; exact hk, ?_⟩
        by_cases hs : a.IsSpace = true
        · exact ⟨[a], [], by simp [hB], by rw [hardPuncts_cons, hardPuncts_nil]; simp [hs],
            Or.inl rfl⟩
        · refine ⟨[], [a], by simp [hB], hardPuncts_nil, Or.inr ⟨a, rfl, ?_, ?_⟩⟩
          · rw [hardPuncts_cons, hardPuncts_nil]; simp [hp, hs]
          · simp; omega
      · rw [if_neg hp] at h
        have hp0 : a.IsPunct = false := by simpa using hp
        by_cases hs : a.IsSpace = true
        · rw [if_pos hs] at h
          have hcw : countWords (B.Push a).Tokens = countWords B.Tokens := by
            simp only [TokenQueue.Push]
            rw [countWords_append, countWords_cons]
            simp [countWords, Token.isWord, hs]
          obtain ⟨h1, init, tail, h2, h3, h4⟩ := ih words (B.Push a) inc B1 h
            (by rw [hcw]; exact hw) (by rw [hcw]; exact hk)
          refine ⟨h1, a :: init, tail, ?_, ?_, ?_⟩
          · simpa [TokenQueue.Push] using h2
          · rw [hardPuncts_cons, h3]; simp [hs]
          · rcases h4 with h4 | ⟨p, e1, e2, e3⟩
            · exact Or.inl h4
            · refine Or.inr ⟨p, e1, e2, ?_⟩
              simpa [TokenQueue.Push] using e3
        · rw [if_neg hs] at h
          have hs0 : a.IsSpace = false := by simpa using hs
          have hcw : countWords (B.Push a).Tokens = countWords B.Tokens + 1 := by
            simp only [TokenQueue.Push]
            rw [countWords_append, countWords_cons]
            simp [countWords, Token.isWord, hs0, hp0]
          obtain ⟨h1, init, tail, h2, h3, h4⟩ := ih (words + 1) (B.Push a) inc B1 h
            (by rw [hcw, hw]) (by rw [hcw]; omega)
          refine ⟨h1, a :: init, tail, ?_, ?_, ?_⟩
          · simpa [TokenQueue.Push] using h2
          · rw [hardPuncts_cons, h3]; simp [hp0]
          · rcases h4 with h4 | ⟨p, e1, e2, e3⟩
            · exact Or.inl h4
            · refine Or.inr ⟨p, e1, e2, ?_⟩
              simpa [TokenQueue.Push] using e3
    · rw [if_neg hlt] at h
      simp only [Run.value.injEq, Prod.mk.injEq] at h
      rw [← h.2]
      exact ⟨hk, [], [], by simp, hardPuncts_nil, Or.inl rfl⟩

theorem countP_words_eq (B : List Token) :
    B.countP (fun token => !token.IsPunct && !token.IsSpace) = countWords B := by
  unfold countWords
  congr 1
  funext token
  exact Bool.and_comm _ _

/-- After `fill` the buffer satisfies `AfterFill` when it satisfied `AtHead`. -/
theorem fill_AfterFill {τ : Type} (t t1 : tokens τ) (h : t.fill = .value t1)
    (hinv : AtHead t.filter.maxWords t.buffer.Tokens) :
    AfterFill t.filter.maxWords t1.buffer.Tokens ∧ t1.filter = t.filter := by
  unfold tokens.fill at h
  simp only at h
  cases hfl : fillLoop t.filter.maxWords t.incoming.fail t.incoming.pending
      (t.buffer.Tokens.countP (fun token => !token.IsPunct && !token.IsSpace)) t.buffer with
  | value r =>
    obtain ⟨inc, B1⟩ := r
    rw [hfl] at h
    simp only [Run.value.injEq] at h
    subst h
    simp only [and_true]
    obtain ⟨h1, init, tail, h2, h3, h4⟩ := countWords_le_of_fillLoop _ _ _ _ _ _ _ hfl
      (countP_words_eq _) hinv.1
    refine ⟨h1, ?_⟩
    have hwp : ∀ p : Token, hardPuncts [p] = 1 → wordsBefore [p] = 0 := by
      intro p hp1
      rw [hardPuncts_cons, hardPuncts_nil] at hp1
      rw [wordsBefore_cons]
      split
      · rfl
      · simp_all
    have hcase := hinv.2
    rw [h2, hardPuncts_append, hardPuncts_append, h3, wordsBefore_append, wordsBefore_append, h3]
    rw [countWords_append] at h4
    rcases h4 with h4 | ⟨p, e1, e2, e3⟩
    · subst h4
      rw [hardPuncts_nil]
      by_cases h0 : hardPuncts t.buffer.Tokens = 0
      · left; omega
      · right
        rw [if_neg h0]
        rcases hcase with h00 | hsum
        · exact absurd h00 h0
        · omega
    · subst e1
      right
      rw [e2, hwp p e2]
      by_cases h0 : hardPuncts t.buffer.Tokens = 0
      · rw [if_pos h0, if_pos rfl, h0]
        omega
      · rw [if_neg h0]
        rcases hcase with h00 | hsum
        · exact absurd h00 h0
        · omega
  | failed e => rw [hfl] at h; simp at h
  | panicked => rw [hfl] at h; simp at h
  | timeout => rw [hfl] at h; simp at h

theorem counts_of_no_hard (d B : List Token)
    (hd : ∀ token ∈ d, (token.IsPunct && !token.IsSpace) = false) :
    hardPuncts (d ++ B) = hardPuncts B ∧ wordsBefore (d ++ B) = countWords d + wordsBefore B ∧
      countWords (d ++ B) = countWords d + countWords B := by
  have h0 : hardPuncts d = 0 := by
    induction d with
    | nil => rfl
    | cons a d ih =>
      rw [hardPuncts_cons, ih (fun token h => hd token (List.mem_cons_of_mem _ h)),
        hd a (by simp)]
      simp
  rw [hardPuncts_append, wordsBefore_append, countWords_append, h0]
  simp

theorem countWords_spaces (sp : List Token) (h : ∀ token ∈ sp, token.IsSpace = true) :
    countWords sp = 0 := by
  induction sp with
  | nil => rfl
  | cons a sp ih =>
    rw [countWords_cons, ih (fun token hm => h token (List.mem_cons_of_mem _ hm))]
    have := h a (by simp)
    simp [Token.isWord, this]

theorem AtHead_of_drop (k : Nat) (d B : List Token) (hd : ∀ token ∈ d, token.IsPunct = false)
    (hw : 1 ≤ countWords d) (h : AfterFill k (d ++ B)) : AtHead k B := by
  obtain ⟨e1, e2, e3⟩ := counts_of_no_hard d B (fun token hm => by simp [hd token hm])
  obtain ⟨h1, h2⟩ := h
  rw [e3] at h1
  rw [e1, e2] at h2
  refine ⟨by omega, ?_⟩
  rcases h2 with h2 | h2
  · exact Or.inl h2
  · exact Or.inr (by omega)

/-- The invariant of the lookahead buffer along one iteration of the loop of
`next`. -/
theorem buffer_invariant {τ : Type} (ops : TrieOps τ) (f : Filter τ)
    (hs : WellBehaved (ops.SearchCanonical f.trie)) :
    AtHead f.maxWords [] ∧
    (∀ (t t1 : tokens τ), t.filter = f → AtHead f.maxWords t.buffer.Tokens →
      t.fill = .value t1 → t1.filter = f ∧ AfterFill f.maxWords t1.buffer.Tokens) ∧
    (∀ (t t2 : tokens τ) (run : List Token), t.filter = f →
      AfterFill f.maxWords t.buffer.Tokens → t.wordrun = .value (run, t2) →
      t2.filter = f ∧ AfterFill f.maxWords t2.buffer.Tokens ∧
      (run ≠ [] →
        (∀ b o, t2.buffer.PopTo t2.outgoing = some (b, o) → AtHead f.maxWords b.Tokens) ∧
        ((ops.SearchCanonical f.trie run).1 = true →
          ∀ b, t2.buffer.Drop (ops.SearchCanonical f.trie run).2.2 = some b →
            AtHead f.maxWords b.Tokens))) ∧
    (∀ B, AtHead f.maxWords B → nonSpace B ≤ 2 * f.maxWords) ∧
    (∀ B, AfterFill f.maxWords B → nonSpace B ≤ 2 * f.maxWords + 1) := by
  refine ⟨⟨by simp [countWords], Or.inl rfl⟩, ?_, ?_, ?_, ?_⟩
  · intro t t1 hf hinv hfill
    subst hf
    have := fill_AfterFill t t1 hfill hinv
    exact ⟨this.2, this.1⟩
  · intro t t2 run hf hinv hrun
    subst hf
    obtain ⟨sp, run0, rest, h1, h2, h3, h4, _, h6, _⟩ := wordrun_run t
    rw [h1] at hrun
    simp only [Run.value.injEq, Prod.mk.injEq] at hrun
    obtain ⟨hr, ht2⟩ := hrun
    subst hr; subst ht2
    simp only [true_and]
    have hsp : ∀ token ∈ sp, (token.IsPunct && !token.IsSpace) = false :=
      fun token hm => by simp [h3 token hm]
    obtain ⟨e1, e2, e3⟩ := counts_of_no_hard sp (run0 ++ rest) hsp
    have hcsp := countWords_spaces sp h3
    have hAF : AfterFill t.filter.maxWords (run0 ++ rest) := by
      obtain ⟨i1, i2⟩ := hinv
      rw [h2, e3, hcsp] at i1
      rw [h2, e1, e2, hcsp] at i2
      exact ⟨by omega, by simpa using i2⟩
    refine ⟨hAF, ?_⟩
    intro hne
    obtain ⟨w, run1, hw1, hw2⟩ := h6 hne
    subst hw1
    constructor
    · intro b o hpop
      simp only [TokenQueue.PopTo, TokenQueue.Pop, List.cons_append, Option.some.injEq,
        Prod.mk.injEq] at hpop
      rw [← hpop.1]
      apply AtHead_of_drop t.filter.maxWords [w] (run1 ++ rest)
      · intro token hm
        simp only [List.mem_singleton] at hm
        rw [hm]
        exact h4 w (by simp)
      · rw [countWords_cons]; simp [hw2]
      · simpa using hAF
    · intro hfound b hdrop
      obtain ⟨c1, c2⟩ := hs (w :: run1) hfound
      simp only [TokenQueue.Drop] at hdrop
      split at hdrop
      · simp only [Option.some.injEq] at hdrop
        rw [← hdrop]
        simp only
        generalize (ops.SearchCanonical t.filter.trie (w :: run1)).2.2 = n at c1 c2
        apply AtHead_of_drop t.filter.maxWords ((w :: run1 ++ rest).take n)
        · intro token hm
          have hm2 : token ∈ (w :: run1) := by
            have hth : (w :: run1 ++ rest).take n = (w :: run1).take n := by
              rw [List.take_append_of_le_length c2]
            rw [hth] at hm
            exact List.mem_of_mem_take hm
          exact h4 token hm2
        · cases n with
          | zero => omega
          | succ m =>
            simp only [List.cons_append, List.take_succ_cons]
            rw [countWords_cons]
            simp [hw2]
        · rw [List.take_append_drop]
          exact hAF
      · simp at hdrop
  · intro B h
    rw [nonSpace_eq]
    obtain ⟨h1, h2⟩ := h
    rcases h2 with h2 | h2 <;> omega
  · intro B h
    rw [nonSpace_eq]
    obtain ⟨h1, h2⟩ := h
    rcases h2 with h2 | h2 <;> omega

theorem fillLoop_spaces (k : Nat) (hk : 0 < k) (n : Nat) :
    ∀ B : TokenQueue, fillLoop k none (List.replicate n spaceToken) 0 B
      = .value ({ pending := [], fail := none },
          { Tokens := B.Tokens ++ List.replicate n spaceToken }) := by
  induction n with
  | zero => intro B; simp [fillLoop]
  | succ m ih =>
    intro B
    rw [List.replicate_succ]
    unfold fillLoop
    simp only [hk, if_true, spaceToken, Token.IsPunct, Token.IsSpace, Bool.false_eq_true, if_false]
    have := ih (B.Push spaceToken)
    simp only [spaceToken, TokenQueue.Push, List.append_assoc, List.singleton_append] at this
    simpa [TokenQueue.Push] using this

/-- A witness of C2: "ruby on rails" before the filter of `TestFilter`, which
replaces the five tokens by one. -/
theorem synonyms_token_conservation_witness :
    1 ≤ testFilter.maxWords ∧ WellBehaved (runeTrieOps.SearchCanonical testFilter.trie) ∧
    tokens.ToSlice techPolicy runeTrieOps (rubyTokens.length + 1) (rubyTokens.length + 1)
        (testFilter.Filter { pending := rubyTokens, fail := none })
      = .value [NewToken techPolicy "ruby-on-rails" true] ∧
    ∃ out, tokens.ToSlice techPolicy runeTrieOps (rubyTokens.length + 1) (rubyTokens.length + 1)
        (testFilter.Filter { pending := rubyTokens, fail := none }) = .value out ∧
      Segmented (runeTrieOps.SearchCanonical testFilter.trie)
        (fun c => NewToken techPolicy c true) rubyTokens out :=
  ⟨by decide, RuneTrie.wellBehaved testFilter.trie, by decide,
   (synonyms_token_conservation techPolicy runeTrieOps testFilter (by decide)
      (RuneTrie.wellBehaved testFilter.trie) rubyTokens).1⟩

/-- A witness of C3: the text of `TestPassthrough` and the modelled trie. -/
theorem synonyms_passthrough_witness :
    (∀ run, (runeTrieOps.SearchCanonical (runeTrieOps.New false []) run).1 = false) ∧
    filterString techPolicy runeTrieOps [] false []
        "This is a test, with spaces and punctuation."
      = TokenizeString techPolicy "This is a test, with spaces and punctuation." :=
  ⟨RuneTrie.New_not_found false [],
   synonyms_passthrough techPolicy runeTrieOps false [] (RuneTrie.New_not_found false [])
     "This is a test, with spaces and punctuation."⟩

/-- C8 (bounded lookahead), refuted.  No bound that depends on `maxWords` alone
limits the length of the buffer: on an upstream of `n` space tokens `fill`
leaves all `n` of them in the buffer. -/
theorem synonyms_buffer_unbounded :
    ¬ ∃ bound : Nat → Nat, ∀ (k n : Nat) (t1 : tokens RuneTrie), 1 ≤ k →
      tokens.fill (Filter.Filter { trie := RuneTrie.New true testIgnore, maxWords := k }
          { pending := List.replicate n spaceToken, fail := none }) = .value t1 →
      t1.buffer.Tokens.length ≤ bound k := by
  rintro ⟨bound, h⟩
  have h1 := h 1 (bound 1 + 1)
    { incoming := { pending := [], fail := none },
      buffer := { Tokens := List.replicate (bound 1 + 1) spaceToken },
      outgoing := {}, filter := { trie := RuneTrie.New true testIgnore, maxWords := 1 } }
    (le_refl 1)
    (by simp [tokens.fill, Filter.Filter, fillLoop_spaces 1 Nat.one_pos])
  simp at h1

/-- C8 (bounded lookahead), amended.  For a trie whose matches report `1 ≤
consumed ≤ len(run)`, the buffer satisfies `AtHead` when it is empty and each
time the loop of `next` starts an iteration, and `AfterFill` from `fill` on:
`fill` leads from the first to the second, `wordrun` keeps the second, and
`PopTo` and `Drop(consumed)` lead back to the first.  Hence the tokens of the
buffer that are not space tokens never number more than `2 * maxWords + 1`. -/
theorem synonyms_buffer_bound {τ : Type} (ops : TrieOps τ) (f : Filter τ)
    (hs : WellBehaved (ops.SearchCanonical f.trie)) :
    AtHead f.maxWords [] ∧
    (∀ (t t1 : tokens τ), t.filter = f → AtHead f.maxWords t.buffer.Tokens →
      t.fill = .value t1 → t1.filter = f ∧ AfterFill f.maxWords t1.buffer.Tokens) ∧
    (∀ (t t2 : tokens τ) (run : List Token), t.filter = f →
      AfterFill f.maxWords t.buffer.Tokens → t.wordrun = .value (run, t2) →
      t2.filter = f ∧ AfterFill f.maxWords t2.buffer.Tokens ∧
      (run ≠ [] →
        (∀ b o, t2.buffer.PopTo t2.outgoing = some (b, o) → AtHead f.maxWords b.Tokens) ∧
        ((ops.SearchCanonical f.trie run).1 = true →
          ∀ b, t2.buffer.Drop (ops.SearchCanonical f.trie run).2.2 = some b →
            AtHead f.maxWords b.Tokens))) ∧
    (∀ B, AtHead f.maxWords B → nonSpace B ≤ 2 * f.maxWords) ∧
    (∀ B, AfterFill f.maxWords B → nonSpace B ≤ 2 * f.maxWords + 1) :=
  buffer_invariant ops f hs

/-- A witness of C8 as amended: the first `fill` of the filter of `TestFilter`
on "a, b" stops at the comma. -/
theorem synonyms_buffer_bound_witness :
    WellBehaved (runeTrieOps.SearchCanonical testFilter.trie) ∧
    tokens.fill commaStream
      = .value { commaStream with
          incoming := { pending := [spaceToken, word "b"], fail := none },
          buffer := { Tokens := [word "a", punctToken ","] } } ∧
    AfterFill testFilter.maxWords [word "a", punctToken ","] ∧
    nonSpace [word "a", punctToken ","] ≤ 2 * testFilter.maxWords + 1 :=
  ⟨RuneTrie.wellBehaved testFilter.trie, by decide,
   ((synonyms_buffer_bound runeTrieOps testFilter (RuneTrie.wellBehaved testFilter.trie)).2.1
      commaStream
      { commaStream with
        incoming := { pending := [spaceToken, word "b"], fail := none },
        buffer := { Tokens := [word "a", punctToken ","] } }
      rfl (synonyms_buffer_bound runeTrieOps testFilter
        (RuneTrie.wellBehaved testFilter.trie)).1 (by decide)).2,
   (synonyms_buffer_bound runeTrieOps testFilter
      (RuneTrie.wellBehaved testFilter.trie)).2.2.2.2 _
     (((synonyms_buffer_bound runeTrieOps testFilter
        (RuneTrie.wellBehaved testFilter.trie)).2.1
      commaStream
      { commaStream with
        incoming := { pending := [spaceToken, word "b"], fail := none },
        buffer := { Tokens := [word "a", punctToken ","] } }
      rfl (synonyms_buffer_bound runeTrieOps testFilter
        (RuneTrie.wellBehaved testFilter.trie)).1 (by decide)).2)⟩

/-! ## Tokenizer: the shape of the tokens -/

theorem token_single (P : Policy) (r : Char) : token P [r] = newTokenFromRune P r := by
  unfold token common
  simp only
  split <;> rename_i h
  · split at h
    · simp only [Option.some.injEq] at h; exact h.symm
    · simp at h
  · rfl

theorem token_long (P : Policy) (b : List Char) (h : 2 ≤ b.length) :
    token P b = { value := String.mk b } := by
  unfold token
  split
  · simp at h
  · rfl

/-- The code points `readWord` accepts into the word: a whitespace code point
gets in only through the mid-word table. -/
theorem readWord_shape (P : Policy) (inc out : List Char) :
    ∃ acc o inc', readWord P none inc out
        = .value (some (token P (out ++ acc)), { incoming := inc', fail := none, outgoing := o }) ∧
      out ++ acc ++ o ++ inc' = out ++ inc ∧ o.length ≤ 1 ∧
      (∀ c ∈ acc, P.isSpace c = true → P.midPunct c = true) := by
  induction inc generalizing out with
  | nil => exact ⟨[], [], [], by simp [readWord], by simp, by simp, by simp⟩
  | cons r rest ih =>
    unfold readWord
    by_cases hm : P.midPunct r = true
    · simp only [hm, if_true]
      cases rest with
      | nil =>
        simp only [peekTerminator, if_true]
        exact ⟨[], [r], [], by simp, by simp, by simp, by simp⟩
      | cons r2 rest2 =>
        simp only [peekTerminator]
        by_cases ht : (P.isPunct r2 || P.isSpace r2) = true
        · simp only [ht, if_true]
          exact ⟨[], [r], r2 :: rest2, by simp, by simp, by simp, by simp⟩
        · simp only [ht]
          obtain ⟨acc, o, inc', h1, h2, h3, h4⟩ := ih (out ++ [r])
          refine ⟨r :: acc, o, inc', by simpa using h1, by simpa using h2, h3, ?_⟩
          intro c hc
          rcases List.mem_cons.mp hc with h | h
          · intro _; rw [h]; exact hm
          · exact h4 c h
    · simp only [hm]
      by_cases ht : (P.isPunct r || P.isSpace r) = true
      · simp only [ht, if_true]
        exact ⟨[], [r], rest, by simp, by simp, by simp, by simp⟩
      · simp only [ht]
        obtain ⟨acc, o, inc', h1, h2, h3, h4⟩ := ih (out ++ [r])
        refine ⟨r :: acc, o, inc', by simpa using h1, by simpa using h2, h3, ?_⟩
        intro c hc
        rcases List.mem_cons.mp hc with h | h
        · intro hsp
          rw [h] at hsp
          simp [hsp] at ht
        · exact h4 c h

/-- One pull on an error-free reader, with at most one code point kept from the
pull before: the text is used up, or a token of the shape `TokenShape` comes
out and at most one code point is kept again. -/
theorem tokenizer_next_shape (P : Policy) (t : tokenizer) (hf : t.fail = none)
    (ho : t.outgoing.length ≤ 1) :
    (t.next P = .value (none, t) ∧ t.outgoing = [] ∧ t.incoming = []) ∨
    ∃ tok t' w, t.next P = .value (some tok, t') ∧ t'.fail = none ∧ t'.outgoing.length ≤ 1 ∧
      TokenShape P tok w ∧ w ++ (t'.outgoing ++ t'.incoming) = t.outgoing ++ t.incoming := by
  obtain ⟨inc, fl, out⟩ := t
  simp only at hf ho
  subst hf
  unfold tokenizer.next
  cases out with
  | cons p out1 =>
    have hout1 : out1 = [] := by
      cases out1 with
      | nil => rfl
      | cons a b => simp at ho
    subst hout1
    right
    simp only [List.length_singleton, gt_iff_lt, Nat.lt_one_iff, Nat.one_pos, if_true]
    exact ⟨_, _, [p], rfl, rfl, by simp, ⟨by simp, rfl, by simp⟩, by simp⟩
  | nil =>
    simp only [List.length_nil, gt_iff_lt, lt_self_iff_false, if_false, List.nil_append]
    cases inc with
    | nil => left; simp
    | cons r rest =>
      right
      simp only
      have hone : ∃ tok t' w, (Run.value (some (token P [r]),
            ({ incoming := rest, fail := none, outgoing := [] } : tokenizer))
            : Run (Option Token × tokenizer)) = .value (some tok, t') ∧
          t'.fail = none ∧ t'.outgoing.length ≤ 1 ∧ TokenShape P tok w ∧
          w ++ (t'.outgoing ++ t'.incoming) = r :: rest :=
        ⟨_, _, [r], rfl, rfl, by simp, ⟨by simp, rfl, by simp⟩, by simp⟩
      by_cases hs : P.isSpace r = true
      · simp only [hs, if_true]
        exact hone
      · simp only [hs]
        have hrw : ∃ tok t' w, readWord P none rest [r] = .value (some tok, t') ∧
            t'.fail = none ∧ t'.outgoing.length ≤ 1 ∧ TokenShape P tok w ∧
            w ++ (t'.outgoing ++ t'.incoming) = r :: rest := by
          obtain ⟨acc, o, inc', h1, h2, h3, h4⟩ := readWord_shape P rest [r]
          refine ⟨_, _, [r] ++ acc, h1, rfl, h3, ⟨by simp, rfl, ?_⟩, by simpa using h2⟩
          intro _ c hc hsp
          rcases List.mem_append.mp hc with h | h
          · simp only [List.mem_singleton] at h
            rw [h] at hsp
            exact absurd hsp hs
          · exact h4 c h hsp
        by_cases hp : P.isPunct r = true
        · simp only [hp, if_true]
          by_cases hl : P.leadingPunct r = true
          · simp only [hl, if_true]
            cases hpk : peekTerminator P none rest with
            | value term =>
              simp only
              cases term with
              | true => simpa using hone
              | false => simpa using hrw
            | failed e => cases rest <;> simp [peekTerminator] at hpk
            | panicked => cases rest <;> simp [peekTerminator] at hpk
            | timeout => cases rest <;> simp [peekTerminator] at hpk
          · simp only [hl]
            exact hone
        · simp only [hp]
          simpa using hrw

/-- Pulling an error-free reader to its end: the tokens have the shape
`TokenShape`, their values are the text in order, and there are no more of them
than code points. -/
theorem tokenizer_ToSlice_shape (P : Policy) (fuel : Nat) (t : tokenizer) (hf : t.fail = none)
    (ho : t.outgoing.length ≤ 1) (hfuel : t.outgoing.length + t.incoming.length < fuel) :
    ∃ toks, tokenizer.ToSlice P fuel t = .value toks ∧
      (Join toks).data = t.outgoing ++ t.incoming ∧
      toks.length ≤ t.outgoing.length + t.incoming.length ∧
      ∀ tok ∈ toks, ∃ w, TokenShape P tok w := by
  induction fuel generalizing t with
  | zero => omega
  | succ n ih =>
    unfold tokenizer.ToSlice
    rcases tokenizer_next_shape P t hf ho with ⟨h1, h2, h3⟩ | ⟨tok, t', w, h1, h2, h3, h4, h5⟩
    · exact ⟨[], by simp [h1], by simp [h2, h3, Join_nil], by simp, by simp⟩
    · have hw : 1 ≤ w.length := by
        cases w with
        | nil => exact absurd rfl h4.1
        | cons a b => simp
      have hlen := congrArg List.length h5
      simp only [List.length_append] at hlen
      obtain ⟨toks, e1, e2, e3, e4⟩ := ih t' h2 h3 (by omega)
      refine ⟨tok :: toks, by simp [h1, e1], ?_, by simp; omega, ?_⟩
      · rw [Join_cons, String.data_append, e2, h4.2.1, token_value, h5]
      · intro tk htk
        rcases List.mem_cons.mp htk with h | h
        · rw [h]; exact ⟨w, h4⟩
        · exact e4 tk h

theorem techPolicy_disjoint (r : Char) (h : techPolicy.isSpace r = true) :
    techPolicy.isPunct r = false := by
  simp only [techPolicy, unicodeIsSpace, Bool.or_eq_true, Bool.and_eq_true, decide_eq_true_eq,
    List.mem_cons, List.mem_singleton, List.not_mem_nil, or_false] at h
  simp only [techPolicy, Bool.or_eq_false_iff, Bool.and_eq_false_iff, decide_eq_false_iff_not]
  generalize r.toNat = n at h
  omega

theorem techPolicy_midPunct_isPunct (r : Char) (h : techPolicy.midPunct r = true) :
    techPolicy.isPunct r = true ∧ techPolicy.isSpace r = false := by
  simp only [techPolicy, decide_eq_true_eq, List.mem_cons, List.mem_singleton, List.not_mem_nil,
    or_false] at h
  simp only [techPolicy, unicodeIsSpace, Bool.or_eq_true, Bool.and_eq_true, decide_eq_true_eq,
    Bool.or_eq_false_iff, Bool.and_eq_false_iff, decide_eq_false_iff_not, List.mem_cons,
    List.mem_singleton, List.not_mem_nil, or_false]
  generalize r.toNat = n at h
  omega

theorem newTokenFromRune_data (P : Policy) (r : Char) :
    (newTokenFromRune P r).value.data = [r] := rfl

/-- C13 (exhaustive, exclusive classification), tables on which it fails.  With
tables in which the tab is punctuation as well as whitespace, the token of the
tab in "a\tb" has both its space flag and its punct flag set. -/
theorem tokenizer_tab_both_flags :
    TokenizeString tabPunctPolicy "a\tb"
      = .value [word "a", { value := "\t", punct := true, space := true }, word "b"] ∧
    ∃ toks, TokenizeString tabPunctPolicy "a\tb" = .value toks ∧
      ∃ tok ∈ toks, tok.IsSpace = true ∧ tok.IsPunct = true :=
  ⟨by decide, [word "a", { value := "\t", punct := true, space := true }, word "b"],
    by decide, { value := "\t", punct := true, space := true }, by decide, rfl, rfl⟩

/-- C13 (exhaustive, exclusive classification), amended.  Every token the
tokenizer emits is the token of one code point, whose space flag and punct flag
are what `unicode.IsSpace` and `isPunct` say of that code point, each on its
own, or a word with neither flag.  A token has both flags exactly when its code
point is whitespace and punctuation in the tables; with tables in which no
whitespace code point is punctuation, every token is exactly one of Space,
Punct and Word. -/
theorem tokenizer_classification (P : Policy) (s : String) :
    ∃ toks, TokenizeString P s = .value toks ∧ ∀ tok ∈ toks,
      ((∃ r, tok = newTokenFromRune P r ∧ tok.IsSpace = P.isSpace r ∧
          tok.IsPunct = P.isPunct r) ∨
        (tok.isWord = true ∧ tok.IsSpace = false ∧ tok.IsPunct = false)) ∧
      ((tok.IsSpace = true ∧ tok.IsPunct = true) ↔
        ∃ r, tok = newTokenFromRune P r ∧ P.isSpace r = true ∧ P.isPunct r = true) ∧
      ((∀ r, P.isSpace r = true → P.isPunct r = false) →
        (tok.IsSpace = true ∧ tok.IsPunct = false ∧ tok.isWord = false) ∨
        (tok.IsSpace = false ∧ tok.IsPunct = true ∧ tok.isWord = false) ∨
        (tok.IsSpace = false ∧ tok.IsPunct = false ∧ tok.isWord = true)) := by
  obtain ⟨toks, h1, _, _, h4⟩ := tokenizer_ToSlice_shape P (s.data.length + 1)
    (newTokenizer s.data none) rfl (by simp [newTokenizer]) (by simp [newTokenizer])
  refine ⟨toks, h1, ?_⟩
  intro tok htok
  obtain ⟨w, hw, htk, _⟩ := h4 tok htok
  have hcases : (∃ r, w = [r]) ∨ 2 ≤ w.length := by
    cases w with
    | nil => exact absurd rfl hw
    | cons a b =>
      cases b with
      | nil => exact Or.inl ⟨a, rfl⟩
      | cons c d => right; simp
  rcases hcases with ⟨r, hr⟩ | h2
  · subst hr
    rw [token_single] at htk
    subst htk
    refine ⟨Or.inl ⟨r, rfl, rfl, rfl⟩, ?_, ?_⟩
    · constructor
      · intro h
        exact ⟨r, rfl, h.1, h.2⟩
      · rintro ⟨r', hr', hs, hp⟩
        rw [hr']
        exact ⟨hs, hp⟩
    · intro hdisj
      simp only [newTokenFromRune, Token.IsSpace, Token.IsPunct, Token.isWord]
      cases hs : P.isSpace r
      · cases hp : P.isPunct r <;> simp
      · simp [hdisj r hs]
  · rw [token_long P w h2] at htk
    subst htk
    refine ⟨Or.inr ⟨rfl, rfl, rfl⟩, ?_, ?_⟩
    · constructor
      · intro h
        simp [Token.IsSpace] at h
      · rintro ⟨r', hr', hs, _⟩
        have h3 := congrArg Token.IsSpace hr'
        simp only [Token.IsSpace, newTokenFromRune] at h3
        rw [hs] at h3
        exact absurd h3 (by simp)
    · intro _
      right; right
      exact ⟨rfl, rfl, rfl⟩

/-- A witness of C13 as amended: with the modelled tables, in which no
whitespace code point is punctuation, every token of a text with a tab and a
line end is exactly one of the three. -/
theorem tokenizer_classification_witness :
    (∀ r, techPolicy.isSpace r = true → techPolicy.isPunct r = false) ∧
    ∃ toks, TokenizeString techPolicy "a\tb.\r\n" = .value toks ∧ ∀ tok ∈ toks,
      (tok.IsSpace = true ∧ tok.IsPunct = false ∧ tok.isWord = false) ∨
      (tok.IsSpace = false ∧ tok.IsPunct = true ∧ tok.isWord = false) ∨
      (tok.IsSpace = false ∧ tok.IsPunct = false ∧ tok.isWord = true) :=
  ⟨techPolicy_disjoint,
   (tokenizer_classification techPolicy "a\tb.\r\n").elim
     (fun toks h => ⟨toks, h.1, fun tok htok => (h.2 tok htok).2.2 techPolicy_disjoint⟩)⟩

/-- C14 (one code point per space and punctuation token).  With a mid-word
table that holds no whitespace code point, for every input: the token values
are the input in order, every token with the space or the punct flag has
exactly one code point, a token that holds a whitespace code point is that code
point alone, with the space flag, and no word token holds a whitespace code
point.  So "\r\n" is two tokens. -/
theorem tokenizer_whitespace_alone (P : Policy)
    (hmid : ∀ r, P.midPunct r = true → P.isSpace r = false) (s : String) :
    (∃ toks, TokenizeString P s = .value toks ∧ Join toks = s ∧ ∀ tok ∈ toks,
      ((tok.IsSpace = true ∨ tok.IsPunct = true) → tok.value.length = 1) ∧
      (∀ c ∈ tok.value.data, P.isSpace c = true →
        tok.value = String.singleton c ∧ tok.IsSpace = true) ∧
      (tok.isWord = true → ∀ c ∈ tok.value.data, P.isSpace c = false)) ∧
    (TokenizeString techPolicy "a\r\nb").map (fun toks => toks.map (fun tok => tok.value))
      = .value ["a", "\r", "\n", "b"] := by
  refine ⟨?_, by decide⟩
  obtain ⟨toks, h1, h2, _, h4⟩ := tokenizer_ToSlice_shape P (s.data.length + 1)
    (newTokenizer s.data none) rfl (by simp [newTokenizer]) (by simp [newTokenizer])
  refine ⟨toks, h1, ?_, ?_⟩
  · apply String.ext
    simpa [newTokenizer] using h2
  intro tok htok
  obtain ⟨w, hw, htk, hsp⟩ := h4 tok htok
  have hcases : (∃ r, w = [r]) ∨ 2 ≤ w.length := by
    cases w with
    | nil => exact absurd rfl hw
    | cons a b =>
      cases b with
      | nil => exact Or.inl ⟨a, rfl⟩
      | cons c d => right; simp
  rcases hcases with ⟨r, hr⟩ | h2
  · subst hr
    rw [token_single] at htk
    subst htk
    refine ⟨fun _ => rfl, ?_, ?_⟩
    · intro c hc hcs
      rw [newTokenFromRune_data, List.mem_singleton] at hc
      subst hc
      exact ⟨rfl, hcs⟩
    · intro hword c hc
      rw [newTokenFromRune_data, List.mem_singleton] at hc
      subst hc
      simp only [Token.isWord, newTokenFromRune, Token.IsSpace, Token.IsPunct,
        Bool.and_eq_true, Bool.not_eq_true'] at hword
      exact hword.1
  · have hno : ∀ c ∈ w, P.isSpace c = false := by
      intro c hc
      cases hcs : P.isSpace c
      · rfl
      · have := hmid c (hsp h2 c hc hcs)
        rw [hcs] at this
        simp at this
    rw [token_long P w h2] at htk
    subst htk
    refine ⟨?_, ?_, ?_⟩
    · intro h
      simp [Token.IsSpace, Token.IsPunct] at h
    · intro c hc hcs
      have := hno c hc
      rw [hcs] at this
      simp at this
    · intro _ c hc
      exact hno c hc

/-- A witness of C14: the modelled tables and a text with two line ends. -/
theorem tokenizer_whitespace_alone_witness :
    (∀ r, techPolicy.midPunct r = true → techPolicy.isSpace r = false) ∧
    ∃ toks, TokenizeString techPolicy "crlf is \r\n" = .value toks ∧
      Join toks = "crlf is \r\n" ∧ ∀ tok ∈ toks,
      ((tok.IsSpace = true ∨ tok.IsPunct = true) → tok.value.length = 1) ∧
      (∀ c ∈ tok.value.data, techPolicy.isSpace c = true →
        tok.value = String.singleton c ∧ tok.IsSpace = true) ∧
      (tok.isWord = true → ∀ c ∈ tok.value.data, techPolicy.isSpace c = false) :=
  ⟨fun r h => (techPolicy_midPunct_isPunct r h).2,
   (tokenizer_whitespace_alone techPolicy (fun r h => (techPolicy_midPunct_isPunct r h).2)
      "crlf is \r\n").1⟩

/-- C15 (no lexical failure).  For every input string, read without error, and
every budget of more pulls than the input has code points, the tokenizer
reaches the end of the stream: `ToSlice` returns tokens, never an error or a
panic.  Every token has at least one code point and there are at most as many
tokens as code points. -/
theorem tokenizer_no_lexical_failure (P : Policy) (s : String) :
    (∃ toks, TokenizeString P s = .value toks ∧ toks.length ≤ s.length ∧
      ∀ tok ∈ toks, 1 ≤ tok.value.length) ∧
    ∀ fuel, s.length < fuel →
      ∃ toks, tokenizer.ToSlice P fuel (newTokenizer s.data none) = .value toks ∧
        toks.length ≤ s.length ∧ ∀ tok ∈ toks, 1 ≤ tok.value.length := by
  have key : ∀ fuel, s.length < fuel →
      ∃ toks, tokenizer.ToSlice P fuel (newTokenizer s.data none) = .value toks ∧
        toks.length ≤ s.length ∧ ∀ tok ∈ toks, 1 ≤ tok.value.length := by
    intro fuel hfuel
    obtain ⟨toks, h1, _, h3, h4⟩ := tokenizer_ToSlice_shape P fuel
      (newTokenizer s.data none) rfl (by simp [newTokenizer])
      (by simpa [newTokenizer] using hfuel)
    refine ⟨toks, h1, by simpa [newTokenizer] using h3, ?_⟩
    intro tok htok
    obtain ⟨w, hw, htk, _⟩ := h4 tok htok
    rw [htk, token_value]
    cases w with
    | nil => exact absurd rfl hw
    | cons a b => simp [String.length]
  exact ⟨key (s.length + 1) (Nat.lt_succ_self _), key⟩

/-! ## Tokenizer: read errors -/

/-- `readWord` on a reader that ends in the error `e`: it gives a token and
leaves a shorter text, or returns `e`, or panics. -/
theorem readWord_fail (P : Policy) (e : Err) (inc out : List Char) :
    readWord P (some e) inc out = .failed e ∨ readWord P (some e) inc out = .panicked ∨
    ∃ tok t', readWord P (some e) inc out = .value (some tok, t') ∧ t'.fail = some e ∧
      t'.outgoing.length + t'.incoming.length ≤ inc.length := by
  induction inc generalizing out with
  | nil => left; simp [readWord]
  | cons r rest ih =>
    unfold readWord
    by_cases hm : P.midPunct r = true
    · simp only [hm, if_true]
      cases rest with
      | nil => right; left; simp [peekTerminator]
      | cons r2 rest2 =>
        simp only [peekTerminator]
        by_cases ht : (P.isPunct r2 || P.isSpace r2) = true
        · simp only [ht, if_true]
          exact Or.inr (Or.inr ⟨_, _, rfl, rfl, by simp; omega⟩)
        · simp only [ht]
          rcases ih (out ++ [r]) with h | h | ⟨tok, t', h1, h2, h3⟩
          · exact Or.inl h
          · exact Or.inr (Or.inl h)
          · exact Or.inr (Or.inr ⟨tok, t', h1, h2, by simp at h3 ⊢; omega⟩)
    · simp only [hm]
      by_cases ht : (P.isPunct r || P.isSpace r) = true
      · simp only [ht, if_true]
        exact Or.inr (Or.inr ⟨_, _, rfl, rfl, by simp; omega⟩)
      · simp only [ht]
        rcases ih (out ++ [r]) with h | h | ⟨tok, t', h1, h2, h3⟩
        · exact Or.inl h
        · exact Or.inr (Or.inl h)
        · exact Or.inr (Or.inr ⟨tok, t', h1, h2, by simp at h3 ⊢; omega⟩)

/-- One pull on a reader that ends in the error `e`: it gives a token and leaves
a shorter text, or returns `e`, or panics; it never signals the end. -/
theorem tokenizer_next_fail (P : Policy) (e : Err) (t : tokenizer) (hf : t.fail = some e) :
    t.next P = .failed e ∨ t.next P = .panicked ∨
    ∃ tok t', t.next P = .value (some tok, t') ∧ t'.fail = some e ∧
      t'.outgoing.length + t'.incoming.length < t.outgoing.length + t.incoming.length := by
  obtain ⟨inc, fl, out⟩ := t
  simp only at hf
  subst hf
  unfold tokenizer.next
  by_cases ho : out.length > 0
  · simp only [ho, if_true]
    exact Or.inr (Or.inr ⟨_, _, rfl, rfl, by simp; omega⟩)
  · have ho' : out = [] := by
      cases out with
      | nil => rfl
      | cons a b => simp at ho
    subst ho'
    simp only [List.length_nil, gt_iff_lt, lt_self_iff_false, if_false, List.nil_append]
    cases inc with
    | nil => left; rfl
    | cons r rest =>
      simp only
      have hone : (Run.value (some (token P [r]),
            ({ incoming := rest, fail := some e, outgoing := [] } : tokenizer))
            : Run (Option Token × tokenizer)) = .failed e ∨
          (Run.value (some (token P [r]),
            ({ incoming := rest, fail := some e, outgoing := [] } : tokenizer))
            : Run (Option Token × tokenizer)) = .panicked ∨
          ∃ tok t', (Run.value (some (token P [r]),
            ({ incoming := rest, fail := some e, outgoing := [] } : tokenizer))
            : Run (Option Token × tokenizer)) = .value (some tok, t') ∧ t'.fail = some e ∧
            t'.outgoing.length + t'.incoming.length < (r :: rest).length :=
        Or.inr (Or.inr ⟨_, _, rfl, rfl, by simp⟩)
      have hrw : readWord P (some e) rest [r] = .failed e ∨
          readWord P (some e) rest [r] = .panicked ∨
          ∃ tok t', readWord P (some e) rest [r] = .value (some tok, t') ∧ t'.fail = some e ∧
            t'.outgoing.length + t'.incoming.length < (r :: rest).length := by
        rcases readWord_fail P e rest [r] with h | h | ⟨tok, t', h1, h2, h3⟩
        · exact Or.inl h
        · exact Or.inr (Or.inl h)
        · exact Or.inr (Or.inr ⟨tok, t', h1, h2, by simp; omega⟩)
      by_cases hs : P.isSpace r = true
      · simp only [hs, if_true]
        simpa using hone
      · simp only [hs]
        by_cases hp : P.isPunct r = true
        · simp only [hp, if_true]
          by_cases hl : P.leadingPunct r = true
          · simp only [hl, if_true]
            cases rest with
            | nil => right; left; simp [peekTerminator]
            | cons r2 rest2 =>
              simp only [peekTerminator]
              cases (P.isPunct r2 || P.isSpace r2) with
              | true => simpa using hone
              | false => simpa using hrw
          · simp only [hl]
            simpa using hone
        · simp only [hp]
          simpa using hrw

/-- Pulling to the end a reader that ends in the error `e`: the result is `e`
or a panic, never a list of tokens. -/
theorem tokenizer_ToSlice_fail (P : Policy) (e : Err) (fuel : Nat) (t : tokenizer)
    (hf : t.fail = some e) (hfuel : t.outgoing.length + t.incoming.length < fuel) :
    tokenizer.ToSlice P fuel t = .failed e ∨ tokenizer.ToSlice P fuel t = .panicked := by
  induction fuel generalizing t with
  | zero => omega
  | succ n ih =>
    unfold tokenizer.ToSlice
    rcases tokenizer_next_fail P e t hf with h | h | ⟨tok, t', h1, h2, h3⟩
    · left; simp [h]
    · right; simp [h]
    · rcases ih t' h2 (by omega) with h | h
      · left; simp [h1, h]
      · right; simp [h1, h]

/-- C16 (read errors), a reader on which it fails.  The reader delivers "a."
and then fails: the period is a mid-word code point, so `readWord` looks one
code point ahead, the lookahead meets the error and the pull panics instead of
returning it. -/
theorem tokenizer_lookahead_panics :
    tokenizer.next techPolicy (newTokenizer "a.".data (some "read error")) = .panicked ∧
    tokenizer.ToSlice techPolicy 3 (newTokenizer "a.".data (some "read error")) = .panicked := by
  decide

/-- C16 (read errors), amended.  On a reader that fails with the error `e`
once its code points are used up: a pull whose own read meets the error, in
`next` or in `readWord`, returns `e` and no token; a lookahead that meets it
panics; and the stream pulled to its end gives `e` or a panic, never an end
without error.  So "ab" followed by the error gives the error, and "a."
followed by the error panics. -/
theorem tokenizer_read_errors (P : Policy) (e : Err) :
    tokenizer.next P (newTokenizer [] (some e)) = .failed e ∧
    (∀ out, readWord P (some e) [] out = .failed e) ∧
    peekTerminator P (some e) [] = .panicked ∧
    (∀ (m : Char) (out : List Char), P.midPunct m = true →
      readWord P (some e) [m] out = .panicked) ∧
    (∀ (runes : List Char) (fuel : Nat), runes.length < fuel →
      tokenizer.ToSlice P fuel (newTokenizer runes (some e)) = .failed e ∨
      tokenizer.ToSlice P fuel (newTokenizer runes (some e)) = .panicked) ∧
    tokenizer.ToSlice techPolicy 3 (newTokenizer "ab".data (some e)) = .failed e ∧
    tokenizer.ToSlice techPolicy 3 (newTokenizer "a.".data (some e)) = .panicked := by
  refine ⟨rfl, fun out => rfl, rfl, ?_, ?_, ?_, ?_⟩
  · intro m out hm
    simp [readWord, hm, peekTerminator]
  · intro runes fuel hfuel
    exact tokenizer_ToSlice_fail P e fuel (newTokenizer runes (some e)) rfl
      (by simpa [newTokenizer] using hfuel)
  · have hb : techPolicy.isPunct 'b' = false := by decide
    have hb2 : techPolicy.isSpace 'b' = false := by decide
    have ha : techPolicy.isPunct 'a' = false := by decide
    have ha2 : techPolicy.isSpace 'a' = false := by decide
    have hb3 : techPolicy.midPunct 'b' = false := by decide
    simp [tokenizer.ToSlice, tokenizer.next, newTokenizer, readWord, ha, ha2, hb, hb2, hb3]
  · have ha : techPolicy.isPunct 'a' = false := by decide
    have ha2 : techPolicy.isSpace 'a' = false := by decide
    have hd : techPolicy.midPunct '.' = true := by decide
    simp [tokenizer.ToSlice, tokenizer.next, newTokenizer, readWord, ha, ha2, hd, peekTerminator]

/-! ## Tokenizer: the punctuation rules -/

/-- `readWord` gives a token whose value starts with the code points accepted
so far. -/
theorem readWord_value (P : Policy) (inc out : List Char) :
    ∃ acc t', readWord P none inc out = .value (some (token P (out ++ acc)), t') := by
  obtain ⟨acc, o, inc', h1, _⟩ := readWord_shape P inc out
  exact ⟨acc, _, h1⟩

/-- C17 (leading punctuation rule).  With a mid-word table that holds
punctuation code points only, for an input that starts with a punctuation code
point `p` (not also whitespace): if `p` is in the leading-punctuation set and
the next code point `q` exists and is neither punctuation nor whitespace, the
first token is a word, with neither flag, whose value starts with `p`, `q`;
otherwise the first token is `p` alone, with the punct flag, and the rest of
the input is left to read. -/
theorem tokenizer_leading_punct (P : Policy)
    (hmid : ∀ r, P.midPunct r = true → P.isPunct r = true)
    (p : Char) (rest : List Char) (hp : P.isPunct p = true) (hs : P.isSpace p = false) :
    (P.leadingPunct p = true → ∀ q rest1, rest = q :: rest1 →
      P.isPunct q = false → P.isSpace q = false →
      ∃ w t', tokenizer.next P (newTokenizer (p :: rest) none)
        = .value (some { value := String.mk (p :: q :: w), punct := false, space := false }, t')) ∧
    ((P.leadingPunct p = false ∨ rest = [] ∨
        ∃ q rest1, rest = q :: rest1 ∧ (P.isPunct q || P.isSpace q) = true) →
      tokenizer.next P (newTokenizer (p :: rest) none)
        = .value (some (newTokenFromRune P p), newTokenizer rest none) ∧
      (newTokenFromRune P p).value = String.singleton p ∧
      (newTokenFromRune P p).IsPunct = true) := by
  constructor
  · intro hl q rest1 hrest hq1 hq2
    subst hrest
    have hqm : P.midPunct q = false := by
      cases hm : P.midPunct q
      · rfl
      · have := hmid q hm
        rw [hq1] at this
        simp at this
    obtain ⟨acc, t', h1⟩ := readWord_value P rest1 [p, q]
    refine ⟨acc, t', ?_⟩
    have hlong : token P ([p, q] ++ acc) = { value := String.mk (p :: q :: acc) } :=
      token_long P ([p, q] ++ acc) (by simp)
    rw [hlong] at h1
    simp only [tokenizer.next, newTokenizer, List.length_nil, gt_iff_lt, lt_self_iff_false,
      if_false, hs, Bool.false_eq_true, hp, if_true, hl, peekTerminator, hq1, hq2, Bool.or_self,
      Bool.not_false, List.nil_append]
    unfold readWord
    simp only [hqm, Bool.false_eq_true, if_false, hq1, hq2, Bool.or_self, List.singleton_append]
    exact h1
  · intro hcase
    refine ⟨?_, rfl, hp⟩
    simp only [tokenizer.next, newTokenizer, List.length_nil, gt_iff_lt, lt_self_iff_false,
      if_false, hs, Bool.false_eq_true, hp, if_true, List.nil_append, token_single]
    rcases hcase with hl | hnil | ⟨q, rest1, hrest, hq⟩
    · simp [hl]
    · subst hnil
      cases P.leadingPunct p <;> simp [peekTerminator]
    · subst hrest
      cases P.leadingPunct p <;> simp [peekTerminator, hq]

/-- A witness of C17: ".net" and ". net" with the modelled tables. -/
theorem tokenizer_leading_punct_witness :
    (∀ r, techPolicy.midPunct r = true → techPolicy.isPunct r = true) ∧
    techPolicy.isPunct '.' = true ∧ techPolicy.isSpace '.' = false ∧
    (∃ w t', tokenizer.next techPolicy (newTokenizer ('.' :: "net".data) none)
        = .value (some { value := String.mk ('.' :: 'n' :: w), punct := false, space := false },
            t')) ∧
    tokenizer.next techPolicy (newTokenizer ('.' :: " net".data) none)
        = .value (some (newTokenFromRune techPolicy '.'), newTokenizer " net".data none) :=
  ⟨fun r h => (techPolicy_midPunct_isPunct r h).1, by decide, by decide,
   (tokenizer_leading_punct techPolicy (fun r h => (techPolicy_midPunct_isPunct r h).1) '.'
      "net".data (by decide) (by decide)).1 (by decide) 'n' "et".data rfl (by decide) (by decide),
   ((tokenizer_leading_punct techPolicy (fun r h => (techPolicy_midPunct_isPunct r h).1) '.'
      " net".data (by decide) (by decide)).2
      (Or.inr (Or.inr ⟨' ', "net".data, rfl, by decide⟩))).1⟩

/-- C18 (mid-word punctuation rule).  While a word is read, with `out` accepted
so far, at a mid-word code point `m`: when the code point after `m` exists and
is neither punctuation nor whitespace, `m` is accepted and the token of the word
starts with `out` followed by `m`; when `m` is the last code point or the one
after it is punctuation or whitespace, the token of the word is `out`, and the
next pull gives `m` alone.  So "node.js" is one token, and "Hi. " gives "Hi",
".", " ". -/
theorem tokenizer_mid_punct (P : Policy) (m : Char) (rest out : List Char)
    (hm : P.midPunct m = true) :
    (∀ q rest1, rest = q :: rest1 → (P.isPunct q || P.isSpace q) = false →
      readWord P none (m :: rest) out = readWord P none rest (out ++ [m]) ∧
      ∃ w t', readWord P none (m :: rest) out
        = .value (some (token P (out ++ [m] ++ w)), t')) ∧
    ((rest = [] ∨ ∃ q rest1, rest = q :: rest1 ∧ (P.isPunct q || P.isSpace q) = true) →
      readWord P none (m :: rest) out
        = .value (some (token P out), { incoming := rest, fail := none, outgoing := [m] }) ∧
      tokenizer.next P { incoming := rest, fail := none, outgoing := [m] }
        = .value (some (newTokenFromRune P m), newTokenizer rest none)) ∧
    (TokenizeString techPolicy "node.js").map (fun toks => toks.map (fun tok => tok.value))
      = .value ["node.js"] ∧
    (TokenizeString techPolicy "Hi. ").map (fun toks => toks.map (fun tok => tok.value))
      = .value ["Hi", ".", " "] := by
  refine ⟨?_, ?_, by decide, by decide⟩
  · intro q rest1 hrest hq
    subst hrest
    have hstep : readWord P none (m :: q :: rest1) out
        = readWord P none (q :: rest1) (out ++ [m]) := by
      conv_lhs => unfold readWord
      simp [hm, peekTerminator, hq]
    refine ⟨hstep, ?_⟩
    obtain ⟨acc, t', h1⟩ := readWord_value P (q :: rest1) (out ++ [m])
    exact ⟨acc, t', by rw [hstep, h1]⟩
  · intro hcase
    constructor
    · rcases hcase with hnil | ⟨q, rest1, hrest, hq⟩
      · subst hnil
        simp [readWord, hm, peekTerminator]
      · subst hrest
        unfold readWord
        simp [hm, peekTerminator, hq]
    · simp [tokenizer.next, token_single, newTokenizer]

/-- A witness of C18: the period of "node.js" and the period of "Hi. ". -/
theorem tokenizer_mid_punct_witness :
    techPolicy.midPunct '.' = true ∧
    readWord techPolicy none ('.' :: "js".data) "node".data
      = readWord techPolicy none "js".data ("node".data ++ ['.']) ∧
    readWord techPolicy none ('.' :: " ".data) "Hi".data
      = .value (some (token techPolicy "Hi".data),
          { incoming := " ".data, fail := none, outgoing := ['.'] }) :=
  ⟨by decide,
   ((tokenizer_mid_punct techPolicy '.' "js".data "node".data (by decide)).1
      'j' "s".data rfl (by decide)).1,
   ((tokenizer_mid_punct techPolicy '.' " ".data "Hi".data (by decide)).2.1
      (Or.inr ⟨' ', [], rfl, by decide⟩)).1⟩

/-- C19 (a code point that ends a word).  A punctuation or whitespace code point
`p` that is not accepted into the word, because it is not in the mid-word table
or because what follows it is a terminator or the end, ends the word: `readWord`
returns the token of the word and keeps `p`; the next pull gives `p` alone, as
the token of one code point; and from there the stream is the one of a tokenizer
started afresh on the rest, so a `p` of the leading-punctuation set does not
start a word.  "my.name@domain.com" gives "my.name", "@", "domain.com". -/
theorem tokenizer_word_end (P : Policy) (p : Char) (rest out : List Char)
    (hp : (P.isPunct p || P.isSpace p) = true)
    (hend : P.midPunct p = false ∨ rest = [] ∨
      ∃ q rest1, rest = q :: rest1 ∧ (P.isPunct q || P.isSpace q) = true) :
    readWord P none (p :: rest) out
      = .value (some (token P out), { incoming := rest, fail := none, outgoing := [p] }) ∧
    tokenizer.next P { incoming := rest, fail := none, outgoing := [p] }
      = .value (some (newTokenFromRune P p), newTokenizer rest none) ∧
    (newTokenFromRune P p).value = String.singleton p ∧
    (∀ fuel, tokenizer.ToSlice P (fuel + 1) { incoming := rest, fail := none, outgoing := [p] }
      = (tokenizer.ToSlice P fuel (newTokenizer rest none)).map
          (fun toks => newTokenFromRune P p :: toks)) ∧
    (TokenizeString techPolicy "my.name@domain.com").map
        (fun toks => toks.map (fun tok => tok.value))
      = .value ["my.name", "@", "domain.com"] := by
  have hnext : tokenizer.next P { incoming := rest, fail := none, outgoing := [p] }
      = .value (some (newTokenFromRune P p), newTokenizer rest none) := by
    simp [tokenizer.next, token_single, newTokenizer]
  refine ⟨?_, hnext, rfl, ?_, by decide⟩
  · by_cases hm : P.midPunct p = true
    · rcases hend with h | hnil | ⟨q, rest1, hrest, hq⟩
      · rw [hm] at h; simp at h
      · subst hnil
        simp [readWord, hm, peekTerminator]
      · subst hrest
        unfold readWord
        simp [hm, peekTerminator, hq]
    · unfold readWord
      simp [hm, hp]
  · intro fuel
    conv_lhs => unfold tokenizer.ToSlice
    rw [hnext]
    simp only
    cases tokenizer.ToSlice P fuel (newTokenizer rest none) <;> rfl

/-- A witness of C19: the "@" of "my.name@domain.com". -/
theorem tokenizer_word_end_witness :
    (techPolicy.isPunct '@' || techPolicy.isSpace '@') = true ∧
    techPolicy.midPunct '@' = false ∧ techPolicy.leadingPunct '@' = true ∧
    readWord techPolicy none ('@' :: "domain.com".data) "my.name".data
      = .value (some (token techPolicy "my.name".data),
          { incoming := "domain.com".data, fail := none, outgoing := ['@'] }) ∧
    tokenizer.next techPolicy { incoming := "domain.com".data, fail := none, outgoing := ['@'] }
      = .value (some (newTokenFromRune techPolicy '@'), newTokenizer "domain.com".data none) :=
  ⟨by decide, by decide, by decide,
   (tokenizer_word_end techPolicy '@' "domain.com".data "my.name".data (by decide)
      (Or.inl (by decide))).1,
   (tokenizer_word_end techPolicy '@' "domain.com".data "my.name".data (by decide)
      (Or.inl (by decide))).2.1⟩

/-! ## Synonyms filter: what `fill` pulls -/

theorem getLast?_map_cons (a : Token) (l : List Token) (h : l ≠ []) :
    (a :: l).getLast?.map Token.IsPunct = l.getLast?.map Token.IsPunct := by
  cases l with
  | nil => exact absurd rfl h
  | cons b l => rw [List.getLast?_cons_cons]

theorem countWords_cons_notWord (a : Token) (l : List Token)
    (h : a.IsPunct = true ∨ a.IsSpace = true) : countWords (a :: l) = countWords l := by
  rw [countWords_cons]
  have : a.isWord = false := by
    rcases h with h | h <;> simp [Token.isWord, h]
  simp [this]

theorem countWords_cons_word (a : Token) (l : List Token)
    (hp : ¬ a.IsPunct = true) (hs : ¬ a.IsSpace = true) :
    countWords (a :: l) = countWords l + 1 := by
  rw [countWords_cons]
  have : a.isWord = true := by
    simp [Token.isWord, hp, hs]
  simp [this]

/-- The loop of `fill` pulls the shortest prefix of the incoming tokens at which
one of its three reasons to stop holds. -/
theorem fillLoop_min (k : Nat) (I : List Token) (words : Nat) (B : TokenQueue) :
    ∃ pulled rest, fillLoop k none I words B
        = .value ({ pending := rest, fail := none }, { Tokens := B.Tokens ++ pulled }) ∧
      I = pulled ++ rest ∧
      (k ≤ words + countWords pulled ∨ pulled.getLast?.map Token.IsPunct = some true ∨
        rest = []) ∧
      (∀ P' R', I = P' ++ R' → P'.length < pulled.length →
        words + countWords P' < k ∧ P'.getLast?.map Token.IsPunct ≠ some true ∧ R' ≠ []) ∧
      (∀ p ∈ pulled.dropLast, p.IsPunct = false) := by
  induction I generalizing words B with
  | nil =>
    refine ⟨[], [], ?_, by simp, Or.inr (Or.inr rfl), by simp, by simp⟩
    unfold fillLoop
    split <;> simp
  | cons token rest ih =>
    unfold fillLoop
    by_cases hw : words < k
    · rw [if_pos hw]
      have hnil : ∀ P' R', token :: rest = P' ++ R' → P' = [] →
          words + countWords P' < k ∧ P'.getLast?.map Token.IsPunct ≠ some true ∧ R' ≠ [] := by
        intro P' R' h hP
        subst hP
        refine ⟨by simpa [countWords] using hw, by simp, ?_⟩
        intro hR
        subst hR
        simp at h
      by_cases hp : token.IsPunct = true
      · simp only [hp, if_true]
        refine ⟨[token], rest, by simp [TokenQueue.Push], by simp, Or.inr (Or.inl (by simp [hp])),
          ?_, by simp⟩
        intro P' R' h hlen
        apply hnil P' R' h
        cases P' with
        | nil => rfl
        | cons a P'' => simp at hlen
      · simp only [hp]
        have hpf : token.IsPunct = false := by simpa using hp
        have hstep : ∀ w', (∃ pulled rest', fillLoop k none rest w' (B.Push token)
              = .value ({ pending := rest', fail := none },
                  { Tokens := (B.Push token).Tokens ++ pulled }) ∧
            rest = pulled ++ rest' ∧
            (k ≤ w' + countWords pulled ∨ pulled.getLast?.map Token.IsPunct = some true ∨
              rest' = []) ∧
            (∀ P' R', rest = P' ++ R' → P'.length < pulled.length →
              w' + countWords P' < k ∧ P'.getLast?.map Token.IsPunct ≠ some true ∧ R' ≠ []) ∧
            (∀ p ∈ pulled.dropLast, p.IsPunct = false)) →
            (∀ l, w' + countWords l = words + countWords (token :: l)) →
            ∃ pulled rest', fillLoop k none rest w' (B.Push token)
              = .value ({ pending := rest', fail := none }, { Tokens := B.Tokens ++ pulled }) ∧
            token :: rest = pulled ++ rest' ∧
            (k ≤ words + countWords pulled ∨ pulled.getLast?.map Token.IsPunct = some true ∨
              rest' = []) ∧
            (∀ P' R', token :: rest = P' ++ R' → P'.length < pulled.length →
              words + countWords P' < k ∧ P'.getLast?.map Token.IsPunct ≠ some true ∧ R' ≠ []) ∧
            (∀ p ∈ pulled.dropLast, p.IsPunct = false) := by
          rintro w' ⟨pulled, rest', h1, h2, h3, h4, h5⟩ hcount
          refine ⟨token :: pulled, rest', by simpa [TokenQueue.Push] using h1, by simp [h2],
            ?_, ?_, ?_⟩
          · rcases h3 with h3 | h3 | h3
            · exact Or.inl (by rw [← hcount]; exact h3)
            · refine Or.inr (Or.inl ?_)
              have hne : pulled ≠ [] := by
                intro h
                subst h
                simp at h3
              rw [getLast?_map_cons token pulled hne]
              exact h3
            · exact Or.inr (Or.inr h3)
          · intro P' R' h hlen
            cases P' with
            | nil => exact hnil [] R' h rfl
            | cons a P'' =>
              simp only [List.cons_append, List.cons.injEq] at h
              obtain ⟨ha, hrest⟩ := h
              subst ha
              have hlen' : P''.length < pulled.length := by simpa using hlen
              obtain ⟨g1, g2, g3⟩ := h4 P'' R' hrest hlen'
              refine ⟨by rw [← hcount]; exact g1, ?_, g3⟩
              cases P'' with
              | nil => simp [hpf]
              | cons b P3 =>
                rw [getLast?_map_cons token (b :: P3) (by simp)]
                exact g2
          · intro p hp'
            cases pulled with
            | nil => simp at hp'
            | cons b pulled' =>
              rw [List.dropLast_cons₂] at hp'
              rcases List.mem_cons.1 hp' with h | h
              · rw [h]; exact hpf
              · exact h5 p h
        by_cases hsp : token.IsSpace = true
        · simp only [hsp, if_true]
          exact hstep words (ih words (B.Push token))
            (fun l => by rw [countWords_cons_notWord token l (Or.inr hsp)])
        · simp only [hsp]
          exact hstep (words + 1) (ih (words + 1) (B.Push token))
            (fun l => by rw [countWords_cons_word token l hp hsp]; omega)
    · rw [if_neg hw]
      exact ⟨[], token :: rest, by simp, by simp, Or.inl (by simp [countWords]; omega),
        by simp, by simp⟩

/-- C20 (fill).  For every prior buffer `B` and every upstream sequence `I`, one
call of `fill` leaves the buffer equal to `B` followed by a prefix `P` of `I`,
and the rest `R` upstream; `P` is the shortest prefix at which the buffer holds
at least `maxWords` words (those of `B` counted), or the last token of `P` is
punctuation, or upstream is exhausted.  Nothing is pulled when `B` already holds
`maxWords` words, and only the last token of `P` can be punctuation. -/
theorem synonyms_fill_spec {τ : Type} (f : Filter τ) (B O : TokenQueue) (I : List Token) :
    ∃ P R,
      tokens.fill { incoming := { pending := I, fail := none }, buffer := B, outgoing := O,
                    filter := f }
        = .value { incoming := { pending := R, fail := none },
                   buffer := { Tokens := B.Tokens ++ P }, outgoing := O, filter := f } ∧
      I = P ++ R ∧
      FillStops f.maxWords B.Tokens P R ∧
      (∀ P' R', I = P' ++ R' → P'.length < P.length → ¬ FillStops f.maxWords B.Tokens P' R') ∧
      (f.maxWords ≤ countWords B.Tokens → P = []) ∧
      (∀ p ∈ P.dropLast, p.IsPunct = false) := by
  obtain ⟨P, R, h1, h2, h3, h4, h5⟩ := fillLoop_min f.maxWords I
    (B.Tokens.countP (fun token => !token.IsPunct && !token.IsSpace)) B
  rw [countP_words_eq] at h1 h3 h4
  have hmin : ∀ P' R', I = P' ++ R' → P'.length < P.length →
      ¬ FillStops f.maxWords B.Tokens P' R' := by
    intro P' R' h hlen hstop
    obtain ⟨g1, g2, g3⟩ := h4 P' R' h hlen
    unfold FillStops at hstop
    rw [countWords_append] at hstop
    rcases hstop with h | h | h
    · omega
    · exact g2 h
    · exact g3 h
  refine ⟨P, R, ?_, h2, ?_, hmin, ?_, h5⟩
  · unfold tokens.fill
    simp only [countP_words_eq, h1]
  · unfold FillStops
    rw [countWords_append]
    exact h3
  · intro hk
    by_contra hP
    refine hmin [] I rfl ?_ (Or.inl (by simpa using hk))
    cases P with
    | nil => exact absurd rfl hP
    | cons a P => simp

/-- The third case of `TestFill`, the text " test three" with `maxWords` 2 and
an empty buffer: `fill` keeps the leading space in the buffer and moves nothing
to `outgoing`. -/
theorem fill_leading_space :
    tokens.fill { incoming := { pending := [spaceToken, word "test", spaceToken, word "three"],
                                fail := none },
                  buffer := {}, outgoing := {}, filter := { trie := (), maxWords := 2 } }
      = .value { incoming := { pending := [], fail := none },
                 buffer := { Tokens := [spaceToken, word "test", spaceToken, word "three"] },
                 outgoing := {}, filter := { trie := (), maxWords := 2 } } := by
  decide

/-! ## Lemmatizer: the lemma flag -/

theorem FromInputOrLiteral.snoc {tokens l : List Token} {tok : Token}
    (h : FromInputOrLiteral tokens l)
    (ht : tok ∈ tokens ∨ ∃ canonical, tok = { value := canonical, space := false, punct := false }) :
    FromInputOrLiteral tokens (l ++ [tok]) := by
  intro x hx
  rcases List.mem_append.1 hx with hx | hx
  · exact h x hx
  · rw [List.mem_singleton] at hx
    rw [hx]
    exact ht

theorem gramsLoop_origin (lem : Lemmatizer) (tokens : List Token) (take : Nat)
    (lemmatized : List Token) (pos : Nat) (out : List Token) (pos' : Nat)
    (hin : FromInputOrLiteral tokens lemmatized)
    (h : gramsLoop lem tokens take lemmatized pos = .value (out, pos')) :
    FromInputOrLiteral tokens out := by
  induction take generalizing lemmatized pos with
  | zero =>
    simp only [gramsLoop, Run.value.injEq, Prod.mk.injEq] at h
    rw [← h.1]
    exact hin
  | succ take ih =>
    unfold gramsLoop at h
    cases hw : wordrun tokens pos (take + 1 : Nat) with
    | value r =>
      obtain ⟨run, consumed, ok⟩ := r
      rw [hw] at h
      simp only at h
      cases ok with
      | true =>
        simp only [if_true] at h
        cases hv : lem.values (lem.normalize (Join run)) with
        | some canonical =>
          rw [hv] at h
          simp only [Run.value.injEq, Prod.mk.injEq] at h
          rw [← h.1]
          exact hin.snoc (Or.inr ⟨_, rfl⟩)
        | none =>
          rw [hv] at h
          simp only at h
          by_cases h1 : take + 1 = 1
          · rw [if_pos h1] at h
            cases hget : tokens.get? pos with
            | some token =>
              rw [hget] at h
              exact ih _ _ (hin.snoc (Or.inl (List.get?_mem hget))) h
            | none =>
              rw [hget] at h
              exact absurd h (by simp)
          · rw [if_neg h1] at h
            exact ih _ _ hin h
      | false =>
        simp only [Bool.false_eq_true, if_false] at h
        exact ih _ _ hin h
    | failed e => rw [hw] at h; exact absurd h (by simp)
    | panicked => rw [hw] at h; exact absurd h (by simp)
    | timeout => rw [hw] at h; exact absurd h (by simp)

theorem lemmatizeLoop_origin (lem : Lemmatizer) (tokens : List Token) (fuel : Nat)
    (lemmatized : List Token) (pos : Nat) (out : List Token)
    (hin : FromInputOrLiteral tokens lemmatized)
    (h : lemmatizeLoop lem tokens fuel lemmatized pos = .value out) :
    FromInputOrLiteral tokens out := by
  induction fuel generalizing lemmatized pos with
  | zero => simp [lemmatizeLoop] at h
  | succ fuel ih =>
    unfold lemmatizeLoop at h
    split at h
    · split at h
      · exact absurd h (by simp)
      · rename_i current hget
        split at h
        · exact ih _ _ (hin.snoc (Or.inl (List.get?_mem hget))) h
        · split at h
          · rename_i l' p' hg
            exact ih _ _ (gramsLoop_origin lem tokens _ _ _ _ _ hin hg) h
          · exact absurd h (by simp)
          · exact absurd h (by simp)
          · exact absurd h (by simp)
    · simp only [Run.value.injEq] at h
      rw [← h]
      exact hin

/-- C11, the code at the text "Ruby on Rails html5 and.": `LemmatizeTokens`
replaces the trigram by "ruby-on-rails" and the word "html5" by "html5", and
neither of the two tokens emitted in place of a match is identified as a lemma:
the token literal of the replacement sets `value`, `space` and `punct` only, so
the token is the one the tokenizer makes of the same text, and whatever is
computed from a token gives the same on both.  In general no token of the
output is marked but a token of the input that was marked already. -/
theorem lemmatize_tokens_lemma_flag :
    html5Lemmatizer.LemmatizeTokens (html5Tokens.length + 1) html5Tokens
      = .value [word "ruby-on-rails", spaceToken, word "html5", spaceToken, word "and",
          punctToken "."] ∧
    (word "ruby-on-rails").IsLemma = false ∧ (word "html5").IsLemma = false ∧
    (∀ isLemma : Token → Bool,
      isLemma { value := "html5", space := false, punct := false }
        = isLemma (token techPolicy "html5".data)) ∧
    (∀ (lem : Lemmatizer) (fuel : Nat) (tokens out : List Token),
      lem.LemmatizeTokens fuel tokens = .value out →
      ∀ tok ∈ out, tok.IsLemma = true → tok ∈ tokens) := by
  refine ⟨by decide, rfl, rfl, fun _ => rfl, ?_⟩
  intro lem fuel tokens out h tok htok hl
  have horigin := lemmatizeLoop_origin lem tokens fuel [] 0 out (by intro x hx; simp at hx) h
  rcases horigin tok htok with hin | ⟨c, hc⟩
  · exact hin
  · rw [hc] at hl
    simp [Token.IsLemma] at hl

/-! ## Command line: the order of the filters -/

theorem applyFilters_foldl {σ : Type} (fs : List (σ → σ)) (tokens : σ) :
    applyFilters fs tokens = fs.foldl (fun s f => f s) tokens := by
  induction fs generalizing tokens with
  | nil => rfl
  | cons f rest ih => exact ih (f tokens)

/-- What `setFilters` leaves when it returns no error: the filters of the
arguments, in order, after those `c` had; nothing else of `c` is changed. -/
theorem setFilters_spec {ρ σ ω : Type} (E : Packages ρ σ ω) (c : config ρ σ ω)
    (args : List String) (lang : String) (h : (setFilters E c args lang).1 = none) :
    (setFilters E c args lang).2
      = { c with Filters := c.Filters ++ args.filterMap (flagFilter E lang) } ∧
    (args.filterMap (flagFilter E lang)).length
      = args.countP (fun arg => (filterMap E arg).isSome) := by
  induction args generalizing c with
  | nil => simp [setFilters]
  | cons arg args ih =>
    unfold setFilters at h ⊢
    cases hfm : filterMap E arg with
    | none =>
      rw [hfm] at h
      simp only [hfm] at h ⊢
      obtain ⟨h1, h2⟩ := ih c h
      have hff : flagFilter E lang arg = none := by simp [flagFilter, hfm]
      refine ⟨?_, ?_⟩
      · rw [h1, List.filterMap_cons_none hff]
      · rw [List.filterMap_cons_none hff, h2, List.countP_cons_of_neg]
        simp [hfm]
    | some filter =>
      simp only [hfm] at h ⊢
      by_cases hstem : arg = "-stem" ∧ lang ≠ ""
      · rw [if_pos hstem] at h ⊢
        cases hsm : stemmerMap E lang with
        | none =>
          rw [hsm] at h
          simp at h
        | some stem =>
          simp only [hsm] at h ⊢
          obtain ⟨h1, h2⟩ := ih _ h
          have hff : flagFilter E lang arg = some stem := by
            simp only [flagFilter, hfm]
            rw [if_pos hstem, hsm]
          refine ⟨?_, ?_⟩
          · rw [h1, List.filterMap_cons_some hff]
            simp
          · rw [List.filterMap_cons_some hff, List.length_cons, h2, List.countP_cons_of_pos]
            simp [hfm]
      · rw [if_neg hstem] at h ⊢
        obtain ⟨h1, h2⟩ := ih _ h
        have hff : flagFilter E lang arg = some filter := by
          simp only [flagFilter, hfm]
          rw [if_neg hstem]
        refine ⟨?_, ?_⟩
        · rw [h1, List.filterMap_cons_some hff]
          simp
        · rw [List.filterMap_cons_some hff, List.length_cons, h2, List.countP_cons_of_pos]
          simp [hfm]

/-- C12 (filter order).  When `setFilters` returns no error, it has appended to
`c.Filters` the filters of the filter flags of `args`, one per such flag and in
the order of the flags, arguments that are no filter flag being skipped, and it
has changed nothing else; `execute` then consumes the stream obtained from the
tokenizer's by applying these filters first to last, `f_n (... (f_2 (f_1
tokens)))`. -/
theorem cli_filter_order {ρ σ ω : Type} (E : Packages ρ σ ω) (c : config ρ σ ω)
    (args : List String) (lang : String) (reader : ρ) (writer : ω)
    (hr : c.Reader = some reader) (hw : c.Writer = some writer)
    (h : (setFilters E c args lang).1 = none) :
    (setFilters E c args lang).2
      = { c with Filters := c.Filters ++ args.filterMap (flagFilter E lang) } ∧
    (args.filterMap (flagFilter E lang)).length
      = args.countP (fun arg => (filterMap E arg).isSome) ∧
    execute E (setFilters E c args lang).2
      = ((consume E (setFilters E c args lang).2 writer
            ((c.Filters ++ args.filterMap (flagFilter E lang)).foldl (fun s f => f s)
              (if c.HTML then E.TokenizeHTML reader else E.Tokenize reader))).1,
         some (consume E (setFilters E c args lang).2 writer
            ((c.Filters ++ args.filterMap (flagFilter E lang)).foldl (fun s f => f s)
              (if c.HTML then E.TokenizeHTML reader else E.Tokenize reader))).2) ∧
    (∀ (f1 f2 f3 : σ → σ) (tokens : σ),
      applyFilters [f1, f2, f3] tokens = f3 (f2 (f1 tokens))) := by
  obtain ⟨h1, h2⟩ := setFilters_spec E c args lang h
  refine ⟨h1, h2, ?_, fun _ _ _ _ => rfl⟩
  rw [h1]
  simp only [execute, hr, hw, applyFilters_foldl]

/-- A witness of C12: a command line with a repeated flag and with arguments
that are no filter flag; the text written lists what was applied, in order. -/
theorem cli_filter_order_witness :
    (setFilters tracePackages traceConfig traceArgs "french").1 = none ∧
    (List.filterMap (flagFilter tracePackages "french") traceArgs).length = 5 ∧
    execute tracePackages (setFilters tracePackages traceConfig traceArgs "french").2
      = (none, some "input\nstack\nascii\nstack\nfrench\nlemmas\n") :=
  ⟨by decide,
   (cli_filter_order tracePackages traceConfig traceArgs "french" "input" "" rfl rfl
      (by decide)).2.1.trans (by decide),
   (cli_filter_order tracePackages traceConfig traceArgs "french" "input" "" rfl rfl
      (by decide)).2.2.1.trans (by decide)⟩

/-! ## Synonyms filter: one iteration of the loop of `next` -/

/-- C21 (greedy one-token slide).  In an iteration of the loop of `next` in
which `wordrun` returns a run that is not empty and the trie reports no match
for it, the first token of the buffer, which is the first token of the run and
a word, is moved to the back of `outgoing` unchanged, nothing else leaves the
buffer, and the loop goes on from the state with the rest of the buffer.  When
moreover upstream ends without error and the matches of the trie consume at
least one token of the run, the loop is left with `outgoing` holding what it
held after `wordrun`, then that token, then what the loop emits for the rest of
the buffer and upstream; and the pull that ran the loop returns the first of
these tokens. -/
theorem synonyms_one_token_slide {τ : Type} (P : Policy) (ops : TrieOps τ)
    (t t1 t2 : tokens τ) (run : List Token)
    (hfill : t.fill = .value t1) (hrun : t1.wordrun = .value (run, t2)) (hne : run ≠ [])
    (hnf : (ops.SearchCanonical t2.filter.trie run).1 = false) :
    ∃ first rest, t2.buffer.Tokens = first :: rest ∧ run.head? = some first ∧
      first.isWord = true ∧
      t2.buffer.PopTo t2.outgoing
        = some ({ Tokens := rest }, { Tokens := t2.outgoing.Tokens ++ [first] }) ∧
      (∀ fuel, tokens.loop P ops (fuel + 1) t
        = tokens.loop P ops fuel
            { t2 with buffer := { Tokens := rest },
                      outgoing := { Tokens := t2.outgoing.Tokens ++ [first] } }) ∧
      (t.incoming.fail = none → WellBehaved (ops.SearchCanonical t.filter.trie) →
        ∀ fuel, rest.length + t2.incoming.pending.length < fuel →
        ∃ E B1 I1, tokens.loop P ops (fuel + 1) t
            = .value
              { incoming := { pending := I1, fail := none }, buffer := { Tokens := B1 },
                outgoing := { Tokens := t2.outgoing.Tokens ++ first :: E },
                filter := t.filter } ∧
          (∀ R, Segmented (ops.SearchCanonical t.filter.trie) (fun c => NewToken P c true)
              (B1 ++ I1) R →
            Segmented (ops.SearchCanonical t.filter.trie) (fun c => NewToken P c true)
              (rest ++ t2.incoming.pending) (E ++ R)) ∧
          E.length + B1.length + I1.length ≤ rest.length + t2.incoming.pending.length ∧
          (t.outgoing.Tokens = [] →
            ∃ hd tl, t2.outgoing.Tokens ++ first :: (E ++ B1) = hd :: tl ∧
              tokens.next P ops (fuel + 1) t
                = .value (some hd,
                    { incoming := { pending := I1, fail := none }, buffer := { Tokens := [] },
                      outgoing := { Tokens := tl }, filter := t.filter }))) := by
  obtain ⟨sp, run', rest', h1, _, _, _, _, h6, _⟩ := wordrun_run t1
  rw [hrun] at h1
  simp only [Run.value.injEq, Prod.mk.injEq] at h1
  obtain ⟨hr, ht2⟩ := h1
  subst hr
  obtain ⟨w, run1, hw, hword⟩ := h6 hne
  subst hw
  have hb : t2.buffer.Tokens = w :: (run1 ++ rest') := by rw [ht2]; rfl
  have hpop : t2.buffer.PopTo t2.outgoing
      = some ({ Tokens := run1 ++ rest' }, { Tokens := t2.outgoing.Tokens ++ [w] }) := by
    simp [TokenQueue.PopTo, TokenQueue.Pop, TokenQueue.Push, hb]
  have hloop : ∀ fuel, tokens.loop P ops (fuel + 1) t
      = tokens.loop P ops fuel
          { t2 with buffer := { Tokens := run1 ++ rest' },
                    outgoing := { Tokens := t2.outgoing.Tokens ++ [w] } } := by
    intro fuel
    conv_lhs => unfold tokens.loop
    simp only [hfill, hrun]
    rcases hsr : ops.SearchCanonical t2.filter.trie (w :: run1) with ⟨found, canonical, consumed⟩
    have hsr1 : (ops.SearchCanonical t2.filter.trie (w :: run1)).1 = found := by rw [hsr]
    have hfound : found = false := by rw [← hsr1]; exact hnf
    subst hfound
    simp only [TrieOps.SearchCanonical] at hsr1
    simp only [List.length_cons, Nat.add_one_ne_zero, if_false]
    rw [hsr1]
    simp only [Bool.false_eq_true, if_false, hpop]
  refine ⟨w, run1 ++ rest', hb, rfl, hword, hpop, hloop, ?_⟩
  intro hf hs fuel hfuel
  obtain ⟨pulled, restI, hfill', _, _⟩ := fill_spec t hf
  rw [hfill] at hfill'
  simp only [Run.value.injEq] at hfill'
  have hinc : t2.incoming = { pending := restI, fail := none } := by rw [ht2, hfill']
  have hfilter : t2.filter = t.filter := by rw [ht2, hfill']
  have hstate :
      ({ t2 with buffer := { Tokens := run1 ++ rest' },
                 outgoing := { Tokens := t2.outgoing.Tokens ++ [w] } } : tokens τ)
      = { incoming := { pending := restI, fail := none },
          buffer := { Tokens := run1 ++ rest' },
          outgoing := { Tokens := t2.outgoing.Tokens ++ [w] }, filter := t.filter } := by
    rw [← hinc, ← hfilter]
  have hpend : t2.incoming.pending = restI := by rw [hinc]
  rw [hpend] at hfuel ⊢
  obtain ⟨E, B1, I1, e1, e2, e3, _⟩ := loop_spec P ops t.filter hs fuel restI (run1 ++ rest')
    (t2.outgoing.Tokens ++ [w]) hfuel
  have hout : t2.outgoing.Tokens ++ [w] ++ E = t2.outgoing.Tokens ++ w :: E := by simp
  rw [hout] at e1
  have hres : tokens.loop P ops (fuel + 1) t
      = .value
        { incoming := { pending := I1, fail := none }, buffer := { Tokens := B1 },
          outgoing := { Tokens := t2.outgoing.Tokens ++ w :: E }, filter := t.filter } := by
    rw [hloop fuel, hstate]
    exact e1
  refine ⟨E, B1, I1, hres, e2, e3, ?_⟩
  intro hO
  obtain ⟨hd, tl, hcons⟩ : ∃ hd tl, t2.outgoing.Tokens ++ w :: (E ++ B1) = hd :: tl := by
    cases h : t2.outgoing.Tokens ++ w :: (E ++ B1) with
    | nil => simp at h
    | cons hd tl => exact ⟨hd, tl, rfl⟩
  refine ⟨hd, tl, hcons, ?_⟩
  have hany : t.outgoing.Any = false := by simp [TokenQueue.Any, hO]
  have hcons' : t2.outgoing.Tokens ++ w :: E ++ B1 = hd :: tl := by
    rw [← hcons]; simp
  unfold tokens.next
  rw [if_neg (by simp [hany]), hres]
  simp only [TokenQueue.FlushTo, hcons', TokenQueue.Any, List.length_cons, gt_iff_lt,
    Nat.zero_lt_succ, decide_True, if_true, TokenQueue.Pop]

/-- A witness of C21: the filter of `TestFilter` on "a, b"; "a" is no phrase of
the dictionary, it is moved to `outgoing` and the pull returns it. -/
theorem synonyms_one_token_slide_witness :
    commaStream.incoming.fail = none ∧
    WellBehaved (runeTrieOps.SearchCanonical commaStream.filter.trie) ∧
    tokens.next techPolicy runeTrieOps 5 commaStream
      = .value (some (word "a"),
          { incoming := { pending := [], fail := none }, buffer := { Tokens := [] },
            outgoing := { Tokens := [punctToken ",", spaceToken, word "b"] },
            filter := testFilter }) ∧
    ∃ first rest, ([word "a", punctToken ","] : List Token) = first :: rest ∧
      ([word "a"] : List Token).head? = some first ∧ first.isWord = true ∧
      TokenQueue.PopTo { Tokens := [word "a", punctToken ","] } {}
        = some ({ Tokens := rest }, { Tokens := [] ++ [first] }) ∧
      (∀ fuel, tokens.loop techPolicy runeTrieOps (fuel + 1) commaStream
        = tokens.loop techPolicy runeTrieOps fuel
            { incoming := { pending := [spaceToken, word "b"], fail := none },
              buffer := { Tokens := rest },
              outgoing := { Tokens := [] ++ [first] },
              filter := testFilter }) ∧
      (commaStream.incoming.fail = none →
        WellBehaved (runeTrieOps.SearchCanonical commaStream.filter.trie) →
        ∀ fuel, rest.length + [spaceToken, word "b"].length < fuel →
        ∃ E B1 I1, tokens.loop techPolicy runeTrieOps (fuel + 1) commaStream
            = .value
              { incoming := { pending := I1, fail := none }, buffer := { Tokens := B1 },
                outgoing := { Tokens := [] ++ first :: E },
                filter := commaStream.filter } ∧
          (∀ R, Segmented (runeTrieOps.SearchCanonical commaStream.filter.trie)
              (fun c => NewToken techPolicy c true) (B1 ++ I1) R →
            Segmented (runeTrieOps.SearchCanonical commaStream.filter.trie)
              (fun c => NewToken techPolicy c true) (rest ++ [spaceToken, word "b"]) (E ++ R)) ∧
          E.length + B1.length + I1.length ≤ rest.length + [spaceToken, word "b"].length ∧
          (commaStream.outgoing.Tokens = [] →
            ∃ hd tl, [] ++ first :: (E ++ B1) = hd :: tl ∧
              tokens.next techPolicy runeTrieOps (fuel + 1) commaStream
                = .value (some hd,
                    { incoming := { pending := I1, fail := none }, buffer := { Tokens := [] },
                      outgoing := { Tokens := tl }, filter := commaStream.filter }))) :=
  ⟨rfl, RuneTrie.wellBehaved _, by decide,
   synonyms_one_token_slide techPolicy runeTrieOps commaStream
    { commaStream with
      incoming := { pending := [spaceToken, word "b"], fail := none },
      buffer := { Tokens := [word "a", punctToken ","] } }
    { commaStream with
      incoming := { pending := [spaceToken, word "b"], fail := none },
      buffer := { Tokens := [word "a", punctToken ","] } }
    [word "a"] (by decide) (by decide) (by decide) (by decide)⟩

/-! ## Synonyms filter: termination -/

/-- One iteration of the loop of `next`, for a trie whose matches consume at
least one token of the run: the loop is left, or it goes on from a state in
which the buffer and upstream together hold fewer tokens. -/
theorem loop_iteration {τ : Type} (P : Policy) (ops : TrieOps τ) (f : Filter τ)
    (hs : WellBehaved (ops.SearchCanonical f.trie)) (I B O : List Token) :
    (∃ t1, ∀ fuel, tokens.loop P ops (fuel + 1)
        { incoming := { pending := I, fail := none }, buffer := { Tokens := B },
          outgoing := { Tokens := O }, filter := f } = .value t1) ∨
    (∃ I1 B1 O1, B1.length + I1.length < B.length + I.length ∧
      ∀ fuel, tokens.loop P ops (fuel + 1)
        { incoming := { pending := I, fail := none }, buffer := { Tokens := B },
          outgoing := { Tokens := O }, filter := f }
        = tokens.loop P ops fuel
          { incoming := { pending := I1, fail := none }, buffer := { Tokens := B1 },
            outgoing := { Tokens := O1 }, filter := f }) := by
  obtain ⟨pulled, rest, hfill, hI, _⟩ := fill_spec
    ({ incoming := { pending := I, fail := none }, buffer := { Tokens := B },
       outgoing := { Tokens := O }, filter := f } : tokens τ) rfl
  simp only at hfill hI
  obtain ⟨sp, run, rest2, hrun, hB, _, _, _, _, _⟩ := wordrun_run
    ({ incoming := { pending := rest, fail := none }, buffer := { Tokens := B ++ pulled },
       outgoing := { Tokens := O }, filter := f } : tokens τ)
  simp only at hrun hB
  have hlen : B.length + I.length = sp.length + run.length + rest2.length + rest.length := by
    have h1 := congrArg List.length hB
    have h2 := congrArg List.length hI
    simp at h1 h2
    omega
  by_cases hr : run.length = 0
  · left
    refine ⟨{ incoming := { pending := rest, fail := none }, buffer := { Tokens := run ++ rest2 },
              outgoing := { Tokens := O ++ sp }, filter := f }, fun fuel => ?_⟩
    conv_lhs => unfold tokens.loop
    simp only [hfill, hrun, hr, if_true]
  · right
    rcases hsr : ops.SearchCanonical f.trie run with ⟨found, canonical, consumed⟩
    have hsr1 : (ops.SearchCanonical f.trie run).1 = found := by rw [hsr]
    have hsr2 : (ops.SearchCanonical f.trie run).2.1 = canonical := by rw [hsr]
    have hsr3 : (ops.SearchCanonical f.trie run).2.2 = consumed := by rw [hsr]
    simp only [TrieOps.SearchCanonical] at hsr1 hsr2 hsr3
    cases found with
    | true =>
      have hwb := hs run (by rw [hsr])
      rw [hsr] at hwb
      simp only at hwb
      have hdrop : consumed ≤ (run ++ rest2).length := by simp; omega
      refine ⟨rest, (run ++ rest2).drop consumed,
        (if canonical ≠ "" then
          TokenQueue.Push { Tokens := O ++ sp } (NewToken P canonical true)
         else { Tokens := O ++ sp }).Tokens, ?_, fun fuel => ?_⟩
      · simp; omega
      · conv_lhs => unfold tokens.loop
        simp only [hfill, hrun, hr, if_false]
        rw [hsr1, hsr2, hsr3]
        simp only [if_true, TokenQueue.Drop, hdrop]
    | false =>
      cases run with
      | nil => simp at hr
      | cons a run1 =>
        refine ⟨rest, run1 ++ rest2, O ++ sp ++ [a], ?_, fun fuel => ?_⟩
        · simp at hlen ⊢; omega
        · conv_lhs => unfold tokens.loop
          simp only [hfill, hrun, hr, if_false]
          rw [hsr1]
          simp only [Bool.false_eq_true, if_false, TokenQueue.PopTo, TokenQueue.Pop,
            TokenQueue.Push, List.cons_append]

/-- With more iterations allowed than the buffer and upstream hold tokens,
`next` returns. -/
theorem next_returns {τ : Type} (P : Policy) (ops : TrieOps τ) (f : Filter τ)
    (hs : WellBehaved (ops.SearchCanonical f.trie)) (I B O : List Token) (fuel : Nat)
    (hfuel : B.length + I.length < fuel) :
    ∃ r, tokens.next P ops fuel
        { incoming := { pending := I, fail := none }, buffer := { Tokens := B },
          outgoing := { Tokens := O }, filter := f } = .value r := by
  unfold tokens.next
  cases O with
  | cons a O1 =>
    simp [TokenQueue.Any, TokenQueue.Pop]
  | nil =>
    obtain ⟨E, B1, I1, h1, _, _, _⟩ := loop_spec P ops f hs fuel I B [] hfuel
    simp only [TokenQueue.Any, List.length_nil, gt_iff_lt, lt_self_iff_false, decide_False,
      Bool.false_eq_true, if_false, h1, TokenQueue.FlushTo, List.nil_append]
    cases hEB : E ++ B1 with
    | nil => simp
    | cons a rest => simp [TokenQueue.Pop]

/-- A state on which the loop of `next` is never left: upstream has ended, the
buffer starts with a token that is no space, and the trie reports a match that
consumes nothing for the run `wordrun` takes. -/
theorem loop_stuck {τ : Type} (P : Policy) (ops : TrieOps τ) (f : Filter τ) (B : List Token)
    (canonical : String) (hsp : leadingSpaces B = 0)
    (hne : B.take (runEnd f.maxWords B 0 0 0) ≠ [])
    (hsr : ops.SearchCanonical f.trie (B.take (runEnd f.maxWords B 0 0 0))
      = (true, canonical, 0)) (fuel : Nat) :
    ∀ O : List Token, tokens.loop P ops fuel
        { incoming := { pending := [], fail := none }, buffer := { Tokens := B },
          outgoing := { Tokens := O }, filter := f } = .timeout := by
  induction fuel with
  | zero => intro O; rfl
  | succ n ih =>
    intro O
    have hsr1 : (ops.SearchCanonical f.trie (B.take (runEnd f.maxWords B 0 0 0))).1 = true := by
      rw [hsr]
    have hsr2 : (ops.SearchCanonical f.trie (B.take (runEnd f.maxWords B 0 0 0))).2.1
        = canonical := by rw [hsr]
    have hsr3 : (ops.SearchCanonical f.trie (B.take (runEnd f.maxWords B 0 0 0))).2.2 = 0 := by
      rw [hsr]
    simp only [TrieOps.SearchCanonical] at hsr1 hsr2 hsr3
    have hfill : tokens.fill
        ({ incoming := { pending := [], fail := none }, buffer := { Tokens := B },
           outgoing := { Tokens := O }, filter := f } : tokens τ)
        = .value
          { incoming := { pending := [], fail := none }, buffer := { Tokens := B },
            outgoing := { Tokens := O }, filter := f } := by
      unfold tokens.fill
      simp only [fillLoop, ite_self]
    have hlen : ¬ (B.take (runEnd f.maxWords B 0 0 0)).length = 0 := by
      intro h
      exact hne (List.length_eq_zero.mp h)
    unfold tokens.loop
    simp only [hfill, tokens.wordrun, hsp, TokenQueue.Drop, Nat.zero_le, if_true, List.drop_zero,
      List.take_zero, List.append_nil, hlen, if_false]
    rw [hsr1, hsr2, hsr3]
    simp only [if_true, List.drop_zero, Nat.zero_le]
    exact ih _

/-- C26 (termination of the synonym filter).  For a trie whose matches report
`1 ≤ consumed ≤ len(run)` and every upstream sequence: an iteration of the loop
of `next` leaves the loop or goes on with fewer tokens in the buffer and
upstream together, and `next` returns when given more iterations than these
tokens number.  For a trie that reports a match with `consumed = 0` for the run
taken from the buffer, upstream being at its end, the loop is never left: with
such a trie `next` does not return on the one-word input "a". -/
theorem synonyms_next_termination :
    (∀ {τ : Type} (P : Policy) (ops : TrieOps τ) (f : Filter τ),
      WellBehaved (ops.SearchCanonical f.trie) → ∀ (I B O : List Token),
      ((∃ t1, ∀ fuel, tokens.loop P ops (fuel + 1)
          { incoming := { pending := I, fail := none }, buffer := { Tokens := B },
            outgoing := { Tokens := O }, filter := f } = .value t1) ∨
       (∃ I1 B1 O1, B1.length + I1.length < B.length + I.length ∧
          ∀ fuel, tokens.loop P ops (fuel + 1)
            { incoming := { pending := I, fail := none }, buffer := { Tokens := B },
              outgoing := { Tokens := O }, filter := f }
            = tokens.loop P ops fuel
              { incoming := { pending := I1, fail := none }, buffer := { Tokens := B1 },
                outgoing := { Tokens := O1 }, filter := f })) ∧
      ∀ fuel, B.length + I.length < fuel →
        ∃ r, tokens.next P ops fuel
          { incoming := { pending := I, fail := none }, buffer := { Tokens := B },
            outgoing := { Tokens := O }, filter := f } = .value r) ∧
    (∀ {τ : Type} (P : Policy) (ops : TrieOps τ) (f : Filter τ) (B : List Token)
      (canonical : String), leadingSpaces B = 0 →
      B.take (runEnd f.maxWords B 0 0 0) ≠ [] →
      ops.SearchCanonical f.trie (B.take (runEnd f.maxWords B 0 0 0)) = (true, canonical, 0) →
      ∀ fuel, tokens.next P ops fuel
          { incoming := { pending := [], fail := none }, buffer := { Tokens := B },
            outgoing := { Tokens := [] }, filter := f } = .timeout) ∧
    (∀ fuel, tokens.next techPolicy stuckOps fuel
        (Filter.Filter { trie := (), maxWords := 1 } { pending := [word "a"], fail := none })
      = .timeout) := by
  refine ⟨fun P ops f hs I B O =>
    ⟨loop_iteration P ops f hs I B O, fun fuel hfuel => next_returns P ops f hs I B O fuel hfuel⟩,
    ?_, ?_⟩
  · intro τ P ops f B canonical hsp hne hsr fuel
    unfold tokens.next
    simp only [TokenQueue.Any, List.length_nil, gt_iff_lt, lt_self_iff_false, decide_False,
      Bool.false_eq_true, if_false, loop_stuck P ops f B canonical hsp hne hsr fuel []]
  · have hloop : ∀ fuel, tokens.loop techPolicy stuckOps fuel
        (Filter.Filter { trie := (), maxWords := 1 } { pending := [word "a"], fail := none })
        = .timeout := by
      intro fuel
      cases fuel with
      | zero => rfl
      | succ n =>
        have h := loop_stuck techPolicy stuckOps { trie := (), maxWords := 1 } [word "a"] ""
          (by decide) (by decide) rfl n []
        unfold tokens.loop
        have hfill : tokens.fill
            (Filter.Filter ({ trie := (), maxWords := 1 } : Filter Unit)
              { pending := [word "a"], fail := none })
            = .value
              { incoming := { pending := [], fail := none }, buffer := { Tokens := [word "a"] },
                outgoing := {}, filter := { trie := (), maxWords := 1 } } := by
          decide
        have hrun : tokens.wordrun
            ({ incoming := { pending := [], fail := none }, buffer := { Tokens := [word "a"] },
               outgoing := {}, filter := { trie := (), maxWords := 1 } } : tokens Unit)
            = .value ([word "a"],
              { incoming := { pending := [], fail := none }, buffer := { Tokens := [word "a"] },
                outgoing := {}, filter := { trie := (), maxWords := 1 } }) := by
          decide
        simp only [hfill, hrun, stuckOps, List.length_cons, List.length_nil,
          Nat.add_one_ne_zero, if_false, if_true, ne_eq, not_true_eq_false, TokenQueue.Drop,
          Nat.zero_le, List.drop_zero]
        exact h
    intro fuel
    simp only [tokens.next, Filter.Filter, TokenQueue.Any, List.length_nil, gt_iff_lt,
      lt_self_iff_false, decide_False, Bool.false_eq_true, if_false]
    have h2 := hloop fuel
    simp only [Filter.Filter] at h2
    rw [h2]

/-- A witness of C26: the filter of `TestFilter` on "ruby on rails"; six
iterations are more than the five tokens upstream. -/
theorem synonyms_next_termination_witness :
    WellBehaved (runeTrieOps.SearchCanonical testFilter.trie) ∧
    ∃ r, tokens.next techPolicy runeTrieOps 6
        { incoming := { pending := rubyTokens, fail := none }, buffer := { Tokens := [] },
          outgoing := { Tokens := [] }, filter := testFilter } = .value r :=
  ⟨RuneTrie.wellBehaved testFilter.trie,
   (synonyms_next_termination.1 techPolicy runeTrieOps testFilter
      (RuneTrie.wellBehaved testFilter.trie) rubyTokens [] []).2 6 (by decide)⟩

/-! ## Synonyms filter: the words in the buffer -/

theorem countWords_drop_le (n : Nat) (B : List Token) : countWords (B.drop n) ≤ countWords B := by
  have h := countWords_append (B.take n) (B.drop n)
  rw [List.take_append_drop] at h
  omega

theorem fill_filter {τ : Type} (t t1 : tokens τ) (h : t.fill = .value t1) :
    t1.filter = t.filter ∧
    (countWords t.buffer.Tokens ≤ t.filter.maxWords →
      countWords t1.buffer.Tokens ≤ t.filter.maxWords) := by
  unfold tokens.fill at h
  simp only at h
  cases hfl : fillLoop t.filter.maxWords t.incoming.fail t.incoming.pending
      (t.buffer.Tokens.countP (fun token => !token.IsPunct && !token.IsSpace)) t.buffer with
  | value r =>
    obtain ⟨inc, B1⟩ := r
    rw [hfl] at h
    simp only [Run.value.injEq] at h
    subst h
    refine ⟨rfl, fun hle => ?_⟩
    exact (countWords_le_of_fillLoop t.filter.maxWords t.incoming.fail t.incoming.pending _
      t.buffer inc B1 hfl (countP_words_eq _) hle).1
  | failed e => rw [hfl] at h; exact absurd h (by simp)
  | panicked => rw [hfl] at h; exact absurd h (by simp)
  | timeout => rw [hfl] at h; exact absurd h (by simp)

theorem wordrun_filter {τ : Type} (t t2 : tokens τ) (run : List Token)
    (h : t.wordrun = .value (run, t2)) :
    t2.filter = t.filter ∧ countWords t2.buffer.Tokens ≤ countWords t.buffer.Tokens := by
  obtain ⟨sp, run', rest, h1, h2, _⟩ := wordrun_run t
  rw [h] at h1
  simp only [Run.value.injEq, Prod.mk.injEq] at h1
  obtain ⟨_, ht2⟩ := h1
  subst ht2
  refine ⟨rfl, ?_⟩
  simp only
  rw [h2, countWords_append sp]
  omega

/-- At every state a filtered stream goes through, the buffer holds at most
`maxWords` words. -/
theorem Visited.words {τ : Type} {f : Filter τ} {t : tokens τ} (h : Visited f t) :
    t.filter = f ∧ countWords t.buffer.Tokens ≤ f.maxWords := by
  induction h with
  | start incoming => exact ⟨rfl, by simp [Filter.Filter, countWords]⟩
  | fill _ hfill ih =>
    obtain ⟨h1, h2⟩ := fill_filter _ _ hfill
    rw [ih.1] at h1 h2
    exact ⟨h1, h2 ih.2⟩
  | wordrun _ hrun ih =>
    obtain ⟨h1, h2⟩ := wordrun_filter _ _ _ hrun
    exact ⟨h1.trans ih.1, le_trans h2 ih.2⟩
  | drop n buffer outgoing _ hdrop ih =>
    refine ⟨ih.1, ?_⟩
    simp only [TokenQueue.Drop] at hdrop
    split at hdrop
    · simp only [Option.some.injEq] at hdrop
      rw [← hdrop]
      exact le_trans (countWords_drop_le n _) ih.2
    · exact absurd hdrop (by simp)
  | popTo buffer outgoing _ hpop ih =>
    refine ⟨ih.1, ?_⟩
    simp only [TokenQueue.PopTo, TokenQueue.Pop] at hpop
    split at hpop
    · exact absurd hpop (by simp)
    · rename_i token q' hq
      split at hq
      · exact absurd hq (by simp)
      · rename_i a rest hB
        simp only [Option.some.injEq, Prod.mk.injEq] at hq hpop
        rw [← hpop.1, ← hq.2]
        have := countWords_drop_le 1 (a :: rest)
        simp only [List.drop_succ_cons, List.drop_zero] at this
        rw [hB] at ih
        exact le_trans this ih.2
  | flushTo _ ih => exact ⟨ih.1, by simp [TokenQueue.FlushTo, countWords]⟩
  | pop token outgoing _ _ ih => exact ih

/-- The loop of `next` goes through visited states only. -/
theorem Visited.loop {τ : Type} {f : Filter τ} (P : Policy) (ops : TrieOps τ) (fuel : Nat) :
    ∀ (t t1 : tokens τ), Visited f t → tokens.loop P ops fuel t = .value t1 → Visited f t1 := by
  induction fuel with
  | zero => intro t t1 _ h; simp [tokens.loop] at h
  | succ n ih =>
    intro t t1 hv h
    unfold tokens.loop at h
    cases hfill : t.fill with
    | value ta =>
      rw [hfill] at h
      simp only at h
      have hva := Visited.fill hv hfill
      cases hrun : ta.wordrun with
      | value r =>
        obtain ⟨run, tb⟩ := r
        rw [hrun] at h
        simp only at h
        have hvb := Visited.wordrun hva hrun
        by_cases hr : run.length = 0
        · rw [if_pos hr] at h
          simp only [Run.value.injEq] at h
          rw [← h]
          exact hvb
        · rw [if_neg hr] at h
          rcases hsr : ops.SearchCanonical tb.filter.trie run with ⟨found, canonical, consumed⟩
          have hsr1 : (ops.SearchCanonical tb.filter.trie run).1 = found := by rw [hsr]
          have hsr2 : (ops.SearchCanonical tb.filter.trie run).2.1 = canonical := by rw [hsr]
          have hsr3 : (ops.SearchCanonical tb.filter.trie run).2.2 = consumed := by rw [hsr]
          simp only [TrieOps.SearchCanonical] at hsr1 hsr2 hsr3
          rw [hsr1, hsr2, hsr3] at h
          cases found with
          | true =>
            simp only [if_true] at h
            cases hdrop : tb.buffer.Drop consumed with
            | none => rw [hdrop] at h; exact absurd h (by simp)
            | some buffer =>
              rw [hdrop] at h
              exact ih _ t1 (Visited.drop consumed buffer _ hvb hdrop) h
          | false =>
            simp only [Bool.false_eq_true, if_false] at h
            cases hpop : tb.buffer.PopTo tb.outgoing with
            | none => rw [hpop] at h; exact absurd h (by simp)
            | some r =>
              obtain ⟨buffer, outgoing⟩ := r
              rw [hpop] at h
              exact ih _ t1 (Visited.popTo buffer outgoing hvb hpop) h
      | failed e => rw [hrun] at h; exact absurd h (by simp)
      | panicked => rw [hrun] at h; exact absurd h (by simp)
      | timeout => rw [hrun] at h; exact absurd h (by simp)
    | failed e => rw [hfill] at h; exact absurd h (by simp)
    | panicked => rw [hfill] at h; exact absurd h (by simp)
    | timeout => rw [hfill] at h; exact absurd h (by simp)

/-- A pull of the filtered stream leaves a visited state. -/
theorem Visited.next {τ : Type} {f : Filter τ} (P : Policy) (ops : TrieOps τ) (fuel : Nat)
    (t t1 : tokens τ) (token : Option Token) (hv : Visited f t)
    (h : tokens.next P ops fuel t = .value (token, t1)) : Visited f t1 := by
  unfold tokens.next at h
  by_cases hany : t.outgoing.Any = true
  · rw [if_pos hany] at h
    cases hpop : t.outgoing.Pop with
    | none => rw [hpop] at h; exact absurd h (by simp)
    | some r =>
      obtain ⟨tok, outgoing⟩ := r
      rw [hpop] at h
      simp only [Run.value.injEq, Prod.mk.injEq] at h
      rw [← h.2]
      exact Visited.pop tok outgoing hv hpop
  · rw [if_neg hany] at h
    cases hloop : tokens.loop P ops fuel t with
    | value ta =>
      rw [hloop] at h
      simp only at h
      have hva := Visited.loop P ops fuel t ta hv hloop
      have hvf := Visited.flushTo hva
      split at h
      · cases hpop : (ta.buffer.FlushTo ta.outgoing).2.Pop with
        | none => rw [hpop] at h; exact absurd h (by simp)
        | some r =>
          obtain ⟨tok, outgoing⟩ := r
          rw [hpop] at h
          simp only [Run.value.injEq, Prod.mk.injEq] at h
          rw [← h.2]
          exact Visited.pop tok outgoing hvf hpop
      · simp only [Run.value.injEq, Prod.mk.injEq] at h
        rw [← h.2]
        exact hvf
    | failed e => rw [hloop] at h; exact absurd h (by simp)
    | panicked => rw [hloop] at h; exact absurd h (by simp)
    | timeout => rw [hloop] at h; exact absurd h (by simp)

/-- C27 (buffer word-count invariant).  From the empty buffer on, at every
state that `next`, `fill` and `wordrun` go through, whatever the trie reports
and whatever `maxWords` is, the words in the lookahead buffer number at most
`maxWords`; every pull and every run of the loop of `next` stays within these
states. -/
theorem synonyms_buffer_words {τ : Type} (f : Filter τ) :
    (∀ incoming : Tokens, Visited f (f.Filter incoming)) ∧
    (∀ t, Visited f t → t.filter = f ∧ countWords t.buffer.Tokens ≤ f.maxWords) ∧
    (∀ (P : Policy) (ops : TrieOps τ) (fuel : Nat) (t t1 : tokens τ),
      Visited f t → tokens.loop P ops fuel t = .value t1 → Visited f t1) ∧
    (∀ (P : Policy) (ops : TrieOps τ) (fuel : Nat) (t t1 : tokens τ) (token : Option Token),
      Visited f t → tokens.next P ops fuel t = .value (token, t1) →
      Visited f t1 ∧ countWords t1.buffer.Tokens ≤ f.maxWords) :=
  ⟨Visited.start, fun _ h => h.words, fun P ops fuel t t1 hv h => Visited.loop P ops fuel t t1 hv h,
   fun P ops fuel t t1 token hv h =>
     ⟨Visited.next P ops fuel t t1 token hv h, (Visited.next P ops fuel t t1 token hv h).words.2⟩⟩

/-! ## `NewFilter`: the phrases of the dictionary -/

theorem dropWhile_space_of_head (b : Token) (seg : List Token) (hb : b.IsSpace = false) :
    List.dropWhile Token.IsSpace (b :: seg) = b :: seg := by
  simp [List.dropWhile, hb]

/-- The loop over the tokens of one key, followed by the `Add` after it, adds
the phrases of what is left of the key, the first of them continuing the piece
`pre.drop st.start` read so far. -/
theorem phraseLoop_spec {τ : Type} (ops : TrieOps τ) (toks : List Token) (canonical : String) :
    ∀ (rest pre : List Token) (st : phraseState τ), toks = pre ++ rest →
      st.start ≤ pre.length → (st.skipSpaces = true → st.start = pre.length) →
      (st.skipSpaces = false → ∃ b seg, pre.drop st.start = b :: seg ∧ b.IsSpace = false) →
      (∀ token ∈ rest, isComma token = true → token.IsSpace = false) →
      (ops.Add (phraseLoop ops toks canonical rest pre.length st).trie
          (toks.drop (phraseLoop ops toks canonical rest pre.length st).start) canonical,
        updateMaxWords (toks.drop (phraseLoop ops toks canonical rest pre.length st).start)
          (phraseLoop ops toks canonical rest pre.length st).maxWords)
      = (((rest.splitOnP isComma).modifyHead (fun s => pre.drop st.start ++ s)).map
            (fun phrase => (List.dropWhile Token.IsSpace phrase, canonical))).foldl
          (addPhrase ops) (st.trie, st.maxWords) := by
  intro rest
  induction rest with
  | nil =>
    intro pre st htoks hstart hskip hns _
    have hseg : List.dropWhile Token.IsSpace (pre.drop st.start) = pre.drop st.start := by
      cases hsk : st.skipSpaces with
      | true =>
        rw [hskip hsk]
        simp
      | false =>
        obtain ⟨b, seg, h1, h2⟩ := hns hsk
        rw [h1]
        exact dropWhile_space_of_head b seg h2
    simp only [List.append_nil] at htoks
    subst htoks
    simp [phraseLoop, List.splitOnP_nil, addPhrase, hseg]
  | cons a rest ih =>
    intro pre st htoks hstart hskip hns hcomma
    have htoks' : toks = (pre ++ [a]) ++ rest := by rw [htoks]; simp
    have hlen : (pre ++ [a]).length = pre.length + 1 := by simp
    obtain ⟨s, ss, hsplit⟩ : ∃ s ss, rest.splitOnP isComma = s :: ss := by
      cases h : rest.splitOnP isComma with
      | nil => exact absurd h (List.splitOnP_ne_nil _ _)
      | cons s ss => exact ⟨s, ss, rfl⟩
    have hcomma' : ∀ token ∈ rest, isComma token = true → token.IsSpace = false :=
      fun token ht => hcomma token (List.mem_cons_of_mem a ht)
    unfold phraseLoop
    by_cases hsp : (st.skipSpaces && a.IsSpace) = true
    · rw [if_pos hsp]
      simp only [Bool.and_eq_true] at hsp
      have hnc : isComma a = false := by
        cases hc : isComma a with
        | false => rfl
        | true =>
          have := hcomma a (List.mem_cons_self a rest) hc
          rw [hsp.2] at this
          exact absurd this (by simp)
      have hst : st.start = pre.length := hskip hsp.1
      have h := ih (pre ++ [a]) { st with start := st.start + 1 } htoks'
        (by simp; omega) (fun _ => by simp; omega) (fun hf => by simp [hsp.1] at hf) hcomma'
      rw [hlen] at h
      rw [h, List.splitOnP_cons, hnc, hsplit]
      simp only [Bool.false_eq_true, if_false, List.modifyHead_cons, List.map_cons]
      have h1 : List.drop (st.start + 1) (pre ++ [a]) = [] := by
        apply List.drop_eq_nil_of_le
        simp; omega
      have h2 : List.drop st.start pre = [] := by
        apply List.drop_eq_nil_of_le
        omega
      simp only [h1, h2, List.nil_append]
      congr 3
      simp [List.dropWhile, hsp.2]
    · rw [if_neg hsp]
      have hpre : toks.take pre.length = pre := by
        rw [htoks]
        simp
      by_cases hc : a.String = ","
      · rw [if_pos hc]
        have hic : isComma a = true := by simp [isComma, hc]
        have hseg : List.dropWhile Token.IsSpace (pre.drop st.start) = pre.drop st.start := by
          cases hsk : st.skipSpaces with
          | true =>
            rw [hskip hsk]
            simp
          | false =>
            obtain ⟨b, seg, h1, h2⟩ := hns hsk
            rw [h1]
            exact dropWhile_space_of_head b seg h2
        have h := ih (pre ++ [a])
          { trie := ops.Add st.trie ((toks.take pre.length).drop st.start) canonical,
            maxWords := updateMaxWords ((toks.take pre.length).drop st.start) st.maxWords,
            start := pre.length + 1, skipSpaces := true } htoks'
          (by simp) (fun _ => by simp) (fun hf => by simp at hf) hcomma'
        rw [hlen] at h
        simp only at h
        rw [h, List.splitOnP_cons, hic, hsplit]
        have h1 : List.drop (pre.length + 1) (pre ++ [a]) = [] := by
          apply List.drop_eq_nil_of_le
          simp
        simp only [if_true, List.modifyHead_cons, List.map_cons, List.foldl_cons, h1,
          List.nil_append, List.append_nil, hseg, addPhrase, hpre]
      · rw [if_neg hc]
        have hic : isComma a = false := by simp [isComma, hc]
        have hdrop : List.drop st.start (pre ++ [a]) = List.drop st.start pre ++ [a] :=
          List.drop_append_of_le_length hstart
        have h := ih (pre ++ [a]) { st with skipSpaces := false } htoks'
          (by simp; omega) (fun hf => by simp at hf)
          (fun _ => by
            simp only
            rw [hdrop]
            cases hsk : st.skipSpaces with
            | true =>
              have h2 : List.drop st.start pre = [] := by
                apply List.drop_eq_nil_of_le
                rw [hskip hsk]
              rw [h2]
              refine ⟨a, [], rfl, ?_⟩
              rw [hsk] at hsp
              simpa using hsp
            | false =>
              obtain ⟨b, seg, h1, h2⟩ := hns hsk
              rw [h1]
              exact ⟨b, seg ++ [a], rfl, h2⟩)
          hcomma'
        rw [hlen] at h
        simp only at h
        rw [h, List.splitOnP_cons, hic, hsplit, hdrop]
        simp only [Bool.false_eq_true, if_false, List.modifyHead_cons, List.map_cons,
          List.append_assoc, List.singleton_append]

theorem modifyHead_nil_append (l : List (List Token)) :
    l.modifyHead (fun s => [] ++ s) = l := by
  cases l <;> simp

/-- A comma token of a tokenized string is the token of the code point ",". -/
theorem keyTokens_comma (P : Policy) (hcomma : P.isSpace ',' = false) (s : String) :
    ∀ token ∈ keyTokens P s, isComma token = true → token.IsSpace = false := by
  intro tok htok hc
  obtain ⟨toks, h1, _, _, h4⟩ := tokenizer_ToSlice_shape P (s.data.length + 1)
    (newTokenizer s.data none) rfl (by simp [newTokenizer]) (by simp [newTokenizer])
  have hk : keyTokens P s = toks := by
    unfold keyTokens TokenizeString
    rw [h1]
  rw [hk] at htok
  obtain ⟨w, _, hw, _⟩ := h4 tok htok
  have hv : tok.value = String.mk w := by rw [hw]; exact token_value P w
  have hw1 : w = [','] := by
    have h2 : tok.value = "," := by simpa [isComma, Token.String] using hc
    rw [hv] at h2
    exact congrArg String.data h2
  rw [hw, hw1, token_single]
  exact hcomma

theorem keyTokens_eq (P : Policy) (s : String) : TokenizeString P s = .value (keyTokens P s) := by
  obtain ⟨toks, h1, _⟩ := tokenize_round_trip_aux P s
  unfold keyTokens
  rw [h1]

/-- The loop over the dictionary adds the phrases of its keys in order. -/
theorem mappingsLoop_phrases {τ : Type} (P : Policy) (ops : TrieOps τ)
    (hcomma : P.isSpace ',' = false) :
    ∀ (mappings : List (String × String)) (trie : τ) (k : Nat),
      mappingsLoop P ops mappings trie k
        = .value ((dictPhrases P mappings).foldl (addPhrase ops) (trie, k)) := by
  intro mappings
  induction mappings with
  | nil => intro trie k; rfl
  | cons entry rest ih =>
    intro trie k
    obtain ⟨synonyms, canonical⟩ := entry
    unfold mappingsLoop
    simp only [keyTokens_eq P synonyms]
    have h := phraseLoop_spec ops (keyTokens P synonyms) canonical (keyTokens P synonyms) []
      { trie := trie, maxWords := k, start := 0, skipSpaces := true } rfl (by simp)
      (fun _ => rfl) (fun hf => by simp at hf) (keyTokens_comma P hcomma synonyms)
    simp only [List.length_nil, List.drop_zero, modifyHead_nil_append] at h
    have h1 := congrArg Prod.fst h
    have h2 := congrArg Prod.snd h
    simp only at h1 h2
    rw [h1, h2, ih]
    simp only [dictPhrases, List.flatMap_cons, List.foldl_append, keyPhrases, List.map_map]
    rfl

theorem updateMaxWords_eq (slice : List Token) (k : Nat) :
    updateMaxWords slice k = max k (countWords slice) := by
  unfold updateMaxWords
  simp only [gt_iff_lt]
  split
  · rw [max_eq_right (by omega)]
  · rw [max_eq_left (by omega)]

theorem foldl_addPhrase_maxWords {τ : Type} (ops : TrieOps τ) (L : List (List Token × String)) :
    ∀ (trie : τ) (k : Nat), (L.foldl (addPhrase ops) (trie, k)).2
      = (L.map (fun entry => countWords entry.1)).foldl max k := by
  induction L with
  | nil => intro trie k; rfl
  | cons e L ih =>
    intro trie k
    simp only [List.foldl_cons, List.map_cons, addPhrase]
    rw [ih, updateMaxWords_eq]

theorem foldl_addPhrase_record (L : List (List Token × String)) :
    ∀ (trie : List (List Token × String)) (k : Nat),
      (L.foldl (addPhrase recordOps) (trie, k)).1 = trie ++ L := by
  induction L with
  | nil => intro trie k; simp
  | cons e L ih =>
    intro trie k
    simp only [List.foldl_cons, addPhrase]
    rw [ih]
    simp [recordOps]

theorem foldl_max_spec (L : List Nat) :
    ∀ k, k ≤ L.foldl max k ∧ (∀ x ∈ L, x ≤ L.foldl max k) ∧
      (L.foldl max k = k ∨ L.foldl max k ∈ L) := by
  induction L with
  | nil => intro k; simp
  | cons a L ih =>
    intro k
    obtain ⟨h1, h2, h3⟩ := ih (max k a)
    simp only [List.foldl_cons, List.mem_cons]
    refine ⟨le_trans (le_max_left k a) h1, ?_, ?_⟩
    · intro x hx
      rcases hx with hx | hx
      · rw [hx]; exact le_trans (le_max_right k a) h1
      · exact h2 x hx
    · rcases h3 with h3 | h3
      · rw [h3]
        rcases le_total k a with h | h
        · right; left; exact max_eq_right h
        · left; exact max_eq_left h
      · right; right; exact h3

theorem splitOnP_length (p : Token → Bool) (l : List Token) :
    (l.splitOnP p).length = l.countP p + 1 := by
  induction l with
  | nil => simp [List.splitOnP_nil]
  | cons a l ih =>
    rw [List.splitOnP_cons]
    cases hp : p a with
    | true => simp [hp, ih]
    | false =>
      cases h : l.splitOnP p with
      | nil => exact absurd h (List.splitOnP_ne_nil _ _)
      | cons s ss =>
        rw [h] at ih
        simp [hp] at ih ⊢
        omega

theorem splitOnP_no_sep (p : Token → Bool) (l : List Token) :
    ∀ piece ∈ l.splitOnP p, ∀ token ∈ piece, p token = false := by
  induction l with
  | nil => simp [List.splitOnP_nil]
  | cons a l ih =>
    rw [List.splitOnP_cons]
    cases hp : p a with
    | true =>
      intro piece hpiece
      simp only [if_true, List.mem_cons] at hpiece
      rcases hpiece with h | h
      · rw [h]; simp
      · exact ih piece h
    | false =>
      cases h : l.splitOnP p with
      | nil => exact absurd h (List.splitOnP_ne_nil _ _)
      | cons s ss =>
        rw [h] at ih
        intro piece hpiece
        simp only [Bool.false_eq_true, if_false, List.modifyHead_cons, List.mem_cons] at hpiece
        rcases hpiece with h1 | h1
        · rw [h1]
          intro token ht
          rcases List.mem_cons.1 ht with h2 | h2
          · rw [h2]; exact hp
          · exact ih s (List.mem_cons_self s ss) token h2
        · exact ih piece (List.mem_cons_of_mem s h1)

theorem dropWhile_head_not (p : Token → Bool) (l : List Token) :
    ∀ a rest, l.dropWhile p = a :: rest → p a = false := by
  induction l with
  | nil => simp
  | cons b l ih =>
    intro a rest h
    rw [List.dropWhile_cons] at h
    split at h
    · exact ih a rest h
    · rename_i hb
      simp only [List.cons.injEq] at h
      rw [← h.1]
      simpa using hb

/-- C22 (dictionary format), an input on which it fails.  In the key "a,  b"
two spaces follow the comma and `NewFilter` removes both: the phrases added are
"a" and "b", not "a" and " b".  In the key "1,000, b" the first comma is inside
a word token and is no phrase boundary. -/
theorem newFilter_spaces_after_comma :
    NewFilter techPolicy recordOps [("a,  b", "x")] false []
      = .value { trie := [([word "a"], "x"), ([word "b"], "x")], maxWords := 1 } ∧
    NewFilter techPolicy recordOps [("1,000, b", "k")] false []
      = .value { trie := [([word "1,000"], "k"), ([word "b"], "k")], maxWords := 1 } := by
  decide

/-- C22 (dictionary format), amended.  For every dictionary, `NewFilter` adds to
the trie, in order, the phrases of each key with the canonical string of the
entry: the tokens of the key are cut at every comma token, which gives one
phrase more than there are comma tokens, and all the space tokens at the front
of a piece, those that lead the key or follow a comma, are left out, however
many they are; no other token is removed. -/
theorem newFilter_phrases {τ : Type} (P : Policy) (ops : TrieOps τ)
    (mappings : List (String × String)) (ignoreCase : Bool) (ignoreRunes : List Char)
    (hcomma : P.isSpace ',' = false) :
    NewFilter P ops mappings ignoreCase ignoreRunes
      = .value
        { trie := ((dictPhrases P mappings).foldl (addPhrase ops)
            (ops.New ignoreCase ignoreRunes, 1)).1,
          maxWords := ((dictPhrases P mappings).foldl (addPhrase ops)
            (ops.New ignoreCase ignoreRunes, 1)).2 } ∧
    (NewFilter P recordOps mappings ignoreCase ignoreRunes).map (fun f => f.trie)
      = .value (dictPhrases P mappings) ∧
    (∀ toks : List Token,
      (keyPhrases toks).length = toks.countP isComma + 1 ∧
      (∀ phrase ∈ keyPhrases toks, ∀ token ∈ phrase, isComma token = false) ∧
      (∀ phrase ∈ keyPhrases toks, ∀ a rest, phrase = a :: rest → a.IsSpace = false) ∧
      ∀ piece ∈ toks.splitOnP isComma, ∀ a rest, piece = a :: rest → a.IsSpace = false →
        piece ∈ keyPhrases toks) := by
  have hgen : ∀ {σ : Type} (o : TrieOps σ), NewFilter P o mappings ignoreCase ignoreRunes
      = .value
        { trie := ((dictPhrases P mappings).foldl (addPhrase o)
            (o.New ignoreCase ignoreRunes, 1)).1,
          maxWords := ((dictPhrases P mappings).foldl (addPhrase o)
            (o.New ignoreCase ignoreRunes, 1)).2 } := by
    intro σ o
    unfold NewFilter
    rw [mappingsLoop_phrases P o hcomma]
  refine ⟨hgen ops, ?_, ?_⟩
  · rw [hgen recordOps]
    simp only [Run.map, foldl_addPhrase_record]
    simp [recordOps]
  · intro toks
    refine ⟨by simp [keyPhrases, splitOnP_length], ?_, ?_, ?_⟩
    · intro phrase hphrase token htoken
      simp only [keyPhrases, List.mem_map] at hphrase
      obtain ⟨piece, hpiece, hdw⟩ := hphrase
      rw [← hdw] at htoken
      exact splitOnP_no_sep isComma toks piece hpiece token
        ((List.dropWhile_sublist _).subset htoken)
    · intro phrase hphrase a rest ha
      simp only [keyPhrases, List.mem_map] at hphrase
      obtain ⟨piece, _, hdw⟩ := hphrase
      rw [← hdw] at ha
      exact dropWhile_head_not Token.IsSpace piece a rest ha
    · intro piece hpiece a rest ha hsp
      simp only [keyPhrases, List.mem_map]
      refine ⟨piece, hpiece, ?_⟩
      rw [ha]
      exact dropWhile_space_of_head a rest hsp

/-- A witness of C22 as amended: the dictionary of `TestFilter`. -/
theorem newFilter_phrases_witness :
    techPolicy.isSpace ',' = false ∧
    (NewFilter techPolicy recordOps testMappings true testIgnore).map (fun f => f.trie)
      = .value (dictPhrases techPolicy testMappings) :=
  ⟨by decide,
   (newFilter_phrases techPolicy recordOps testMappings true testIgnore (by decide)).2.1⟩

/-- C23 (`maxWords`).  `NewFilter` returns a filter whose `maxWords` is the
greatest of 1 and the word counts, the tokens that are neither space nor
punctuation, of the phrases added to the trie: it is at least 1, at least the
word count of every phrase, and it is 1 or the word count of some phrase; for
the empty dictionary it is 1. -/
theorem newFilter_maxWords {τ : Type} (P : Policy) (ops : TrieOps τ)
    (mappings : List (String × String)) (ignoreCase : Bool) (ignoreRunes : List Char)
    (hcomma : P.isSpace ',' = false) :
    (∃ f, NewFilter P ops mappings ignoreCase ignoreRunes = .value f ∧
      f.maxWords = ((dictPhrases P mappings).map (fun entry => countWords entry.1)).foldl max 1 ∧
      1 ≤ f.maxWords ∧
      (∀ entry ∈ dictPhrases P mappings, countWords entry.1 ≤ f.maxWords) ∧
      (f.maxWords = 1 ∨ ∃ entry ∈ dictPhrases P mappings, countWords entry.1 = f.maxWords)) ∧
    NewFilter P ops [] ignoreCase ignoreRunes
      = .value { trie := ops.New ignoreCase ignoreRunes, maxWords := 1 } := by
  refine ⟨?_, rfl⟩
  obtain ⟨h1, h2, h3⟩ := foldl_max_spec
    ((dictPhrases P mappings).map (fun entry => countWords entry.1)) 1
  refine ⟨_, by unfold NewFilter; rw [mappingsLoop_phrases P ops hcomma], ?_, ?_, ?_, ?_⟩
  · exact foldl_addPhrase_maxWords ops _ _ _
  · simp only [foldl_addPhrase_maxWords]
    exact h1
  · intro entry hentry
    simp only [foldl_addPhrase_maxWords]
    exact h2 _ (List.mem_map.2 ⟨entry, hentry, rfl⟩)
  · simp only [foldl_addPhrase_maxWords]
    rcases h3 with h3 | h3
    · exact Or.inl h3
    · obtain ⟨entry, hentry, he⟩ := List.mem_map.1 h3
      exact Or.inr ⟨entry, hentry, he⟩

/-- A witness of C23: the dictionary of `TestFilter`, whose longest phrase,
"Ruby on Rails", has three words. -/
theorem newFilter_maxWords_witness :
    techPolicy.isSpace ',' = false ∧
    ∃ f, NewFilter techPolicy runeTrieOps testMappings true testIgnore = .value f ∧
      f.maxWords = 3 :=
  ⟨by decide,
   (newFilter_maxWords techPolicy runeTrieOps testMappings true testIgnore (by decide)).1.elim
     (fun f h => ⟨f, h.1, h.2.1.trans (by decide)⟩)⟩

/-! ## Lemmatizer: the n-grams -/

theorem drop_eq_cons_of_get? (l : List Token) (i : Nat) (a : Token) (h : l.get? i = some a) :
    l.drop i = a :: l.drop (i + 1) := by
  induction l generalizing i with
  | nil => simp at h
  | cons b l ih =>
    cases i with
    | zero =>
      simp at h
      simp [h]
    | succ i =>
      simp at h
      simpa using ih i (by simpa using h)

theorem lt_length_of_get? (l : List Token) (i : Nat) (a : Token) (h : l.get? i = some a) :
    i < l.length := by
  by_contra hc
  rw [List.get?_eq_none.2 (by omega)] at h
  exact absurd h (by simp)

/-- What `wordrun` has done when it returns `ok`: it has consumed a stretch of
tokens that holds no punctuation, and taken the tokens of it that are no
spaces, `take` of them at least. -/
theorem wordrunLoop_ok (tokens : List Token) (skip : Nat) (take : Int) (fuel : Nat) :
    ∀ (taken : List Token) (consumed : Nat) (run : List Token) (c : Nat),
      wordrunLoop tokens skip take fuel taken consumed = .value (run, c, true) →
      skip + consumed ≤ tokens.length →
      consumed ≤ c ∧ skip + c ≤ tokens.length ∧ take ≤ (run.length : Int) ∧
      (∀ token ∈ (tokens.drop (skip + consumed)).take (c - consumed), token.IsPunct = false) ∧
      run = taken ++ ((tokens.drop (skip + consumed)).take (c - consumed)).filter
        (fun token => !token.IsSpace) := by
  induction fuel with
  | zero => intro taken consumed run c h; simp [wordrunLoop] at h
  | succ n ih =>
    intro taken consumed run c h hle
    unfold wordrunLoop at h
    by_cases ht : (taken.length : Int) < take
    · rw [if_pos ht] at h
      simp only at h
      cases hget : tokens.get? (skip + consumed) with
      | none => rw [hget] at h; exact absurd h (by simp)
      | some candidate =>
        rw [hget] at h
        simp only at h
        have hlt := lt_length_of_get? tokens _ candidate hget
        have hdrop := drop_eq_cons_of_get? tokens _ candidate hget
        by_cases hp : candidate.IsPunct = true
        · rw [if_pos hp] at h
          simp at h
        · rw [if_neg hp] at h
          have hpf : candidate.IsPunct = false := by simpa using hp
          have key : ∀ taken', wordrunLoop tokens skip take n taken' (consumed + 1)
                = .value (run, c, true) →
              (taken' = taken ++ [candidate].filter (fun token => !token.IsSpace)) →
              consumed ≤ c ∧ skip + c ≤ tokens.length ∧ take ≤ (run.length : Int) ∧
              (∀ token ∈ (tokens.drop (skip + consumed)).take (c - consumed),
                token.IsPunct = false) ∧
              run = taken ++ ((tokens.drop (skip + consumed)).take (c - consumed)).filter
                (fun token => !token.IsSpace) := by
            intro taken' h' htaken
            obtain ⟨h1, h2, h3, h4, h5⟩ := ih taken' (consumed + 1) run c h' (by omega)
            have hc : c - consumed = (c - (consumed + 1)) + 1 := by omega
            refine ⟨by omega, h2, h3, ?_, ?_⟩
            · rw [hdrop, hc, List.take_succ_cons]
              intro token htoken
              rcases List.mem_cons.1 htoken with h6 | h6
              · rw [h6]; exact hpf
              · exact h4 token (by rw [← Nat.add_assoc]; exact h6)
            · rw [hdrop, hc, List.take_succ_cons, h5, htaken, List.filter_cons]
              simp only [List.filter_cons, List.filter_nil, ← Nat.add_assoc]
              split <;> simp
          by_cases hs : candidate.IsSpace = true
          · rw [if_pos hs] at h
            exact key taken h (by simp [hs])
          · rw [if_neg hs] at h
            exact key (taken ++ [candidate]) h (by simp [hs])
    · rw [if_neg ht] at h
      simp only [Run.value.injEq, Prod.mk.injEq, and_true] at h
      obtain ⟨h1, h2⟩ := h
      subst h1; subst h2
      refine ⟨le_refl _, hle, by omega, by simp, by simp⟩

/-- With one iteration allowed per token and one more, `wordrun` returns or
panics. -/
theorem wordrunLoop_outcome (tokens : List Token) (skip : Nat) (take : Int) (fuel : Nat) :
    ∀ (taken : List Token) (consumed : Nat), skip + consumed ≤ tokens.length →
      tokens.length < fuel + (skip + consumed) →
      wordrunLoop tokens skip take fuel taken consumed = .panicked ∨
      ∃ r, wordrunLoop tokens skip take fuel taken consumed = .value r := by
  induction fuel with
  | zero => intro taken consumed h1 h2; omega
  | succ n ih =>
    intro taken consumed h1 h2
    unfold wordrunLoop
    by_cases ht : (taken.length : Int) < take
    · rw [if_pos ht]
      simp only
      cases hget : tokens.get? (skip + consumed) with
      | none => exact Or.inl rfl
      | some candidate =>
        simp only
        have hlt := lt_length_of_get? tokens _ candidate hget
        by_cases hp : candidate.IsPunct = true
        · rw [if_pos hp]
          exact Or.inr ⟨_, rfl⟩
        · rw [if_neg hp]
          by_cases hs : candidate.IsSpace = true
          · rw [if_pos hs]
            exact ih _ _ (by omega) (by omega)
          · rw [if_neg hs]
            exact ih _ _ (by omega) (by omega)
    · rw [if_neg ht]
      exact Or.inr ⟨_, rfl⟩

/-- At a word, the run of one word is that word. -/
theorem wordrun_single (tokens : List Token) (pos : Nat) (w : Token)
    (hget : tokens.get? pos = some w) (hp : w.IsPunct = false) (hs : w.IsSpace = false) :
    wordrun tokens pos 1 = .value ([w], 1, true) := by
  have hlt := lt_length_of_get? tokens pos w hget
  obtain ⟨n, hn⟩ : ∃ n, tokens.length = n + 1 := ⟨tokens.length - 1, by omega⟩
  unfold wordrun
  rw [hn]
  unfold wordrunLoop
  simp only [List.length_nil, Nat.cast_zero, zero_lt_one, if_true, Nat.add_zero, hget, hp, hs,
    Bool.false_eq_true, if_false, List.nil_append, Nat.zero_add]
  unfold wordrunLoop
  simp

/-- What the loop `Grams` has done when it is left: nothing, which happens only
when no n-gram is tried or the run of one word is not there; or it has emitted
the token at `pos` and moved one on; or it has emitted a replacement and moved
past the tokens consumed, none of which is punctuation. -/
theorem gramsLoop_step (lem : Lemmatizer) (tokens : List Token) (take : Nat) :
    ∀ (lemmatized : List Token) (pos : Nat) (out : List Token) (pos' : Nat),
      pos ≤ tokens.length → gramsLoop lem tokens take lemmatized pos = .value (out, pos') →
      (out = lemmatized ∧ pos' = pos ∧
        (take = 0 ∨ ∃ run c, wordrun tokens pos 1 = .value (run, c, false))) ∨
      (∃ token, tokens.get? pos = some token ∧ out = lemmatized ++ [token] ∧ pos' = pos + 1) ∨
      (∃ canonical consumed,
        out = lemmatized ++ [{ value := canonical, space := false, punct := false }] ∧
        pos' = pos + consumed ∧ 1 ≤ consumed ∧ pos + consumed ≤ tokens.length ∧
        ∀ token ∈ (tokens.drop pos).take consumed, token.IsPunct = false) := by
  induction take with
  | zero =>
    intro lemmatized pos out pos' _ h
    simp only [gramsLoop, Run.value.injEq, Prod.mk.injEq] at h
    exact Or.inl ⟨h.1.symm, h.2.symm, Or.inl rfl⟩
  | succ take ih =>
    intro lemmatized pos out pos' hpos h
    unfold gramsLoop at h
    cases hw : wordrun tokens pos (take + 1 : Nat) with
    | value r =>
      obtain ⟨run, consumed, ok⟩ := r
      rw [hw] at h
      simp only at h
      have hrec : gramsLoop lem tokens take lemmatized pos = .value (out, pos') →
          (take = 0 → ok = false) →
          (out = lemmatized ∧ pos' = pos ∧
            (take + 1 = 0 ∨ ∃ run c, wordrun tokens pos 1 = .value (run, c, false))) ∨
          (∃ token, tokens.get? pos = some token ∧ out = lemmatized ++ [token] ∧
            pos' = pos + 1) ∨
          (∃ canonical consumed,
            out = lemmatized ++ [{ value := canonical, space := false, punct := false }] ∧
            pos' = pos + consumed ∧ 1 ≤ consumed ∧ pos + consumed ≤ tokens.length ∧
            ∀ token ∈ (tokens.drop pos).take consumed, token.IsPunct = false) := by
        intro hg h0
        rcases ih lemmatized pos out pos' hpos hg with ⟨h1, h2, h3⟩ | h1 | h1
        · refine Or.inl ⟨h1, h2, Or.inr ?_⟩
          rcases h3 with h3 | h3
          · subst h3
            have hok := h0 rfl
            subst hok
            exact ⟨run, consumed, by simpa using hw⟩
          · exact h3
        · exact Or.inr (Or.inl h1)
        · exact Or.inr (Or.inr h1)
      cases ok with
      | true =>
        simp only [if_true] at h
        cases hv : lem.values (lem.normalize (Join run)) with
        | some canonical =>
          rw [hv] at h
          simp only [Run.value.injEq, Prod.mk.injEq] at h
          unfold wordrun at hw
          obtain ⟨_, h2, h3, h4, h5⟩ := wordrunLoop_ok tokens pos _ _ [] 0 run consumed hw
            (by simpa using hpos)
          simp only [Nat.add_zero, Nat.sub_zero, List.nil_append] at h2 h3 h4 h5
          have hlen : run.length ≤ consumed := by
            rw [h5]
            refine le_trans (List.length_filter_le _ _) ?_
            simp
          refine Or.inr (Or.inr ⟨canonical, consumed, h.1.symm, h.2.symm, ?_, h2, h4⟩)
          have : ((take + 1 : Nat) : Int) ≤ (run.length : Int) := h3
          omega
        | none =>
          rw [hv] at h
          simp only at h
          by_cases h1 : take + 1 = 1
          · rw [if_pos h1] at h
            have h0 : take = 0 := by omega
            subst h0
            cases hget : tokens.get? pos with
            | some token =>
              rw [hget] at h
              simp only [gramsLoop, Run.value.injEq, Prod.mk.injEq] at h
              exact Or.inr (Or.inl ⟨token, rfl, h.1.symm, h.2.symm⟩)
            | none =>
              rw [hget] at h
              exact absurd h (by simp)
          · rw [if_neg h1] at h
            exact hrec h (fun h0 => by omega)
      | false =>
        simp only [Bool.false_eq_true, if_false] at h
        exact hrec h (fun _ => rfl)
    | failed e => rw [hw] at h; exact absurd h (by simp)
    | panicked => rw [hw] at h; exact absurd h (by simp)
    | timeout => rw [hw] at h; exact absurd h (by simp)

/-- The loop `Grams` returns or panics. -/
theorem gramsLoop_outcome (lem : Lemmatizer) (tokens : List Token) (take : Nat) :
    ∀ (lemmatized : List Token) (pos : Nat), pos ≤ tokens.length →
      gramsLoop lem tokens take lemmatized pos = .panicked ∨
      ∃ r, gramsLoop lem tokens take lemmatized pos = .value r := by
  induction take with
  | zero => intro lemmatized pos _; exact Or.inr ⟨_, rfl⟩
  | succ take ih =>
    intro lemmatized pos hpos
    unfold gramsLoop
    rcases wordrunLoop_outcome tokens pos (take + 1 : Nat) (tokens.length + 1) [] 0
      (by simpa using hpos) (by omega) with hw | ⟨⟨run, consumed, ok⟩, hw⟩
    · unfold wordrun
      rw [hw]
      exact Or.inl rfl
    · unfold wordrun
      rw [hw]
      simp only
      cases ok with
      | true =>
        simp only [if_true]
        cases lem.values (lem.normalize (Join run)) with
        | some canonical => exact Or.inr ⟨_, rfl⟩
        | none =>
          simp only
          by_cases h1 : take + 1 = 1
          · rw [if_pos h1]
            have h0 : take = 0 := by omega
            subst h0
            cases tokens.get? pos with
            | some token => exact Or.inr ⟨_, rfl⟩
            | none => exact Or.inl rfl
          · rw [if_neg h1]
            exact ih lemmatized pos hpos
      | false =>
        simp only [Bool.false_eq_true, if_false]
        exact ih lemmatized pos hpos

theorem gramAt_found (lem : Lemmatizer) (tokens : List Token) (pos n : Nat) (c : String)
    (consumed : Nat) (h : gramAt lem tokens pos n = .value (some (c, consumed))) :
    ∃ run, wordrun tokens pos n = .value (run, consumed, true) ∧
      lem.values (lem.normalize (Join run)) = some c := by
  unfold gramAt at h
  cases hw : wordrun tokens pos n with
  | value r =>
    obtain ⟨run, consumed', ok⟩ := r
    rw [hw] at h
    simp only [Run.value.injEq] at h
    cases ok with
    | true =>
      simp only [if_true] at h
      cases hv : lem.values (lem.normalize (Join run)) with
      | none => rw [hv] at h; simp at h
      | some c' =>
        rw [hv] at h
        simp only [Option.map_some', Option.some.injEq, Prod.mk.injEq] at h
        obtain ⟨h1, h2⟩ := h
        subst h1; subst h2
        exact ⟨run, rfl, hv⟩
    | false => simp at h
  | failed e => rw [hw] at h; exact absurd h (by simp)
  | panicked => rw [hw] at h; exact absurd h (by simp)
  | timeout => rw [hw] at h; exact absurd h (by simp)

theorem gramAt_none (lem : Lemmatizer) (tokens : List Token) (pos n : Nat)
    (h : gramAt lem tokens pos n = .value none) :
    ∃ run consumed ok, wordrun tokens pos n = .value (run, consumed, ok) ∧
      (ok = true → lem.values (lem.normalize (Join run)) = none) := by
  unfold gramAt at h
  cases hw : wordrun tokens pos n with
  | value r =>
    obtain ⟨run, consumed, ok⟩ := r
    refine ⟨run, consumed, ok, rfl, fun hok => ?_⟩
    rw [hw] at h
    simp only [Run.value.injEq, hok, if_true] at h
    cases hv : lem.values (lem.normalize (Join run)) with
    | none => rfl
    | some c => rw [hv] at h; simp at h
  | failed e => rw [hw] at h; exact absurd h (by simp)
  | panicked => rw [hw] at h; exact absurd h (by simp)
  | timeout => rw [hw] at h; exact absurd h (by simp)

/-- The run `wordrun` returns with `ok` has `take` words. -/
theorem wordrunLoop_length (tokens : List Token) (skip : Nat) (take : Int) (fuel : Nat) :
    ∀ (taken : List Token) (consumed : Nat) (run : List Token) (c : Nat),
      wordrunLoop tokens skip take fuel taken consumed = .value (run, c, true) →
      (taken.length : Int) ≤ take → (run.length : Int) = take := by
  induction fuel with
  | zero => intro taken consumed run c h; simp [wordrunLoop] at h
  | succ n ih =>
    intro taken consumed run c h hle
    unfold wordrunLoop at h
    by_cases ht : (taken.length : Int) < take
    · rw [if_pos ht] at h
      simp only at h
      cases hget : tokens.get? (skip + consumed) with
      | none => rw [hget] at h; exact absurd h (by simp)
      | some candidate =>
        rw [hget] at h
        simp only at h
        by_cases hp : candidate.IsPunct = true
        · rw [if_pos hp] at h
          simp at h
        · rw [if_neg hp] at h
          by_cases hs : candidate.IsSpace = true
          · rw [if_pos hs] at h
            exact ih _ _ run c h hle
          · rw [if_neg hs] at h
            exact ih _ _ run c h (by simp; omega)
    · rw [if_neg ht] at h
      simp only [Run.value.injEq, Prod.mk.injEq, and_true] at h
      rw [← h.1]
      omega

/-- The loop `Grams` replaces the longest n-gram that is in the dictionary. -/
theorem gramsLoop_longest (lem : Lemmatizer) (tokens lemmatized : List Token) (pos n : Nat)
    (c : String) (consumed : Nat) (hn : 1 ≤ n)
    (hfound : gramAt lem tokens pos n = .value (some (c, consumed))) :
    ∀ m, n ≤ m → (∀ n', n < n' → n' ≤ m → gramAt lem tokens pos n' = .value none) →
      gramsLoop lem tokens m lemmatized pos
        = .value (lemmatized ++ [{ value := c, space := false, punct := false }],
            pos + consumed) := by
  intro m
  induction m with
  | zero => intro h; omega
  | succ m ih =>
    intro hm hnone
    unfold gramsLoop
    by_cases hnm : n = m + 1
    · subst hnm
      obtain ⟨run, hw, hv⟩ := gramAt_found lem tokens pos _ c consumed hfound
      simp only [hw, if_true, hv]
    · obtain ⟨run, cns, ok, hw, hv⟩ := gramAt_none lem tokens pos (m + 1)
        (hnone (m + 1) (by omega) (le_refl _))
      have hrec := ih (by omega) (fun n' h1 h2 => hnone n' h1 (by omega))
      simp only [hw]
      cases ok with
      | true =>
        simp only [if_true, hv rfl]
        rw [if_neg (by omega)]
        exact hrec
      | false =>
        simp only [Bool.false_eq_true, if_false]
        exact hrec

/-- When no n-gram is in the dictionary, the loop `Grams` emits the word. -/
theorem gramsLoop_no_match (lem : Lemmatizer) (tokens lemmatized : List Token) (pos : Nat)
    (token : Token) (hget : tokens.get? pos = some token) (hp : token.IsPunct = false)
    (hs : token.IsSpace = false) :
    ∀ m, 1 ≤ m → (∀ n', 1 ≤ n' → n' ≤ m → gramAt lem tokens pos n' = .value none) →
      gramsLoop lem tokens m lemmatized pos = .value (lemmatized ++ [token], pos + 1) := by
  intro m
  induction m with
  | zero => intro h; omega
  | succ m ih =>
    intro _ hnone
    unfold gramsLoop
    obtain ⟨run, cns, ok, hw, hv⟩ := gramAt_none lem tokens pos (m + 1)
      (hnone (m + 1) (by omega) (le_refl _))
    simp only [hw]
    by_cases hm : m = 0
    · subst hm
      have h1 := wordrun_single tokens pos token hget hp hs
      simp only [Nat.zero_add, Nat.cast_one] at hw
      rw [h1] at hw
      simp only [Run.value.injEq, Prod.mk.injEq] at hw
      obtain ⟨hrun, _, hok⟩ := hw
      subst hok
      simp only [if_true, hv rfl, Nat.zero_add, hget, gramsLoop]
    · have hrec := ih (by omega) (fun n' h1 h2 => hnone n' h1 (by omega))
      cases ok with
      | true =>
        simp only [if_true, hv rfl]
        rw [if_neg (by omega)]
        exact hrec
      | false =>
        simp only [Bool.false_eq_true, if_false]
        exact hrec

/-- What `LemmatizeTokens` does at a position at which the calls of `wordrun`
return.  At a word at index `pos`, with n-grams of up to `m` words tried: when
the n-gram of `n` words is in the dictionary and no longer one is, it emits one
token with the canonical value in place of the tokens consumed, which are the
stretch from `pos` on that holds the `n` words and the spaces between them, and
goes on after them; when no n-gram is in the dictionary it emits the word
unchanged and goes on after it.  A punctuation or space token met by the main
loop is emitted unchanged.  On the text of `TestLemmatizeTokens`, its quoted
part left out, the result is the text the test expects. -/
theorem lemmatize_longest_gram (lem : Lemmatizer) (tokens lemmatized : List Token) (pos : Nat)
    (current : Token) (hget : tokens.get? pos = some current) :
    ((current.IsPunct || current.IsSpace) = true → ∀ fuel,
      lemmatizeLoop lem tokens (fuel + 1) lemmatized pos
        = lemmatizeLoop lem tokens fuel (lemmatized ++ [current]) (pos + 1)) ∧
    ((current.IsPunct || current.IsSpace) = false →
      (∀ (n : Nat) (c : String) (consumed : Nat), 1 ≤ n → n ≤ lem.maxGramLength.toNat →
        gramAt lem tokens pos n = .value (some (c, consumed)) →
        (∀ n', n < n' → n' ≤ lem.maxGramLength.toNat →
          gramAt lem tokens pos n' = .value none) →
        (∀ fuel, lemmatizeLoop lem tokens (fuel + 1) lemmatized pos
          = lemmatizeLoop lem tokens fuel
              (lemmatized ++ [{ value := c, space := false, punct := false }])
              (pos + consumed)) ∧
        ∃ run, wordrun tokens pos n = .value (run, consumed, true) ∧ run.length = n ∧
          lem.values (lem.normalize (Join run)) = some c ∧
          pos + consumed ≤ tokens.length ∧
          (∀ token ∈ (tokens.drop pos).take consumed, token.IsPunct = false) ∧
          run = ((tokens.drop pos).take consumed).filter (fun token => !token.IsSpace)) ∧
      (1 ≤ lem.maxGramLength.toNat →
        (∀ n', 1 ≤ n' → n' ≤ lem.maxGramLength.toNat →
          gramAt lem tokens pos n' = .value none) →
        ∀ fuel, lemmatizeLoop lem tokens (fuel + 1) lemmatized pos
          = lemmatizeLoop lem tokens fuel (lemmatized ++ [current]) (pos + 1))) ∧
    ((TokenizeString techPolicy storyOriginal).map
        (fun toks => (storyLemmatizer.LemmatizeTokens (toks.length + 1) toks).map Join)
      = .value (.value storyExpected)) := by
  have hlt := lt_length_of_get? tokens pos current hget
  refine ⟨?_, ?_, by decide⟩
  · intro hc fuel
    conv_lhs => unfold lemmatizeLoop
    simp only [hlt, if_true, hget, hc]
  · intro hc
    have hp : current.IsPunct = false := by
      cases h : current.IsPunct
      · rfl
      · rw [h] at hc; simp at hc
    have hs : current.IsSpace = false := by
      cases h : current.IsSpace
      · rfl
      · rw [h] at hc; simp at hc
    refine ⟨?_, ?_⟩
    · intro n c consumed hn hnm hfound hnone
      refine ⟨?_, ?_⟩
      · intro fuel
        conv_lhs => unfold lemmatizeLoop
        simp only [hlt, if_true, hget, hc, Bool.false_eq_true, if_false,
          gramsLoop_longest lem tokens lemmatized pos n c consumed hn hfound _ hnm hnone]
      · obtain ⟨run, hw, hv⟩ := gramAt_found lem tokens pos n c consumed hfound
        have hw' := hw
        unfold wordrun at hw'
        obtain ⟨_, h2, h3, h4, h5⟩ := wordrunLoop_ok tokens pos _ _ [] 0 run consumed hw'
          (by omega)
        simp only [Nat.add_zero, Nat.sub_zero, List.nil_append] at h2 h3 h4 h5
        have hlen := wordrunLoop_length tokens pos n _ [] 0 run consumed hw' (by simp)
        exact ⟨run, hw, by exact_mod_cast hlen, hv, h2, h4, h5⟩
    · intro hm hnone fuel
      conv_lhs => unfold lemmatizeLoop
      simp only [hlt, if_true, hget, hc, Bool.false_eq_true, if_false,
        gramsLoop_no_match lem tokens lemmatized pos current hget hp hs _ hm hnone]

/-- An instance: at "Ruby" in "Ruby on Rails html5 and." the trigram is in the
dictionary; one token replaces the five tokens consumed. -/
theorem lemmatize_longest_gram_witness :
    html5Tokens.get? 0 = some (word "Ruby") ∧
    ∀ fuel, lemmatizeLoop html5Lemmatizer html5Tokens (fuel + 1) [] 0
      = lemmatizeLoop html5Lemmatizer html5Tokens fuel
          ([] ++ [{ value := "ruby-on-rails", space := false, punct := false }]) (0 + 5) :=
  ⟨rfl,
   (((lemmatize_longest_gram html5Lemmatizer html5Tokens [] 0 (word "Ruby") rfl).2.1 rfl).1
      3 "ruby-on-rails" 5 (by decide) (by decide) (by decide)
      (fun n' h1 h2 => by simp [html5Lemmatizer] at h2; omega)).1⟩

/-! ## Lemmatizer: termination and punctuation -/

/-- One iteration of the main loop at a token, with n-grams of one word at
least tried: it panics, or it emits one token and moves on by one token at
least. -/
theorem lemmatizeLoop_iteration (lem : Lemmatizer) (tokens : List Token)
    (hm : 1 ≤ lem.maxGramLength) (lemmatized : List Token) (pos : Nat) (current : Token)
    (hget : tokens.get? pos = some current) :
    (∀ fuel, lemmatizeLoop lem tokens (fuel + 1) lemmatized pos = .panicked) ∨
    ∃ token pos', pos < pos' ∧
      ∀ fuel, lemmatizeLoop lem tokens (fuel + 1) lemmatized pos
        = lemmatizeLoop lem tokens fuel (lemmatized ++ [token]) pos' := by
  have hlt := lt_length_of_get? tokens pos current hget
  by_cases hc : (current.IsPunct || current.IsSpace) = true
  · right
    refine ⟨current, pos + 1, by omega, fun fuel => ?_⟩
    conv_lhs => unfold lemmatizeLoop
    simp only [hlt, if_true, hget, hc]
  · have hp : current.IsPunct = false := by
      cases h : current.IsPunct
      · rfl
      · rw [h] at hc; simp at hc
    have hs : current.IsSpace = false := by
      cases h : current.IsSpace
      · rfl
      · rw [h] at hc; simp at hc
    rcases gramsLoop_outcome lem tokens lem.maxGramLength.toNat lemmatized pos (by omega)
      with hg | ⟨⟨out, pos'⟩, hg⟩
    · left
      intro fuel
      unfold lemmatizeLoop
      simp only [hlt, if_true, hget, hc, Bool.false_eq_true, if_false, hg]
    · right
      have hstep := gramsLoop_step lem tokens lem.maxGramLength.toNat lemmatized pos out pos'
        (by omega) hg
      have hone := wordrun_single tokens pos current hget hp hs
      have hloop : ∀ fuel, lemmatizeLoop lem tokens (fuel + 1) lemmatized pos
          = lemmatizeLoop lem tokens fuel out pos' := by
        intro fuel
        conv_lhs => unfold lemmatizeLoop
        simp only [hlt, if_true, hget, hc, Bool.false_eq_true, if_false, hg]
      rcases hstep with ⟨_, _, h3⟩ | ⟨token, _, h2, h3⟩ | ⟨canonical, consumed, h1, h2, h3, _⟩
      · exfalso
        rcases h3 with h3 | ⟨run, c, h3⟩
        · omega
        · rw [hone] at h3
          simp at h3
      · subst h2; subst h3
        exact ⟨token, pos + 1, by omega, hloop⟩
      · subst h1; subst h2
        exact ⟨_, pos + consumed, by omega, hloop⟩

/-- With n-grams of one word at least tried and one iteration allowed per token
left and one more, the main loop returns or panics, and what it returns holds
at most one token more per token left. -/
theorem lemmatizeLoop_bound (lem : Lemmatizer) (tokens : List Token)
    (hm : 1 ≤ lem.maxGramLength) (fuel : Nat) :
    ∀ (lemmatized : List Token) (pos : Nat), tokens.length - pos < fuel →
      lemmatizeLoop lem tokens fuel lemmatized pos = .panicked ∨
      ∃ out, lemmatizeLoop lem tokens fuel lemmatized pos = .value out ∧
        out.length ≤ lemmatized.length + (tokens.length - pos) := by
  induction fuel with
  | zero => intro lemmatized pos h; omega
  | succ n ih =>
    intro lemmatized pos hfuel
    by_cases hlt : pos < tokens.length
    · obtain ⟨current, hget⟩ : ∃ current, tokens.get? pos = some current := by
        cases h : tokens.get? pos with
        | none =>
          rw [List.get?_eq_none] at h
          omega
        | some current => exact ⟨current, rfl⟩
      rcases lemmatizeLoop_iteration lem tokens hm lemmatized pos current hget with
        h | ⟨token, pos', hpos, h⟩
      · exact Or.inl (h n)
      · rw [h n]
        rcases ih (lemmatized ++ [token]) pos' (by omega) with h1 | ⟨out, h1, h2⟩
        · exact Or.inl h1
        · refine Or.inr ⟨out, h1, ?_⟩
          simp at h2
          omega
    · right
      refine ⟨lemmatized, ?_, by omega⟩
      unfold lemmatizeLoop
      rw [if_neg hlt]

/-- The main loop returns a value only through iterations that kept to the
budget: what is said of the result with one budget holds with every budget. -/
theorem lemmatizeLoop_length (lem : Lemmatizer) (tokens : List Token)
    (hm : 1 ≤ lem.maxGramLength) (fuel : Nat) :
    ∀ (lemmatized : List Token) (pos : Nat) (out : List Token),
      lemmatizeLoop lem tokens fuel lemmatized pos = .value out →
      out.length ≤ lemmatized.length + (tokens.length - pos) := by
  induction fuel with
  | zero => intro lemmatized pos out h; simp [lemmatizeLoop] at h
  | succ n ih =>
    intro lemmatized pos out h
    by_cases hlt : pos < tokens.length
    · obtain ⟨current, hget⟩ : ∃ current, tokens.get? pos = some current := by
        cases h : tokens.get? pos with
        | none =>
          rw [List.get?_eq_none] at h
          omega
        | some current => exact ⟨current, rfl⟩
      rcases lemmatizeLoop_iteration lem tokens hm lemmatized pos current hget with
        h1 | ⟨token, pos', hpos, h1⟩
      · rw [h1 n] at h
        exact absurd h (by simp)
      · rw [h1 n] at h
        have := ih _ _ out h
        simp at this
        omega
    · unfold lemmatizeLoop at h
      rw [if_neg hlt] at h
      simp only [Run.value.injEq] at h
      rw [← h]
      omega

/-- With no n-gram tried, the main loop is never left once a word lies ahead. -/
theorem lemmatizeLoop_stuck (lem : Lemmatizer) (tokens : List Token)
    (hm : lem.maxGramLength ≤ 0) (fuel : Nat) :
    ∀ (lemmatized : List Token) (pos : Nat),
      (∃ j w, pos ≤ j ∧ tokens.get? j = some w ∧ w.isWord = true) →
      lemmatizeLoop lem tokens fuel lemmatized pos = .timeout := by
  induction fuel with
  | zero => intro lemmatized pos _; rfl
  | succ n ih =>
    intro lemmatized pos hw
    obtain ⟨j, w, hj, hget, hword⟩ := hw
    have hjl := lt_length_of_get? tokens j w hget
    have hlt : pos < tokens.length := by omega
    obtain ⟨current, hcur⟩ : ∃ current, tokens.get? pos = some current := by
      cases h : tokens.get? pos with
      | none =>
        rw [List.get?_eq_none] at h
        omega
      | some current => exact ⟨current, rfl⟩
    have h0 : lem.maxGramLength.toNat = 0 := by omega
    unfold lemmatizeLoop
    simp only [hlt, if_true, hcur]
    by_cases hc : (current.IsPunct || current.IsSpace) = true
    · rw [if_pos hc]
      apply ih
      refine ⟨j, w, ?_, hget, hword⟩
      by_contra hcon
      have hjp : j = pos := by omega
      subst hjp
      rw [hcur] at hget
      simp only [Option.some.injEq] at hget
      subst hget
      simp only [Token.isWord, Bool.and_eq_true, Bool.not_eq_true'] at hword
      simp [hword.1, hword.2] at hc
    · rw [if_neg hc, h0]
      simp only [gramsLoop]
      exact ih lemmatized pos ⟨j, w, hj, hget, hword⟩

/-- The iterations of the main loop of `LemmatizeTokens`.  With
`maxGramLength ≥ 1`, an iteration panics or emits exactly one token and moves
`pos` on by one at least; so with one iteration allowed per token and one more
the call returns or panics, and what it returns is never longer than the input.
With `maxGramLength ≤ 0` and a word in the input, the call does not return,
however many iterations are allowed: the loop never moves past the word. -/
theorem lemmatize_termination (lem : Lemmatizer) (tokens : List Token) :
    (1 ≤ lem.maxGramLength →
      (∀ (lemmatized : List Token) (pos : Nat) (current : Token),
        tokens.get? pos = some current →
        (∀ fuel, lemmatizeLoop lem tokens (fuel + 1) lemmatized pos = .panicked) ∨
        ∃ token pos', pos < pos' ∧
          ∀ fuel, lemmatizeLoop lem tokens (fuel + 1) lemmatized pos
            = lemmatizeLoop lem tokens fuel (lemmatized ++ [token]) pos') ∧
      (∀ fuel, tokens.length < fuel →
        lem.LemmatizeTokens fuel tokens = .panicked ∨
        ∃ out, lem.LemmatizeTokens fuel tokens = .value out ∧ out.length ≤ tokens.length) ∧
      (∀ fuel out, lem.LemmatizeTokens fuel tokens = .value out →
        out.length ≤ tokens.length)) ∧
    (lem.maxGramLength ≤ 0 → (∃ w ∈ tokens, w.isWord = true) →
      ∀ fuel, lem.LemmatizeTokens fuel tokens = .timeout) := by
  refine ⟨fun hm => ⟨fun lemmatized pos current hget =>
      lemmatizeLoop_iteration lem tokens hm lemmatized pos current hget, ?_, ?_⟩, ?_⟩
  · intro fuel hfuel
    have h := lemmatizeLoop_bound lem tokens hm fuel [] 0 (by omega)
    simpa [Lemmatizer.LemmatizeTokens] using h
  · intro fuel out h
    have := lemmatizeLoop_length lem tokens hm fuel [] 0 out h
    simpa using this
  · intro hm hw fuel
    obtain ⟨w, hmem, hword⟩ := hw
    obtain ⟨j, hj⟩ := List.get?_of_mem hmem
    exact lemmatizeLoop_stuck lem tokens hm fuel [] 0 ⟨j, w, Nat.zero_le _, hj, hword⟩

/-- An instance: the lemmatizer of the tests on "Ruby on Rails html5 and."
returns within eleven iterations; with `maxGramLength` 0 it does not return. -/
theorem lemmatize_termination_witness :
    (1 : Int) ≤ html5Lemmatizer.maxGramLength ∧
    (html5Lemmatizer.LemmatizeTokens 11 html5Tokens = .panicked ∨
      ∃ out, html5Lemmatizer.LemmatizeTokens 11 html5Tokens = .value out ∧
        out.length ≤ html5Tokens.length) ∧
    ∀ fuel, Lemmatizer.LemmatizeTokens { html5Lemmatizer with maxGramLength := 0 } fuel html5Tokens
      = .timeout :=
  ⟨by decide,
   ((lemmatize_termination html5Lemmatizer html5Tokens).1 (by decide)).2.1 11 (by decide),
   (lemmatize_termination { html5Lemmatizer with maxGramLength := 0 } html5Tokens).2
     (by decide) ⟨word "Ruby", by decide, rfl⟩⟩

theorem Lemmatized.punct {T O : List Token} (h : Lemmatized T O) :
    O.filter Token.IsPunct = T.filter Token.IsPunct := by
  induction h with
  | done => rfl
  | verbatim token _ ih => simp [List.filter_cons, ih]
  | replaced seg rest canonical _ hseg _ ih =>
    have hnone : seg.filter Token.IsPunct = [] := by
      rw [List.filter_eq_nil_iff]
      intro token htoken
      simp [hseg token htoken]
    rw [List.filter_append, hnone, List.nil_append, List.filter_cons]
    simp [Token.IsPunct, ih]

/-- What the main loop returns is what it had emitted followed by an output for
the tokens from `pos` on. -/
theorem lemmatizeLoop_lemmatized (lem : Lemmatizer) (tokens : List Token) (fuel : Nat) :
    ∀ (lemmatized : List Token) (pos : Nat) (out : List Token), pos ≤ tokens.length →
      lemmatizeLoop lem tokens fuel lemmatized pos = .value out →
      ∃ R, out = lemmatized ++ R ∧ Lemmatized (tokens.drop pos) R := by
  induction fuel with
  | zero => intro lemmatized pos out _ h; simp [lemmatizeLoop] at h
  | succ n ih =>
    intro lemmatized pos out hpos h
    unfold lemmatizeLoop at h
    by_cases hlt : pos < tokens.length
    · rw [if_pos hlt] at h
      cases hget : tokens.get? pos with
      | none => rw [hget] at h; exact absurd h (by simp)
      | some current =>
        rw [hget] at h
        simp only at h
        have hdrop := drop_eq_cons_of_get? tokens pos current hget
        by_cases hc : (current.IsPunct || current.IsSpace) = true
        · rw [if_pos hc] at h
          obtain ⟨R, h1, h2⟩ := ih _ _ out (by omega) h
          refine ⟨current :: R, by simp [h1], ?_⟩
          rw [hdrop]
          exact Lemmatized.verbatim current h2
        · rw [if_neg hc] at h
          cases hg : gramsLoop lem tokens lem.maxGramLength.toNat lemmatized pos with
          | value r =>
            obtain ⟨l', pos'⟩ := r
            rw [hg] at h
            simp only at h
            rcases gramsLoop_step lem tokens _ lemmatized pos l' pos' hpos hg with
              ⟨h1, h2, _⟩ | ⟨token, h1, h2, h3⟩ | ⟨canonical, consumed, h1, h2, h3, h4, h5⟩
            · subst h1; subst h2
              exact ih _ _ out hpos h
            · subst h2; subst h3
              rw [hget] at h1
              simp only [Option.some.injEq] at h1
              subst h1
              obtain ⟨R, h1, h2⟩ := ih _ _ out (by omega) h
              refine ⟨current :: R, by simp [h1], ?_⟩
              rw [hdrop]
              exact Lemmatized.verbatim current h2
            · subst h1; subst h2
              obtain ⟨R, h1, h2⟩ := ih _ _ out h4 h
              refine ⟨{ value := canonical, space := false, punct := false } :: R,
                by simp [h1], ?_⟩
              have hsplit : tokens.drop pos
                  = (tokens.drop pos).take consumed ++ tokens.drop (pos + consumed) := by
                rw [← List.drop_drop, List.take_append_drop]
              rw [hsplit]
              refine Lemmatized.replaced _ _ canonical ?_ h5 h2
              intro hnil
              have := congrArg List.length hnil
              simp at this
              omega
          | failed e => rw [hg] at h; exact absurd h (by simp)
          | panicked => rw [hg] at h; exact absurd h (by simp)
          | timeout => rw [hg] at h; exact absurd h (by simp)
    · rw [if_neg hlt] at h
      simp only [Run.value.injEq] at h
      refine ⟨[], by simp [h], ?_⟩
      rw [List.drop_eq_nil_of_le (by omega)]
      exact Lemmatized.done

/-- C29 (punctuation is never consumed).  On every input on which
`LemmatizeTokens` returns, the output is the input with some runs of tokens,
none of them punctuation, each replaced by one token that is no punctuation,
and the other tokens unchanged; so the punctuation tokens of the output are
those of the input, in the same order. -/
theorem lemmatize_keeps_punctuation (lem : Lemmatizer) (fuel : Nat) (tokens out : List Token)
    (h : lem.LemmatizeTokens fuel tokens = .value out) :
    Lemmatized tokens out ∧ out.filter Token.IsPunct = tokens.filter Token.IsPunct := by
  obtain ⟨R, h1, h2⟩ := lemmatizeLoop_lemmatized lem tokens fuel [] 0 out (Nat.zero_le _) h
  simp only [List.nil_append, List.drop_zero] at h1 h2
  subst h1
  exact ⟨h2, h2.punct⟩

/-- A witness of C29: "Ruby on Rails html5 and."; the period is the one
punctuation token of the input and of the output. -/
theorem lemmatize_keeps_punctuation_witness :
    html5Lemmatizer.LemmatizeTokens 11 html5Tokens
      = .value [word "ruby-on-rails", spaceToken, word "html5", spaceToken, word "and",
          punctToken "."] ∧
    List.filter Token.IsPunct
        [word "ruby-on-rails", spaceToken, word "html5", spaceToken, word "and", punctToken "."]
      = List.filter Token.IsPunct html5Tokens :=
  ⟨by decide,
   (lemmatize_keeps_punctuation html5Lemmatizer 11 html5Tokens
      [word "ruby-on-rails", spaceToken, word "html5", spaceToken, word "and", punctToken "."]
      (by decide)).2⟩

/-! ## Contractions -/

theorem keyTokens_ne_nil (P : Policy) (s : String) (h : s ≠ "") : keyTokens P s ≠ [] := by
  obtain ⟨toks, h1, h2⟩ := tokenize_round_trip_aux P s
  have hk : keyTokens P s = toks := by
    unfold keyTokens
    rw [h1]
  rw [hk]
  intro hnil
  rw [hnil, Join_nil] at h2
  exact h h2.symm

theorem foldl_Push (toks : List Token) :
    ∀ q : TokenQueue, toks.foldl TokenQueue.Push q = { Tokens := q.Tokens ++ toks } := by
  induction toks with
  | nil => intro q; simp
  | cons a toks ih =>
    intro q
    simp only [List.foldl_cons]
    rw [ih]
    simp [TokenQueue.Push]

/-- A pull with an empty queue, at the token `token`: the first token of its
expansion is returned and the others are queued. -/
theorem contractions_next_token (P : Policy) (mappings : String → Option String)
    (toLower : String → String) (hne : ∀ key expansion, mappings key = some expansion →
      expansion ≠ "") (token : Token) (I : List Token) :
    ∃ first rest, contractions.expansionOf P mappings toLower token = first :: rest ∧
      contractions.tokens.next P mappings toLower
          { incoming := { pending := token :: I, fail := none }, outgoing := { Tokens := [] } }
        = .value (some first,
            { incoming := { pending := I, fail := none }, outgoing := { Tokens := rest } }) := by
  have hstate : ∀ expansion, mappings token.String = some expansion ∨
      (mappings token.String = none ∧ mappings (toLower token.String) = some expansion) →
      contractions.expansionOf P mappings toLower token = keyTokens P expansion ∧
      ∃ first rest, keyTokens P expansion = first :: rest ∧
      contractions.tokens.next P mappings toLower
          { incoming := { pending := token :: I, fail := none }, outgoing := { Tokens := [] } }
        = .value (some first,
            { incoming := { pending := I, fail := none }, outgoing := { Tokens := rest } }) := by
    intro expansion hcase
    have hexp : expansion ≠ "" := by
      rcases hcase with h | ⟨_, h⟩
      · exact hne _ _ h
      · exact hne _ _ h
    obtain ⟨first, rest, hk⟩ : ∃ first rest, keyTokens P expansion = first :: rest := by
      cases h : keyTokens P expansion with
      | nil => exact absurd h (keyTokens_ne_nil P expansion hexp)
      | cons first rest => exact ⟨first, rest, rfl⟩
    refine ⟨?_, first, rest, hk, ?_⟩
    · unfold contractions.expansionOf
      rcases hcase with h | ⟨h0, h⟩
      · rw [h]
      · rw [h0]
        simp only [h]
    · unfold contractions.tokens.next
      simp only [TokenQueue.Any, List.length_nil, gt_iff_lt, lt_self_iff_false, decide_False,
        Bool.false_eq_true, if_false, Tokens.Next]
      rcases hcase with h | ⟨h0, h⟩
      · simp [contractions.tokens.tryExpansion, h, keyTokens_eq, foldl_Push, hk,
          contractions.tokens.emit, TokenQueue.Any, TokenQueue.Pop, TokenQueue.Push]
      · simp [contractions.tokens.tryExpansion, h0, h, keyTokens_eq, foldl_Push, hk,
          contractions.tokens.emit, TokenQueue.Any, TokenQueue.Pop, TokenQueue.Push]
  cases h1 : mappings token.String with
  | some expansion =>
    obtain ⟨h2, first, rest, h3, h4⟩ := hstate expansion (Or.inl h1)
    exact ⟨first, rest, by rw [h2, h3], h4⟩
  | none =>
    cases h2 : mappings (toLower token.String) with
    | some expansion =>
      obtain ⟨h3, first, rest, h4, h5⟩ := hstate expansion (Or.inr ⟨h1, h2⟩)
      exact ⟨first, rest, by rw [h3, h4], h5⟩
    | none =>
      refine ⟨token, [], by simp [contractions.expansionOf, h1, h2], ?_⟩
      unfold contractions.tokens.next
      simp [TokenQueue.Any, Tokens.Next, contractions.tokens.tryExpansion, h1, h2,
        contractions.tokens.emit]

/-- The expanding stream pulled to its end gives the queue followed by the
expansions of the tokens upstream, in order. -/
theorem contractions_ToSlice (P : Policy) (mappings : String → Option String)
    (toLower : String → String) (hne : ∀ key expansion, mappings key = some expansion →
      expansion ≠ "") (fuel : Nat) :
    ∀ (I O : List Token),
      O.length + (I.flatMap (contractions.expansionOf P mappings toLower)).length < fuel →
      contractions.tokens.ToSlice P mappings toLower fuel
          { incoming := { pending := I, fail := none }, outgoing := { Tokens := O } }
        = .value (O ++ I.flatMap (contractions.expansionOf P mappings toLower)) := by
  induction fuel with
  | zero => intro I O h; omega
  | succ n ih =>
    intro I O hfuel
    unfold contractions.tokens.ToSlice
    cases O with
    | cons a O1 =>
      have hnext : contractions.tokens.next P mappings toLower
          { incoming := { pending := I, fail := none }, outgoing := { Tokens := a :: O1 } }
          = .value (some a,
              { incoming := { pending := I, fail := none }, outgoing := { Tokens := O1 } }) := by
        simp [contractions.tokens.next, TokenQueue.Any, TokenQueue.Pop]
      simp only [hnext]
      rw [ih I O1 (by simp at hfuel ⊢; omega)]
      simp
    | nil =>
      cases I with
      | nil =>
        have hnext : contractions.tokens.next P mappings toLower
            { incoming := { pending := [], fail := none }, outgoing := { Tokens := [] } }
            = .value (none,
                { incoming := { pending := [], fail := none }, outgoing := { Tokens := [] } }) := by
          simp [contractions.tokens.next, TokenQueue.Any, Tokens.Next]
        simp only [hnext]
        simp
      | cons token I1 =>
        obtain ⟨first, rest, h1, h2⟩ := contractions_next_token P mappings toLower hne token I1
        simp only [h2]
        rw [ih I1 rest (by simp [h1] at hfuel ⊢; omega)]
        simp [h1]

/-- C25 (`contractions.Expand`).  With a table that holds no empty expansion,
for every upstream sequence that ends without error: the stream pulled to its
end gives, token by token in order, the tokens of the expansion of the token's
exact value when that is a key, else those of the expansion of its lower-cased
value when that is a key, else the token itself.  The nil token is returned
exactly when the queue of expansion tokens is empty and upstream has ended. -/
theorem contractions_expand (P : Policy) (mappings : String → Option String)
    (toLower : String → String)
    (hne : ∀ key expansion, mappings key = some expansion → expansion ≠ "") :
    (∀ (I : List Token) (fuel : Nat),
      (I.flatMap (contractions.expansionOf P mappings toLower)).length < fuel →
      contractions.tokens.ToSlice P mappings toLower fuel
          (contractions.Expand { pending := I, fail := none })
        = .value (I.flatMap (contractions.expansionOf P mappings toLower))) ∧
    (∀ (token : Token) (expansion : String), mappings token.String = some expansion →
      contractions.expansionOf P mappings toLower token = keyTokens P expansion) ∧
    (∀ (I O : List Token),
      (∃ t', contractions.tokens.next P mappings toLower
          { incoming := { pending := I, fail := none }, outgoing := { Tokens := O } }
        = .value (none, t')) ↔ (I = [] ∧ O = [])) := by
  refine ⟨?_, ?_, ?_⟩
  · intro I fuel hfuel
    have h := contractions_ToSlice P mappings toLower hne fuel I [] (by simpa using hfuel)
    simpa [contractions.Expand] using h
  · intro token expansion h
    simp [contractions.expansionOf, h]
  · intro I O
    constructor
    · rintro ⟨t', h⟩
      cases O with
      | cons a O1 =>
        simp [contractions.tokens.next, TokenQueue.Any, TokenQueue.Pop] at h
      | nil =>
        cases I with
        | nil => exact ⟨rfl, rfl⟩
        | cons token I1 =>
          obtain ⟨first, rest, _, h2⟩ := contractions_next_token P mappings toLower hne token I1
          rw [h2] at h
          simp at h
    · rintro ⟨hI, hO⟩
      subst hI; subst hO
      exact ⟨{ incoming := { pending := [], fail := none }, outgoing := { Tokens := [] } },
        by simp [contractions.tokens.next, TokenQueue.Any, Tokens.Next]⟩

/-- A witness of C25: "We've" has an entry of its own, "WE'VE" is found in
lower case, "Don't" likewise, "go" is in no entry. -/
theorem contractions_expand_witness :
    (∀ key expansion, contractions.testContractions key = some expansion → expansion ≠ "") ∧
    contractions.tokens.ToSlice techPolicy contractions.testContractions contractions.lower 11
        (contractions.Expand
          { pending := [word "We've", word "WE'VE", word "Don't", word "go"], fail := none })
      = .value [word "We", spaceToken, word "have", word "we", spaceToken, word "have",
          word "do", spaceToken, word "not", word "go"] := by
  have hne : ∀ key expansion, contractions.testContractions key = some expansion →
      expansion ≠ "" := by
    intro key expansion h
    unfold contractions.testContractions at h
    split at h
    · simp only [Option.some.injEq] at h; rw [← h]; decide
    · split at h
      · simp only [Option.some.injEq] at h; rw [← h]; decide
      · split at h
        · simp only [Option.some.injEq] at h; rw [← h]; decide
        · exact absurd h (by simp)
  exact ⟨hne, ((contractions_expand techPolicy contractions.testContractions contractions.lower
    hne).1 [word "We've", word "WE'VE", word "Don't", word "go"] 11 (by decide)).trans
    (by decide)⟩

/-! ## Lemmatizer: the words near the end of the input -/

/-- A result of the main loop other than the exhausted budget is the result
with every larger budget. -/
theorem lemmatizeLoop_more_fuel (lem : Lemmatizer) (tokens : List Token) (fuel : Nat) :
    ∀ (lemmatized : List Token) (pos : Nat),
      lemmatizeLoop lem tokens fuel lemmatized pos ≠ .timeout →
      ∀ k, lemmatizeLoop lem tokens (fuel + k) lemmatized pos
        = lemmatizeLoop lem tokens fuel lemmatized pos := by
  induction fuel with
  | zero => intro lemmatized pos h; exact absurd rfl h
  | succ n ih =>
    intro lemmatized pos h k
    have hk : n + 1 + k = (n + k) + 1 := by omega
    rw [hk]
    unfold lemmatizeLoop at h ⊢
    by_cases hlt : pos < tokens.length
    · simp only [hlt, if_true] at h ⊢
      cases hget : tokens.get? pos with
      | none => rfl
      | some current =>
        rw [hget] at h
        simp only at h ⊢
        by_cases hc : (current.IsPunct || current.IsSpace) = true
        · simp only [hc, if_true] at h ⊢
          exact ih _ _ h k
        · simp only [hc, if_false] at h ⊢
          cases hg : gramsLoop lem tokens lem.maxGramLength.toNat lemmatized pos with
          | value r =>
            rw [hg] at h
            simp only at h ⊢
            exact ih _ _ h k
          | failed e => rfl
          | panicked => rfl
          | timeout => rfl
    · simp only [hlt, if_false]

/-- C24 (longest n-gram), the example of the comment of `LemmatizeTokens`.  On
"I think Ruby on Rails is great", with n-grams of up to three words tried, the
call panics at "is": no n-gram at "is" is in the dictionary, so the claim and
the comment have "is" emitted unchanged, but `wordrun` asked for three words
reads past the end of the slice.  With a period after "great" the call returns
what the comment says. -/
theorem lemmatize_docstring_panics :
    docTokens.get? 10 = some (word "is") ∧
    gramAt testLemmatizer docTokens 10 1 = .value none ∧
    gramAt testLemmatizer docTokens 10 2 = .value none ∧
    wordrun docTokens 10 3 = .panicked ∧
    (∀ fuel lemmatized, lemmatizeLoop testLemmatizer docTokens (fuel + 1) lemmatized 10
      = .panicked) ∧
    (∀ fuel, testLemmatizer.LemmatizeTokens (fuel + 7) docTokens = .panicked) ∧
    (∀ fuel out, testLemmatizer.LemmatizeTokens fuel docTokens ≠ .value out) ∧
    testLemmatizer.LemmatizeTokens 15 (docTokens ++ [punctToken "."])
      = .value (docExpected ++ [punctToken "."]) := by
  have hpanic : testLemmatizer.LemmatizeTokens 7 docTokens = .panicked := by decide
  have hall : ∀ fuel, testLemmatizer.LemmatizeTokens (fuel + 7) docTokens = .panicked := by
    intro fuel
    have h := lemmatizeLoop_more_fuel testLemmatizer docTokens 7 [] 0
      (by
        have h7 : lemmatizeLoop testLemmatizer docTokens 7 [] 0 = .panicked := hpanic
        rw [h7]
        simp) fuel
    have hf : fuel + 7 = 7 + fuel := by omega
    unfold Lemmatizer.LemmatizeTokens
    rw [hf, h]
    exact hpanic
  refine ⟨by decide, by decide, by decide, by decide, ?_, hall, ?_, by decide⟩
  · intro fuel lemmatized
    unfold lemmatizeLoop
    have h0 : 10 < docTokens.length := by decide
    have hg : docTokens.get? 10 = some (word "is") := by decide
    have hc : ((word "is").IsPunct || (word "is").IsSpace) = false := by decide
    have hw3 : wordrun docTokens 10 ((2 + 1 : Nat) : Int) = .panicked := by decide
    have h : gramsLoop testLemmatizer docTokens testLemmatizer.maxGramLength.toNat lemmatized 10
        = .panicked := by
      have h3 : testLemmatizer.maxGramLength.toNat = 2 + 1 := by decide
      rw [h3]
      unfold gramsLoop
      rw [hw3]
    simp only [h0, if_true, hg, hc, h, Bool.false_eq_true, if_false]
  · intro fuel out h
    have h0 : lemmatizeLoop testLemmatizer docTokens fuel [] 0 = .value out := h
    have h1 := lemmatizeLoop_more_fuel testLemmatizer docTokens fuel [] 0
      (by rw [h0]; simp) 7
    have h2 : lemmatizeLoop testLemmatizer docTokens (fuel + 7) [] 0 = .panicked := hall fuel
    rw [h1, h0] at h2
    exact absurd h2 (by simp)
/-- C28 (termination of `LemmatizeTokens`), the end of the text of `TestTSV`.
With `maxGramLength` 3, on the tokens "java", " ", "script" the first iteration
of the main loop emits no token and does not move `pos` on: it panics, so the
call returns with no budget of iterations.  With a period after "script" every
iteration emits one token and the call returns. -/
theorem lemmatize_iteration_panics :
    (1 : Int) ≤ testLemmatizer.maxGramLength ∧
    (∀ fuel lemmatized, lemmatizeLoop testLemmatizer testTSVTail (fuel + 1) lemmatized 0
      = .panicked) ∧
    (∀ fuel out, testLemmatizer.LemmatizeTokens fuel testTSVTail ≠ .value out) ∧
    testLemmatizer.LemmatizeTokens 5 (testTSVTail ++ [punctToken "."])
      = .value [word "javascript", punctToken "."] := by
  have hiter : ∀ fuel lemmatized,
      lemmatizeLoop testLemmatizer testTSVTail (fuel + 1) lemmatized 0 = .panicked := by
    intro fuel lemmatized
    unfold lemmatizeLoop
    have h0 : 0 < testTSVTail.length := by decide
    have hg : testTSVTail.get? 0 = some (word "java") := by decide
    have hc : ((word "java").IsPunct || (word "java").IsSpace) = false := by decide
    have hw3 : wordrun testTSVTail 0 ((2 + 1 : Nat) : Int) = .panicked := by decide
    have h : gramsLoop testLemmatizer testTSVTail testLemmatizer.maxGramLength.toNat lemmatized 0
        = .panicked := by
      have h3 : testLemmatizer.maxGramLength.toNat = 2 + 1 := by decide
      rw [h3]
      unfold gramsLoop
      rw [hw3]
    simp only [h0, if_true, hg, hc, h, Bool.false_eq_true, if_false]
  refine ⟨by decide, hiter, ?_, by decide⟩
  intro fuel out h
  cases fuel with
  | zero => simp [Lemmatizer.LemmatizeTokens, lemmatizeLoop] at h
  | succ n =>
    unfold Lemmatizer.LemmatizeTokens at h
    rw [hiter n []] at h
    exact absurd h (by simp)

end Jargon
